import Mathlib

/-!
# Hash table with four collision strategies (`HashTable.h`)

A shallow embedding of the class template `HashTable<K, V>` of `HashTable.h`
(separate chaining, linear probing, quadratic probing, double hashing, with
growth by rehashing), followed by the properties proved about it.

Modelling conventions.

* `size_t` values are natural numbers; table sizes are far below the word size,
  so no arithmetic of the class wraps around.  The size requested from the
  constructor is an argument of the program and can be any `size_t`, so the
  prime utilities and the constructor are given in 64-bit arithmetic as well
  (`isPrime64`, `nextPrime64`, `HashTable.new64`); `nextPrime64_eq` and
  `prime_below_wrap` show that nothing wraps around for requests up to `2 ^ 62`.
* `std::hash<K>` is the parameter `hash : K → Nat`.
* `std::vector` is `List`; a default-constructed `std::pair<K, V>` is
  `(default, default)`.
* A `throw` is `Except.error Error.hashTableFull`; a remainder by zero (undefined
  behaviour in the source) is `Error.divisionByZero`.
* Every loop of the source is a recursion on a step budget that is larger
  than the number of iterations the loop can make.  In the member functions
  running out of the budget is the separate outcome `Error.outOfFuel`, so
  that it can never be mistaken for a result of the program.  `isPrime` and
  `nextPrime` return plain values; `isPrime_iff` and `nextPrime_unfold` show
  that their budgets are never used up.
* `insert` and `rehash` call each other; the first argument of `insert`
  bounds the depth of that recursion, and `insert_balanced` shows that depth
  one is all that a reachable table needs.
* A moved-from `std::vector` is empty, so `resize` in `rehash` yields fresh
  storage.
* The comparison `currentSize > tableSize * 0.75` is made in `double`; both
  sides are exact there, so it is `4 * currentSize > 3 * tableSize`.
* The two lines that `rehash` writes to `std::cout` are recorded in the field
  `cout`, which is how the number of rehashes becomes observable.
-/

namespace HT

/-! ## Prime utilities -/

/-- The `for` loop of `isPrime`: `for (i = 5; i * i <= n; i += 6)`. -/
def isPrimeLoop (n : Nat) : Nat → Nat → Bool
  | 0, _ => true
  | fuel + 1, i =>
    if i * i ≤ n then
      if n % i == 0 || n % (i + 2) == 0 then false
      else isPrimeLoop n fuel (i + 6)
    else true

/-- The function `isPrime` of `HashTable.h`.  The loop is given `n` steps; it
makes fewer, because `i ≤ i * i ≤ n` holds on every iteration. -/
def isPrime (n : Nat) : Bool :=
  if n ≤ 1 then false
  else if n ≤ 3 then true
  else if n % 2 == 0 || n % 3 == 0 then false
  else isPrimeLoop n n 5

/-- The `while (!isPrime(n)) ++n;` loop of `nextPrime`. -/
def nextPrimeLoop : Nat → Nat → Nat
  | 0, n => n
  | fuel + 1, n => if isPrime n then n else nextPrimeLoop fuel (n + 1)

/-- The function `nextPrime` of `HashTable.h` on the natural numbers (for the
64-bit function see `nextPrime64`).  The loop is given `n + 2` steps;
`nextPrime_unfold` shows that this is the unbounded loop of the source. -/
def nextPrime (n : Nat) : Nat := nextPrimeLoop (n + 2) n

/-! ## Prime utilities in 64-bit arithmetic

`size_t` is a 64-bit word here: `i * i`, `i + 2`, `i += 6` and `++n` are taken
modulo `2 ^ 64`.  The loops keep their step budgets, and running out of a budget
is the separate outcome `none`. -/

/-- The `for` loop of `isPrime` with 64-bit arithmetic.  (`i` is odd throughout,
so neither divisor is 0.) -/
def isPrimeLoop64 (n : Nat) : Nat → Nat → Option Bool
  | 0, _ => none
  | fuel + 1, i =>
    if (i * i) % 2 ^ 64 ≤ n then
      if n % i == 0 || n % ((i + 2) % 2 ^ 64) == 0 then some false
      else isPrimeLoop64 n fuel ((i + 6) % 2 ^ 64)
    else some true

/-- The function `isPrime` of `HashTable.h` with 64-bit arithmetic. -/
def isPrime64 (n : Nat) : Option Bool :=
  if n ≤ 1 then some false
  else if n ≤ 3 then some true
  else if n % 2 == 0 || n % 3 == 0 then some false
  else isPrimeLoop64 n n 5

/-- The `while (!isPrime(n)) ++n;` loop of `nextPrime` with 64-bit arithmetic:
after `2 ^ 64 - 1` comes 0. -/
def nextPrimeLoop64 : Nat → Nat → Option Nat
  | 0, _ => none
  | fuel + 1, n =>
    match isPrime64 n with
    | none => none
    | some true => some n
    | some false => nextPrimeLoop64 fuel ((n + 1) % 2 ^ 64)

/-- The function `nextPrime` of `HashTable.h` with 64-bit arithmetic. -/
def nextPrime64 (n : Nat) : Option Nat := nextPrimeLoop64 (n + 3) n

/-! ## The table -/

/-- The enumeration `CollisionMethod`. -/
inductive CollisionMethod
  | CHAINING
  | LINEAR_PROBING
  | QUADRATIC_PROBING
  | DOUBLE_HASHING
  deriving DecidableEq, Repr

/-- The ways in which a call does not return normally. -/
inductive Error
  /-- The `std::runtime_error("Hash table full: ...")` thrown by `probe`. -/
  | hashTableFull
  /-- A remainder by zero. -/
  | divisionByZero
  /-- The step budget of the model ran out (not an outcome of the program). -/
  | outOfFuel
  deriving DecidableEq, Repr

/-- A line written to `std::cout` by `rehash`. -/
inductive Output
  /-- `Rehashing... Current table size: n`. -/
  | rehashing (n : Nat)
  /-- `Rehash complete. New table size: n`. -/
  | rehashComplete (n : Nat)
  deriving DecidableEq, Repr

/-- The data members of `HashTable<K, V>`, and the output written so far. -/
structure HashTable (K V : Type) where
  chainedTable : List (List (K × V))
  probedTable : List (K × V)
  isOccupied : List Bool
  tableSize : Nat
  currentSize : Nat
  collisionMethod : CollisionMethod
  cout : List Output
  deriving DecidableEq, Repr

open CollisionMethod

section Operations

variable {K V : Type} [DecidableEq K] [Inhabited K] [Inhabited V]

/-- The constructor `HashTable(size, method)`. -/
def HashTable.new (size : Nat) (method : CollisionMethod) : HashTable K V :=
  let tableSize := nextPrime size
  if method = CHAINING then
    { chainedTable := List.replicate tableSize [], probedTable := [], isOccupied := [],
      tableSize := tableSize, currentSize := 0, collisionMethod := method, cout := [] }
  else
    { chainedTable := [], probedTable := List.replicate tableSize default,
      isOccupied := List.replicate tableSize false,
      tableSize := tableSize, currentSize := 0, collisionMethod := method, cout := [] }

/-- The constructor `HashTable(size, method)` with the 64-bit `nextPrime`. -/
def HashTable.new64 (size : Nat) (method : CollisionMethod) : Option (HashTable K V) :=
  match nextPrime64 size with
  | none => none
  | some tableSize =>
    if method = CHAINING then
      some { chainedTable := List.replicate tableSize [], probedTable := [], isOccupied := [],
             tableSize := tableSize, currentSize := 0, collisionMethod := method, cout := [] }
    else
      some { chainedTable := [], probedTable := List.replicate tableSize default,
             isOccupied := List.replicate tableSize false,
             tableSize := tableSize, currentSize := 0, collisionMethod := method, cout := [] }

variable (hash : K → Nat)

/-- The member `hashFunction`: `std::hash<K>{}(key) % tableSize`. -/
def hashFunction (t : HashTable K V) (key : K) : Except Error Nat :=
  if t.tableSize = 0 then .error .divisionByZero
  else .ok (hash key % t.tableSize)

/-- The member `probe`. -/
def probe (t : HashTable K V) (index i : Nat) (key : K) : Except Error Nat :=
  if i ≥ t.tableSize then .error .hashTableFull
  else if t.collisionMethod = LINEAR_PROBING then
    .ok ((index + i) % t.tableSize)
  else if t.collisionMethod = QUADRATIC_PROBING then
    .ok ((index + i * i) % t.tableSize)
  else if t.collisionMethod = DOUBLE_HASHING then
    if t.tableSize - 1 = 0 then .error .divisionByZero
    else
      let step := 1 + hash key % (t.tableSize - 1)
      let step := if step = 0 then 1 else step
      .ok ((index + step * i) % t.tableSize)
  else .ok index

/-- The loop `while (isOccupied[probe(index, i, key)]) i++;` of `insert`,
started at attempt `i`; the result is the final value of `i`. -/
def insertLoop (t : HashTable K V) (index : Nat) (key : K) :
    Nat → Nat → Except Error Nat
  | 0, _ => .error .outOfFuel
  | fuel + 1, i =>
    match probe hash t index i key with
    | .error e => .error e
    | .ok p =>
      if t.isOccupied.getD p false then insertLoop t index key fuel (i + 1)
      else .ok i

/-- The part of `insert` before the load-factor test: store the pair and
increment `currentSize`. -/
def insertEntry (t : HashTable K V) (key : K) (value : V) :
    Except Error (HashTable K V) :=
  match hashFunction hash t key with
  | .error e => .error e
  | .ok index =>
    if t.collisionMethod = CHAINING then
      .ok { t with
        chainedTable :=
          t.chainedTable.set index (t.chainedTable.getD index [] ++ [(key, value)])
        currentSize := t.currentSize + 1 }
    else
      match insertLoop hash t index key (t.tableSize + 1) 0 with
      | .error e => .error e
      | .ok i =>
        match probe hash t index i key with
        | .error e => .error e
        | .ok p =>
          .ok { t with
            probedTable := t.probedTable.set p (key, value)
            isOccupied := t.isOccupied.set p true
            currentSize := t.currentSize + 1 }

/-- The inner loop of `rehash` for chaining: re-insert the pairs of a bucket. -/
def reinsertBucket (ins : HashTable K V → K → V → Except Error (HashTable K V)) :
    HashTable K V → List (K × V) → Except Error (HashTable K V)
  | t, [] => .ok t
  | t, pair :: rest =>
    match ins t pair.1 pair.2 with
    | .error e => .error e
    | .ok t1 => reinsertBucket ins t1 rest

/-- The outer loop of `rehash` for chaining: `for (const auto& bucket : oldTable)`. -/
def reinsertBuckets (ins : HashTable K V → K → V → Except Error (HashTable K V)) :
    HashTable K V → List (List (K × V)) → Except Error (HashTable K V)
  | t, [] => .ok t
  | t, bucket :: rest =>
    match reinsertBucket ins t bucket with
    | .error e => .error e
    | .ok t1 => reinsertBuckets ins t1 rest

/-- The loop of `rehash` for open addressing, over the slot indices
`for (size_t i = 0; i < oldSize; ++i)`, given as a list. -/
def reinsertSlots (ins : HashTable K V → K → V → Except Error (HashTable K V))
    (oldTable : List (K × V)) (oldOccupied : List Bool) :
    HashTable K V → List Nat → Except Error (HashTable K V)
  | t, [] => .ok t
  | t, i :: rest =>
    if oldOccupied.getD i false then
      match ins t (oldTable.getD i default).1 (oldTable.getD i default).2 with
      | .error e => .error e
      | .ok t1 => reinsertSlots ins oldTable oldOccupied t1 rest
    else reinsertSlots ins oldTable oldOccupied t rest

/-- The member `rehash`; `ins` is the member `insert` that it calls. -/
def rehash (ins : HashTable K V → K → V → Except Error (HashTable K V))
    (t : HashTable K V) : Except Error (HashTable K V) :=
  let oldSize := t.tableSize
  let newSize := nextPrime (t.tableSize * 2)
  let t1 : HashTable K V :=
    { t with
      cout := t.cout ++ [Output.rehashing t.tableSize]
      tableSize := newSize
      currentSize := 0 }
  let r :=
    if t.collisionMethod = CHAINING then
      reinsertBuckets ins { t1 with chainedTable := List.replicate newSize [] }
        t.chainedTable
    else
      reinsertSlots ins t.probedTable t.isOccupied
        { t1 with
          probedTable := List.replicate newSize default
          isOccupied := List.replicate newSize false }
        (List.range oldSize)
  match r with
  | .error e => .error e
  | .ok t2 => .ok { t2 with cout := t2.cout ++ [Output.rehashComplete t2.tableSize] }

/-- The member `insert`.  `insert` and `rehash` call each other; the first
argument bounds the depth of that recursion. -/
def insert : Nat → HashTable K V → K → V → Except Error (HashTable K V)
  | 0 => fun t key value =>
    match insertEntry hash t key value with
    | .error e => .error e
    | .ok t1 =>
      if 4 * t1.currentSize > 3 * t1.tableSize then .error .outOfFuel
      else .ok t1
  | fuel + 1 => fun t key value =>
    match insertEntry hash t key value with
    | .error e => .error e
    | .ok t1 =>
      if 4 * t1.currentSize > 3 * t1.tableSize then rehash (insert fuel) t1
      else .ok t1

/-- The `for` loop over a bucket in `retrieve`. -/
def retrieveBucket (key : K) : List (K × V) → Option V
  | [] => none
  | pair :: rest => if pair.1 = key then some pair.2 else retrieveBucket key rest

/-- The `while` loop of `retrieve` for open addressing, started at attempt `i`. -/
def retrieveLoop (t : HashTable K V) (index : Nat) (key : K) :
    Nat → Nat → Except Error (Option V)
  | 0, _ => .error .outOfFuel
  | fuel + 1, i =>
    match probe hash t index i key with
    | .error e => .error e
    | .ok p =>
      if t.isOccupied.getD p false then
        if (t.probedTable.getD p default).1 = key then
          .ok (some (t.probedTable.getD p default).2)
        else retrieveLoop t index key fuel (i + 1)
      else .ok none

/-- The member `retrieve`: `some value` for `true` with the value written to
the out-parameter, `none` for `false`. -/
def retrieve (t : HashTable K V) (key : K) : Except Error (Option V) :=
  match hashFunction hash t key with
  | .error e => .error e
  | .ok index =>
    if t.collisionMethod = CHAINING then
      .ok (retrieveBucket key (t.chainedTable.getD index []))
    else retrieveLoop hash t index key (t.tableSize + 1) 0

/-- The `for` loop over a bucket in `remove`: the bucket without its first
pair for `key`, or `none` when there is no such pair. -/
def removeBucket (key : K) : List (K × V) → Option (List (K × V))
  | [] => none
  | pair :: rest =>
    if pair.1 = key then some rest
    else
      match removeBucket key rest with
      | none => none
      | some rest1 => some (pair :: rest1)

/-- The `while` loop of `remove` for open addressing, started at attempt `i`:
the slot to clear, or `none` when the loop ends on an unoccupied slot. -/
def removeLoop (t : HashTable K V) (index : Nat) (key : K) :
    Nat → Nat → Except Error (Option Nat)
  | 0, _ => .error .outOfFuel
  | fuel + 1, i =>
    match probe hash t index i key with
    | .error e => .error e
    | .ok p =>
      if t.isOccupied.getD p false then
        if (t.probedTable.getD p default).1 = key then .ok (some p)
        else removeLoop t index key fuel (i + 1)
      else .ok none

/-- The member `remove`: the returned flag and the table afterwards. -/
def remove (t : HashTable K V) (key : K) : Except Error (Bool × HashTable K V) :=
  match hashFunction hash t key with
  | .error e => .error e
  | .ok index =>
    if t.collisionMethod = CHAINING then
      match removeBucket key (t.chainedTable.getD index []) with
      | some bucket => .ok (true, { t with chainedTable := t.chainedTable.set index bucket })
      | none => .ok (false, t)
    else
      match removeLoop hash t index key (t.tableSize + 1) 0 with
      | .error e => .error e
      | .ok (some p) => .ok (true, { t with isOccupied := t.isOccupied.set p false })
      | .ok none => .ok (false, t)

/-- A sequence of `insert` calls, each given the recursion bound `fuel`. -/
def insertAll (fuel : Nat) : HashTable K V → List (K × V) → Except Error (HashTable K V)
  | t, [] => .ok t
  | t, pair :: rest =>
    match insert hash fuel t pair.1 pair.2 with
    | .error e => .error e
    | .ok t1 => insertAll fuel t1 rest

/-! ## Runs of the public interface -/

/-- An operation of the public interface that changes the table. -/
inductive Op (K V : Type)
  | insert (key : K) (value : V)
  | remove (key : K)

/-- One call of the public interface; the flag returned by `remove` is dropped. -/
def applyOp (fuel : Nat) (t : HashTable K V) : Op K V → Except Error (HashTable K V)
  | .insert key value => insert hash fuel t key value
  | .remove key =>
    match remove hash t key with
    | .error e => .error e
    | .ok r => .ok r.2

/-- A sequence of calls, each of which has to return normally. -/
def runOps (fuel : Nat) : HashTable K V → List (Op K V) → Except Error (HashTable K V)
  | t, [] => .ok t
  | t, op :: rest =>
    match applyOp hash fuel t op with
    | .error e => .error e
    | .ok t1 => runOps fuel t1 rest

/-- The table states that a program can produce: construct a table, then call
`insert` and `remove` any number of times. -/
def Reachable (t : HashTable K V) : Prop :=
  ∃ (size : Nat) (method : CollisionMethod) (fuel : Nat) (ops : List (Op K V)),
    runOps hash fuel (HashTable.new size method) ops = .ok t

/-- The flag returned by a call of `remove`. -/
def removeFlag (t : HashTable K V) (key : K) : Except Error Bool :=
  match remove hash t key with
  | .error e => .error e
  | .ok r => .ok r.1

/-- The flag returned by a call of `retrieve`. -/
def retrieveFlag (t : HashTable K V) (key : K) : Except Error Bool :=
  match retrieve hash t key with
  | .error e => .error e
  | .ok r => .ok r.isSome

/-! ## Stored pairs and invariants -/

/-- The pairs that `rehash` re-inserts, in the order in which it visits them:
bucket by bucket for chaining, occupied slot by occupied slot otherwise. -/
def entries (t : HashTable K V) : List (K × V) :=
  if t.collisionMethod = CHAINING then t.chainedTable.flatten
  else
    (List.range t.tableSize).filterMap fun i =>
      if t.isOccupied.getD i false then some (t.probedTable.getD i default) else none

/-- The table with which the re-insertion loop of `rehash` starts: the new
capacity, entry count 0, fresh storage, and the first line of output. -/
def rehashStart (t : HashTable K V) : HashTable K V :=
  if t.collisionMethod = CHAINING then
    { t with
      cout := t.cout ++ [Output.rehashing t.tableSize]
      tableSize := nextPrime (t.tableSize * 2)
      currentSize := 0
      chainedTable := List.replicate (nextPrime (t.tableSize * 2)) [] }
  else
    { t with
      cout := t.cout ++ [Output.rehashing t.tableSize]
      tableSize := nextPrime (t.tableSize * 2)
      currentSize := 0
      probedTable := List.replicate (nextPrime (t.tableSize * 2)) default
      isOccupied := List.replicate (nextPrime (t.tableSize * 2)) false }

/-- The distance from the base index at attempt `i`, as `probe` computes it
for the three open-addressing strategies. -/
def probeOffset (t : HashTable K V) (key : K) (i : Nat) : Nat :=
  if t.collisionMethod = LINEAR_PROBING then i
  else if t.collisionMethod = QUADRATIC_PROBING then i * i
  else (1 + hash key % (t.tableSize - 1)) * i

/-- The representation invariant of the class: the capacity is a prime and the
storage of the chosen strategy has exactly that many buckets or slots. -/
def WellFormed (t : HashTable K V) : Prop :=
  Nat.Prime t.tableSize ∧
  (t.collisionMethod = CHAINING → t.chainedTable.length = t.tableSize) ∧
  (t.collisionMethod ≠ CHAINING →
    t.probedTable.length = t.tableSize ∧ t.isOccupied.length = t.tableSize)

/-- The invariant behind the growth policy: the table is well formed, it
stores at most `currentSize` pairs, and `currentSize` is at most 0.75 times
the capacity. -/
def Balanced (t : HashTable K V) : Prop :=
  WellFormed t ∧ (entries t).length ≤ t.currentSize ∧
    4 * t.currentSize ≤ 3 * t.tableSize

/-- Every stored pair is where a search for its key passes: under chaining in
the bucket of its hash value; under open addressing in a slot of the probe
sequence of its key, with only occupied slots before it in that sequence. -/
def Homed (t : HashTable K V) : Prop :=
  (t.collisionMethod = CHAINING →
    ∀ b, ∀ pair ∈ t.chainedTable.getD b [], hash pair.1 % t.tableSize = b) ∧
  (t.collisionMethod ≠ CHAINING →
    ∀ s, t.isOccupied.getD s false = true →
      ∃ i, probe hash t (hash (t.probedTable.getD s default).1 % t.tableSize) i
          (t.probedTable.getD s default).1 = .ok s ∧
        ∀ j, j < i →
          ∃ q, probe hash t (hash (t.probedTable.getD s default).1 % t.tableSize) j
              (t.probedTable.getD s default).1 = .ok q ∧
            t.isOccupied.getD q false = true)

/-- No key is stored twice. -/
def DistinctKeys (t : HashTable K V) : Prop :=
  ((entries t).map Prod.fst).Nodup

/-- The invariant of a table into which each key was inserted at most once
and from which nothing was removed. -/
def Sound (t : HashTable K V) : Prop :=
  WellFormed t ∧ Homed hash t ∧ DistinctKeys t

end Operations

/-- The number `p` is the smallest prime that is at least `n`. -/
def IsLeastPrimeGE (n p : Nat) : Prop :=
  Nat.Prime p ∧ n ≤ p ∧ ∀ q, Nat.Prime q → n ≤ q → p ≤ q

/-! ## Concrete tables and scenarios

Keys and values are natural numbers and the hash function is the identity. -/

deriving instance DecidableEq for Except

/-- The result of a call, or `fallback` when the call did not return normally. -/
def resultOr {α : Type} (fallback : α) : Except Error α → α
  | .ok a => a
  | .error _ => fallback

/-- The pairs `(a, a), (a + 1, a + 1), …` (`n` of them), the workload of the
driver with numbers in place of their decimal strings. -/
def workload (a n : Nat) : List (Nat × Nat) := (List.range n).map fun i => (a + i, a + i)

/-- The operations that insert the pairs of a list. -/
def insertOps {K V : Type} (l : List (K × V)) : List (Op K V) :=
  l.map fun pair => Op.insert pair.1 pair.2

/-- Scenario: on a table requested with capacity 10, `insert(5, 1)` and then
`insert(5, 2)`, with the identity as hash; the results are `currentSize` after
the first call, `currentSize` after the second call, and what `retrieve(5)`
returns at the end. -/
def overwriteScenario (m : CollisionMethod) : Except Error (Nat × Nat × Option Nat) :=
  match insert (fun k : Nat => k) 1 (HashTable.new 10 m : HashTable Nat Nat) 5 1 with
  | .error e => .error e
  | .ok t1 =>
    match insert (fun k : Nat => k) 1 t1 5 2 with
    | .error e => .error e
    | .ok t2 =>
      match retrieve (fun k : Nat => k) t2 5 with
      | .error e => .error e
      | .ok r => .ok (t1.currentSize, t2.currentSize, r)

/-- Scenario: on a table requested with capacity 10, `insert(5, 1)` and then
`remove(5)`, with the identity as hash; the results are the flag returned by
`remove`, `currentSize` before it and `currentSize` after it. -/
def removeScenario (m : CollisionMethod) : Except Error (Bool × Nat × Nat) :=
  match insert (fun k : Nat => k) 1 (HashTable.new 10 m : HashTable Nat Nat) 5 1 with
  | .error e => .error e
  | .ok t1 =>
    match remove (fun k : Nat => k) t1 5 with
    | .error e => .error e
    | .ok r => .ok (r.1, t1.currentSize, r.2.currentSize)

/-- Scenario: on a chaining table requested with capacity 10, `insert(5, 1)`,
`insert(5, 2)` and `remove(5)`; the results are the flag returned by `remove`
and what `retrieve(5)` returns afterwards. -/
def removeDuplicateScenario : Except Error (Bool × Option Nat) :=
  match insert (fun k : Nat => k) 1 (HashTable.new 10 CHAINING : HashTable Nat Nat) 5 1 with
  | .error e => .error e
  | .ok t1 =>
    match insert (fun k : Nat => k) 1 t1 5 2 with
    | .error e => .error e
    | .ok t2 =>
      match remove (fun k : Nat => k) t2 5 with
      | .error e => .error e
      | .ok r =>
        match retrieve (fun k : Nat => k) r.2 5 with
        | .error e => .error e
        | .ok v => .ok (r.1, v)

/-- The linear-probing table requested with capacity 2, with the identity as
hash, after `insert(0, 0)`, `insert(1, 1)` (which rehashes) and `remove(0)`. -/
def tableAfterRehash : HashTable Nat Nat :=
  resultOr (HashTable.new 2 LINEAR_PROBING)
    (runOps (fun k : Nat => k) 1 (HashTable.new 2 LINEAR_PROBING)
      [Op.insert 0 0, Op.insert 1 1, Op.remove 0])

/-- The linear-probing table requested with capacity 2, with the identity as
hash, after `insert(0, 10)`, `insert(5, 11)` (which rehashes to capacity 5)
and `insert(10, 12)`: three keys with the same hash value. -/
def tableOfThree : HashTable Nat Nat :=
  resultOr (HashTable.new 2 LINEAR_PROBING)
    (insertAll (fun k : Nat => k) 1 (HashTable.new 2 LINEAR_PROBING) [(0, 10), (5, 11), (10, 12)])

/-- The linear-probing table requested with capacity 100, with the identity as
hash, after the inserts of `workload 0 75`. -/
def tableAfter75 : HashTable Nat Nat :=
  resultOr (HashTable.new 100 LINEAR_PROBING)
    (runOps (fun k : Nat => k) 1 (HashTable.new 100 LINEAR_PROBING) (insertOps (workload 0 75)))

/-- The table `tableAfter75` after `insert(75, 75)`. -/
def tableAfter76 : HashTable Nat Nat :=
  resultOr tableAfter75 (insert (fun k : Nat => k) 1 tableAfter75 75 75)

/-- The table `tableAfter76` after the inserts of `workload 76 24`. -/
def tableAfter100 : HashTable Nat Nat :=
  resultOr tableAfter76 (insertAll (fun k : Nat => k) 1 tableAfter76 (workload 76 24))

/-- The double-hashing table of capacity 7, with the identity as hash, after
the inserts of five keys with the same hash value 0. -/
def tableOfFive : HashTable Nat Nat :=
  resultOr (HashTable.new 7 DOUBLE_HASHING)
    (insertAll (fun k : Nat => k) 1 (HashTable.new 7 DOUBLE_HASHING)
      [(0, 0), (7, 1), (14, 2), (21, 3), (28, 4)])

/-- The number of slots flagged occupied. -/
def occupiedCount {K V : Type} (t : HashTable K V) : Nat := t.isOccupied.count true

/-- Scenario: on a table requested with capacity 10 (capacity 11), with the
identity as hash, `insert(0, 1)`, `insert(11, 2)` (same hash value, so key 11
lands further along the probe sequence), `remove(0)`, `retrieve(11)` and then
`insert(11, 3)`; the results are the flag returned by `remove`, what
`retrieve(11)` returns, and the pairs with key 11 stored at the end. -/
def tombstoneScenario (m : CollisionMethod) :
    Except Error (Bool × Option Nat × List (Nat × Nat)) :=
  match insert (fun k : Nat => k) 1 (HashTable.new 10 m : HashTable Nat Nat) 0 1 with
  | .error e => .error e
  | .ok t1 =>
    match insert (fun k : Nat => k) 1 t1 11 2 with
    | .error e => .error e
    | .ok t2 =>
      match remove (fun k : Nat => k) t2 0 with
      | .error e => .error e
      | .ok r =>
        match retrieve (fun k : Nat => k) r.2 11 with
        | .error e => .error e
        | .ok found =>
          match insert (fun k : Nat => k) 1 r.2 11 3 with
          | .error e => .error e
          | .ok t3 => .ok (r.1, found, (entries t3).filter fun pair => pair.1 = 11)

section Chains

variable {K V : Type} [DecidableEq K] [Inhabited K] [Inhabited V] (hash : K → Nat)

/-- The stored pairs with a given key, in the order of `entries`. -/
def chainOf (key : K) (t : HashTable K V) : List (K × V) :=
  (entries t).filter fun pair => pair.1 = key

/-- The invariant of a chaining table: well formed, and every pair is in the
bucket of its hash value. -/
def ChainInv (t : HashTable K V) : Prop :=
  WellFormed t ∧ t.collisionMethod = CHAINING ∧ Homed hash t

end Chains

/-- The chaining table requested with capacity 2, with the identity as hash,
after `insert(0, 1)`, `insert(4, 2)` (which rehashes to capacity 5) and
`insert(9, 3)`: the keys 4 and 9 are in the same bucket. -/
def chainedTableOfThree : HashTable Nat Nat :=
  resultOr (HashTable.new 2 CHAINING)
    (runOps (fun k : Nat => k) 1 (HashTable.new 2 CHAINING)
      [Op.insert 0 1, Op.insert 4 2, Op.insert 9 3])

/-! ## The variant of `HashTable.cpp`

`HashTable.cpp` defines the members of an open-addressing table with linear and
quadratic probing only.  Its loops have no bound of their own (its `probe` never
throws), so they get a step budget `steps`; `insert` and `rehash` call each
other, and `depth` bounds that recursion.  Its `remove` decrements
`currentSize`, so here the increments and the decrement of `currentSize` are
taken modulo `2 ^ 64`. -/

namespace CppVariant

/-- Modelled from the spec: the class declaration for the members that
`HashTable.cpp` defines is not in the repository (the header under `src/`
declares the members of the four-strategy table).  The data members are the
ones that `HashTable.cpp` uses: the flat slot sequence `table`, the flags
`isOccupied`, `tableSize`, `currentSize` and the strategy tag; the tag is the
enumeration of `HashTable.h`, of which `probe` tests two values. -/
structure HashTable (K V : Type) where
  table : List (K × V)
  isOccupied : List Bool
  tableSize : Nat
  currentSize : Nat
  collisionMethod : CollisionMethod
  deriving DecidableEq, Repr

/-- How the `while` loop of `insert` ends: on an occupied slot that holds the
key, or on an unoccupied slot. -/
inductive Slot
  | found (p : Nat)
  | free (p : Nat)
  deriving DecidableEq, Repr

section Operations

variable {K V : Type} [DecidableEq K] [Inhabited K] [Inhabited V]

/-- The constructor of `HashTable.cpp`: the capacity is the requested size. -/
def HashTable.new (size : Nat) (method : CollisionMethod) : HashTable K V :=
  { table := List.replicate size default, isOccupied := List.replicate size false,
    tableSize := size, currentSize := 0, collisionMethod := method }

variable (hash : K → Nat)

/-- The member `hashFunction` of `HashTable.cpp`. -/
def hashFunction (t : HashTable K V) (key : K) : Except Error Nat :=
  if t.tableSize = 0 then .error .divisionByZero
  else .ok (hash key % t.tableSize)

/-- The member `probe` of `HashTable.cpp`; its callers have computed
`hashFunction` before, so `tableSize` is not 0 here. -/
def probe (t : HashTable K V) (index i : Nat) : Nat :=
  if t.collisionMethod = LINEAR_PROBING then (index + i) % t.tableSize
  else if t.collisionMethod = QUADRATIC_PROBING then (index + i * i) % t.tableSize
  else index

/-- The `while` loop of `insert` in `HashTable.cpp`, started at attempt `i`. -/
def insertLoop (t : HashTable K V) (index : Nat) (key : K) : Nat → Nat → Except Error Slot
  | 0, _ => .error .outOfFuel
  | steps + 1, i =>
    if t.isOccupied.getD (probe t index i) false then
      if (t.table.getD (probe t index i) default).1 = key then .ok (.found (probe t index i))
      else insertLoop t index key steps (i + 1)
    else .ok (.free (probe t index i))

/-- The part of `insert` before the load-factor test; the flag tells whether a
new entry was added (`false`: the value of an existing entry was replaced and
`insert` returns at once).  `currentSize` is a 64-bit unsigned number. -/
def insertEntry (steps : Nat) (t : HashTable K V) (key : K) (value : V) :
    Except Error (Bool × HashTable K V) :=
  match hashFunction hash t key with
  | .error e => .error e
  | .ok index =>
    match insertLoop t index key steps 0 with
    | .error e => .error e
    | .ok (.found p) =>
      .ok (false, { t with table := t.table.set p ((t.table.getD p default).1, value) })
    | .ok (.free p) =>
      .ok (true, { t with
        table := t.table.set p (key, value)
        isOccupied := t.isOccupied.set p true
        currentSize := (t.currentSize + 1) % 2 ^ 64 })

/-- The re-insertion loop of `rehash` in `HashTable.cpp`. -/
def reinsertSlots (ins : HashTable K V → K → V → Except Error (HashTable K V))
    (oldTable : List (K × V)) (oldOccupied : List Bool) :
    HashTable K V → List Nat → Except Error (HashTable K V)
  | t, [] => .ok t
  | t, i :: rest =>
    if oldOccupied.getD i false then
      match ins t (oldTable.getD i default).1 (oldTable.getD i default).2 with
      | .error e => .error e
      | .ok t1 => reinsertSlots ins oldTable oldOccupied t1 rest
    else reinsertSlots ins oldTable oldOccupied t rest

/-- The member `rehash` of `HashTable.cpp`: the capacity is doubled. -/
def rehash (ins : HashTable K V → K → V → Except Error (HashTable K V))
    (t : HashTable K V) : Except Error (HashTable K V) :=
  reinsertSlots ins t.table t.isOccupied
    { t with
      tableSize := t.tableSize * 2
      table := List.replicate (t.tableSize * 2) default
      isOccupied := List.replicate (t.tableSize * 2) false
      currentSize := 0 }
    (List.range t.tableSize)

/-- The member `insert` of `HashTable.cpp`. -/
def insert (steps : Nat) : Nat → HashTable K V → K → V → Except Error (HashTable K V)
  | 0 => fun t key value =>
    match insertEntry hash steps t key value with
    | .error e => .error e
    | .ok (false, t1) => .ok t1
    | .ok (true, t1) =>
      if 4 * t1.currentSize > 3 * t1.tableSize then .error .outOfFuel
      else .ok t1
  | depth + 1 => fun t key value =>
    match insertEntry hash steps t key value with
    | .error e => .error e
    | .ok (false, t1) => .ok t1
    | .ok (true, t1) =>
      if 4 * t1.currentSize > 3 * t1.tableSize then rehash (insert steps depth) t1
      else .ok t1

/-- The `while` loop of `retrieve` in `HashTable.cpp`, started at attempt `i`. -/
def retrieveLoop (t : HashTable K V) (index : Nat) (key : K) :
    Nat → Nat → Except Error (Option V)
  | 0, _ => .error .outOfFuel
  | steps + 1, i =>
    if t.isOccupied.getD (probe t index i) false then
      if (t.table.getD (probe t index i) default).1 = key then
        .ok (some (t.table.getD (probe t index i) default).2)
      else retrieveLoop t index key steps (i + 1)
    else .ok none

/-- The member `retrieve` of `HashTable.cpp`. -/
def retrieve (steps : Nat) (t : HashTable K V) (key : K) : Except Error (Option V) :=
  match hashFunction hash t key with
  | .error e => .error e
  | .ok index => retrieveLoop t index key steps 0

/-- The `while` loop of `remove` in `HashTable.cpp`: the slot to clear, or
`none` when the loop ends on an unoccupied slot. -/
def removeLoop (t : HashTable K V) (index : Nat) (key : K) :
    Nat → Nat → Except Error (Option Nat)
  | 0, _ => .error .outOfFuel
  | steps + 1, i =>
    if t.isOccupied.getD (probe t index i) false then
      if (t.table.getD (probe t index i) default).1 = key then .ok (some (probe t index i))
      else removeLoop t index key steps (i + 1)
    else .ok none

/-- The member `remove` of `HashTable.cpp`; `currentSize--` is a decrement of a
64-bit unsigned number. -/
def remove (steps : Nat) (t : HashTable K V) (key : K) : Except Error (Bool × HashTable K V) :=
  match hashFunction hash t key with
  | .error e => .error e
  | .ok index =>
    match removeLoop t index key steps 0 with
    | .error e => .error e
    | .ok (some p) =>
      .ok (true, { t with
        isOccupied := t.isOccupied.set p false
        currentSize := (t.currentSize + (2 ^ 64 - 1)) % 2 ^ 64 })
    | .ok none => .ok (false, t)

/-- One call of the public interface of the variant. -/
def applyOp (steps depth : Nat) (t : HashTable K V) : Op K V → Except Error (HashTable K V)
  | .insert key value => insert hash steps depth t key value
  | .remove key =>
    match remove hash steps t key with
    | .error e => .error e
    | .ok r => .ok r.2

/-- A sequence of calls, each of which has to return. -/
def runOps (steps depth : Nat) : HashTable K V → List (Op K V) → Except Error (HashTable K V)
  | t, [] => .ok t
  | t, op :: rest =>
    match applyOp hash steps depth t op with
    | .error e => .error e
    | .ok t1 => runOps steps depth t1 rest

/-- The states of the variant that a program can produce. -/
def Reachable (t : HashTable K V) : Prop :=
  ∃ (size : Nat) (method : CollisionMethod) (steps depth : Nat) (ops : List (Op K V)),
    runOps hash steps depth (HashTable.new size method) ops = .ok t

/-- The class invariant of the variant on its storage: both vectors have
`tableSize` elements. -/
def SizesOk (t : HashTable K V) : Prop :=
  t.table.length = t.tableSize ∧ t.isOccupied.length = t.tableSize

/-- The entry count is the number of slots flagged occupied, as a 64-bit
unsigned number. -/
def Counted (t : HashTable K V) : Prop :=
  SizesOk t ∧ t.currentSize = t.isOccupied.count true % 2 ^ 64

end Operations

end CppVariant

/-- A table of the variant of `HashTable.cpp`: requested with size 8 and linear
probing, with the identity as hash, after `insert(1, 10)`, `insert(9, 20)`
(same hash value as key 1, so key 9 is stored one slot further) and
`insert(3, 30)`. -/
def variantTableOfThree : CppVariant.HashTable Nat Nat :=
  resultOr (CppVariant.HashTable.new 8 LINEAR_PROBING)
    (CppVariant.runOps (fun k : Nat => k) 8 1 (CppVariant.HashTable.new 8 LINEAR_PROBING)
      [Op.insert 1 10, Op.insert 9 20, Op.insert 3 30])

/-! ## Storage accesses

`operator[]` of `std::vector` is defined only for an index below the size of
the vector.  The definitions of this section are the member functions of
`HashTable.h` once more, with every access `v[i]` to `chainedTable`,
`probedTable`, `isOccupied` and to the old vectors of `rehash` checked: the call
ends with `Fault.outOfRange` unless `i` is below the capacity (`tableSize` at
the time of the access) and below the size of `v`. -/

namespace Checked

/-- The ways in which a call with checked accesses does not return normally. -/
inductive Fault
  /-- An outcome of the member function as such. -/
  | thrown (e : Error)
  /-- An index at or beyond the capacity, or at or beyond the size of the
  vector that is indexed. -/
  | outOfRange
  deriving DecidableEq, Repr

/-- Whether `v[i]` indexes below the capacity and inside `v`. -/
def inRange {α : Type} (capacity : Nat) (v : List α) (i : Nat) : Bool :=
  decide (i < capacity) && decide (i < v.length)

/-- An outcome of a member function as an outcome of its checked form. -/
def lift {α : Type} : Except Error α → Except Fault α
  | .ok a => .ok a
  | .error e => .error (.thrown e)

section Operations

variable {K V : Type} [DecidableEq K] [Inhabited K] [Inhabited V] (hash : K → Nat)

/-- The loop of `insert`, which reads `isOccupied[probe(index, i, key)]`. -/
def insertLoop (t : HashTable K V) (index : Nat) (key : K) :
    Nat → Nat → Except Fault Nat
  | 0, _ => .error (.thrown .outOfFuel)
  | fuel + 1, i =>
    match probe hash t index i key with
    | .error e => .error (.thrown e)
    | .ok p =>
      if inRange t.tableSize t.isOccupied p then
        if t.isOccupied.getD p false then insertLoop t index key fuel (i + 1)
        else .ok i
      else .error .outOfRange

/-- The part of `insert` before the load-factor test, which writes
`chainedTable[index]`, or `probedTable[p]` and `isOccupied[p]`. -/
def insertEntry (t : HashTable K V) (key : K) (value : V) :
    Except Fault (HashTable K V) :=
  match hashFunction hash t key with
  | .error e => .error (.thrown e)
  | .ok index =>
    if t.collisionMethod = CHAINING then
      if inRange t.tableSize t.chainedTable index then
        .ok { t with
          chainedTable :=
            t.chainedTable.set index (t.chainedTable.getD index [] ++ [(key, value)])
          currentSize := t.currentSize + 1 }
      else .error .outOfRange
    else
      match insertLoop hash t index key (t.tableSize + 1) 0 with
      | .error e => .error e
      | .ok i =>
        match probe hash t index i key with
        | .error e => .error (.thrown e)
        | .ok p =>
          if inRange t.tableSize t.probedTable p && inRange t.tableSize t.isOccupied p then
            .ok { t with
              probedTable := t.probedTable.set p (key, value)
              isOccupied := t.isOccupied.set p true
              currentSize := t.currentSize + 1 }
          else .error .outOfRange

/-- The inner loop of `rehash` for chaining (it indexes nothing itself). -/
def reinsertBucket (ins : HashTable K V → K → V → Except Fault (HashTable K V)) :
    HashTable K V → List (K × V) → Except Fault (HashTable K V)
  | t, [] => .ok t
  | t, pair :: rest =>
    match ins t pair.1 pair.2 with
    | .error e => .error e
    | .ok t1 => reinsertBucket ins t1 rest

/-- The outer loop of `rehash` for chaining (it indexes nothing itself). -/
def reinsertBuckets (ins : HashTable K V → K → V → Except Fault (HashTable K V)) :
    HashTable K V → List (List (K × V)) → Except Fault (HashTable K V)
  | t, [] => .ok t
  | t, bucket :: rest =>
    match reinsertBucket ins t bucket with
    | .error e => .error e
    | .ok t1 => reinsertBuckets ins t1 rest

/-- The loop of `rehash` for open addressing, which reads `oldOccupied[i]` and
`oldTable[i]`. -/
def reinsertSlots (ins : HashTable K V → K → V → Except Fault (HashTable K V))
    (oldTable : List (K × V)) (oldOccupied : List Bool) :
    HashTable K V → List Nat → Except Fault (HashTable K V)
  | t, [] => .ok t
  | t, i :: rest =>
    if inRange t.tableSize oldOccupied i then
      if oldOccupied.getD i false then
        if inRange t.tableSize oldTable i then
          match ins t (oldTable.getD i default).1 (oldTable.getD i default).2 with
          | .error e => .error e
          | .ok t1 => reinsertSlots ins oldTable oldOccupied t1 rest
        else .error .outOfRange
      else reinsertSlots ins oldTable oldOccupied t rest
    else .error .outOfRange

/-- The member `rehash`; `ins` is the checked `insert` that it calls. -/
def rehash (ins : HashTable K V → K → V → Except Fault (HashTable K V))
    (t : HashTable K V) : Except Fault (HashTable K V) :=
  let oldSize := t.tableSize
  let newSize := nextPrime (t.tableSize * 2)
  let t1 : HashTable K V :=
    { t with
      cout := t.cout ++ [Output.rehashing t.tableSize]
      tableSize := newSize
      currentSize := 0 }
  let r :=
    if t.collisionMethod = CHAINING then
      reinsertBuckets ins { t1 with chainedTable := List.replicate newSize [] }
        t.chainedTable
    else
      reinsertSlots ins t.probedTable t.isOccupied
        { t1 with
          probedTable := List.replicate newSize default
          isOccupied := List.replicate newSize false }
        (List.range oldSize)
  match r with
  | .error e => .error e
  | .ok t2 => .ok { t2 with cout := t2.cout ++ [Output.rehashComplete t2.tableSize] }

/-- The member `insert`, with the accesses of the `rehash` that it may call. -/
def insert : Nat → HashTable K V → K → V → Except Fault (HashTable K V)
  | 0 => fun t key value =>
    match insertEntry hash t key value with
    | .error e => .error e
    | .ok t1 =>
      if 4 * t1.currentSize > 3 * t1.tableSize then .error (.thrown .outOfFuel)
      else .ok t1
  | fuel + 1 => fun t key value =>
    match insertEntry hash t key value with
    | .error e => .error e
    | .ok t1 =>
      if 4 * t1.currentSize > 3 * t1.tableSize then rehash (insert fuel) t1
      else .ok t1

/-- The loop of `retrieve`, which reads `isOccupied[p]` and `probedTable[p]`. -/
def retrieveLoop (t : HashTable K V) (index : Nat) (key : K) :
    Nat → Nat → Except Fault (Option V)
  | 0, _ => .error (.thrown .outOfFuel)
  | fuel + 1, i =>
    match probe hash t index i key with
    | .error e => .error (.thrown e)
    | .ok p =>
      if inRange t.tableSize t.isOccupied p then
        if t.isOccupied.getD p false then
          if inRange t.tableSize t.probedTable p then
            if (t.probedTable.getD p default).1 = key then
              .ok (some (t.probedTable.getD p default).2)
            else retrieveLoop t index key fuel (i + 1)
          else .error .outOfRange
        else .ok none
      else .error .outOfRange

/-- The member `retrieve`. -/
def retrieve (t : HashTable K V) (key : K) : Except Fault (Option V) :=
  match hashFunction hash t key with
  | .error e => .error (.thrown e)
  | .ok index =>
    if t.collisionMethod = CHAINING then
      if inRange t.tableSize t.chainedTable index then
        .ok (retrieveBucket key (t.chainedTable.getD index []))
      else .error .outOfRange
    else retrieveLoop hash t index key (t.tableSize + 1) 0

/-- The loop of `remove`, which reads `isOccupied[p]` and `probedTable[p]`. -/
def removeLoop (t : HashTable K V) (index : Nat) (key : K) :
    Nat → Nat → Except Fault (Option Nat)
  | 0, _ => .error (.thrown .outOfFuel)
  | fuel + 1, i =>
    match probe hash t index i key with
    | .error e => .error (.thrown e)
    | .ok p =>
      if inRange t.tableSize t.isOccupied p then
        if t.isOccupied.getD p false then
          if inRange t.tableSize t.probedTable p then
            if (t.probedTable.getD p default).1 = key then .ok (some p)
            else removeLoop t index key fuel (i + 1)
          else .error .outOfRange
        else .ok none
      else .error .outOfRange

/-- The member `remove`, which writes `isOccupied[p]` when it finds the key. -/
def remove (t : HashTable K V) (key : K) : Except Fault (Bool × HashTable K V) :=
  match hashFunction hash t key with
  | .error e => .error (.thrown e)
  | .ok index =>
    if t.collisionMethod = CHAINING then
      if inRange t.tableSize t.chainedTable index then
        match removeBucket key (t.chainedTable.getD index []) with
        | some bucket => .ok (true, { t with chainedTable := t.chainedTable.set index bucket })
        | none => .ok (false, t)
      else .error .outOfRange
    else
      match removeLoop hash t index key (t.tableSize + 1) 0 with
      | .error e => .error e
      | .ok (some p) =>
        if inRange t.tableSize t.isOccupied p then
          .ok (true, { t with isOccupied := t.isOccupied.set p false })
        else .error .outOfRange
      | .ok none => .ok (false, t)

end Operations

end Checked

/-- The double-hashing table requested with capacity 5, with the identity as
hash, after `insert(0, 0)`, `insert(5, 50)`, `insert(5, 51)` (a repeated key)
and `remove(0)`: the entry count is 3, so the next `insert` rehashes. -/
def tableBeforeGrowth : HashTable Nat Nat :=
  resultOr (HashTable.new 5 DOUBLE_HASHING)
    (runOps (fun k : Nat => k) 1 (HashTable.new 5 DOUBLE_HASHING)
      [Op.insert 0 0, Op.insert 5 50, Op.insert 5 51, Op.remove 0])

set_option linter.unusedSectionVars false

/-! ## Primality -/

theorem prime_of_no_small_divisor {n i : Nat} (hn : 2 ≤ n) (hi : n < i * i)
    (hdiv : ∀ d, 2 ≤ d → d < i → ¬ d ∣ n) : Nat.Prime n := by
  rw [Nat.prime_def_le_sqrt]
  refine ⟨hn, fun m hm hsq => hdiv m hm ?_⟩
  by_contra hlt
  have h1 : i ≤ m := Nat.le_of_not_lt hlt
  have h2 : m * m ≤ n := Nat.le_sqrt.mp hsq
  have h3 : i * i ≤ m * m := Nat.mul_le_mul h1 h1
  omega

theorem not_prime_of_divisor {n d : Nat} (hd : 2 ≤ d) (hlt : d < n) (hdvd : d ∣ n) :
    ¬ Nat.Prime n := by
  intro hp
  rcases (Nat.dvd_prime hp).mp hdvd with h | h <;> omega

theorem isPrimeLoop_iff (n : Nat) (hn : 2 ≤ n) (h2 : n % 2 ≠ 0) (h3 : n % 3 ≠ 0) :
    ∀ fuel i, i % 6 = 5 → n < i + fuel → (∀ d, 2 ≤ d → d < i → ¬ d ∣ n) →
      (isPrimeLoop n fuel i = true ↔ Nat.Prime n) := by
  intro fuel
  induction fuel with
  | zero =>
    intro i _ hfuel hdiv
    have : i ≤ i * i := Nat.le_mul_self i
    simp only [isPrimeLoop, true_iff]
    exact prime_of_no_small_divisor hn (by omega) hdiv
  | succ fuel ih =>
    intro i hi hfuel hdiv
    have hi5 : 5 ≤ i := by omega
    have h5i : 5 * i ≤ i * i := Nat.mul_le_mul_right i hi5
    unfold isPrimeLoop
    by_cases hsq : i * i ≤ n
    · by_cases hd : (n % i == 0 || n % (i + 2) == 0) = true
      · simp only [hsq, hd, if_true]
        simp only [Bool.or_eq_true, beq_iff_eq] at hd
        have hnp : ¬ Nat.Prime n := by
          rcases hd with hd | hd
          · exact not_prime_of_divisor (by omega) (by omega) (Nat.dvd_of_mod_eq_zero hd)
          · exact not_prime_of_divisor (by omega) (by omega) (Nat.dvd_of_mod_eq_zero hd)
        simp [hnp]
      · simp only [hsq, hd, if_true]
        simp only [Bool.or_eq_true, beq_iff_eq, not_or] at hd
        apply ih (i + 6) (by omega) (by omega)
        intro d hd2 hdlt hdvd
        by_cases hlt : d < i
        · exact hdiv d hd2 hlt hdvd
        · have hmod : n % d = 0 := Nat.mod_eq_zero_of_dvd hdvd
          have hcases : d = i ∨ d = i + 1 ∨ d = i + 2 ∨ d = i + 3 ∨ d = i + 4 ∨ d = i + 5 := by
            omega
          have two_dvd : 2 ∣ d → False := fun h => h2 (Nat.mod_eq_zero_of_dvd (h.trans hdvd))
          have three_dvd : 3 ∣ d → False := fun h => h3 (Nat.mod_eq_zero_of_dvd (h.trans hdvd))
          rcases hcases with h | h | h | h | h | h
          · subst h; exact hd.1 hmod
          · exact two_dvd (Nat.dvd_of_mod_eq_zero (by omega))
          · subst h; exact hd.2 hmod
          · exact two_dvd (Nat.dvd_of_mod_eq_zero (by omega))
          · exact three_dvd (Nat.dvd_of_mod_eq_zero (by omega))
          · exact two_dvd (Nat.dvd_of_mod_eq_zero (by omega))
    · simp only [hsq, if_false, true_iff]
      exact prime_of_no_small_divisor hn (by omega) hdiv

/-- `isPrime` decides primality. -/
theorem isPrime_iff (n : Nat) : isPrime n = true ↔ Nat.Prime n := by
  unfold isPrime
  by_cases h1 : n ≤ 1
  · have : ¬ Nat.Prime n := fun hp => by have := hp.two_le; omega
    simp [h1, this]
  · by_cases h3 : n ≤ 3
    · have : Nat.Prime n := by
        have : n = 2 ∨ n = 3 := by omega
        rcases this with h | h <;> subst h <;> norm_num
      simp [h1, h3, this]
    · by_cases hd : (n % 2 == 0 || n % 3 == 0) = true
      · simp only [h1, h3, hd, if_true, if_false]
        simp only [Bool.or_eq_true, beq_iff_eq] at hd
        have hnp : ¬ Nat.Prime n := by
          rcases hd with hd | hd
          · exact not_prime_of_divisor (by omega) (by omega) (Nat.dvd_of_mod_eq_zero hd)
          · exact not_prime_of_divisor (by omega) (by omega) (Nat.dvd_of_mod_eq_zero hd)
        simp [hnp]
      · simp only [h1, h3, hd, if_false]
        simp only [Bool.or_eq_true, beq_iff_eq, not_or] at hd
        apply isPrimeLoop_iff n (by omega) hd.1 hd.2 n 5 (by norm_num) (by omega)
        intro d hd2 hdlt hdvd
        have hcases : d = 2 ∨ d = 3 ∨ d = 4 := by omega
        have hmod : n % d = 0 := Nat.mod_eq_zero_of_dvd hdvd
        rcases hcases with h | h | h <;> subst h <;> omega

theorem IsLeastPrimeGE.unique {n p q : Nat} (hp : IsLeastPrimeGE n p)
    (hq : IsLeastPrimeGE n q) : p = q :=
  Nat.le_antisymm (hp.2.2 q hq.1 hq.2.1) (hq.2.2 p hp.1 hp.2.1)

theorem nextPrimeLoop_spec : ∀ fuel n p, Nat.Prime p → n ≤ p → p ≤ n + fuel →
    IsLeastPrimeGE n (nextPrimeLoop fuel n) := by
  intro fuel
  induction fuel with
  | zero =>
    intro n p hp hnp hpn
    have : p = n := by omega
    subst this
    exact ⟨hp, Nat.le_refl _, fun q _ hq => hq⟩
  | succ fuel ih =>
    intro n p hp hnp hpn
    unfold nextPrimeLoop
    by_cases hn : isPrime n = true
    · simp only [hn, if_true]
      exact ⟨(isPrime_iff n).mp hn, Nat.le_refl _, fun q _ hq => hq⟩
    · rw [if_neg hn]
      have hnn : ¬ Nat.Prime n := fun h => hn ((isPrime_iff n).mpr h)
      have hne : p ≠ n := fun h => hnn (h ▸ hp)
      obtain ⟨h1, h2, h3⟩ := ih (n + 1) p hp (by omega) (by omega)
      refine ⟨h1, by omega, fun q hq hnq => h3 q hq ?_⟩
      have : q ≠ n := fun h => hnn (h ▸ hq)
      omega

/-- The result of `nextPrime n` is the smallest prime that is at least `n`. -/
theorem nextPrime_spec (n : Nat) : IsLeastPrimeGE n (nextPrime n) := by
  unfold nextPrime
  by_cases h0 : n = 0
  · subst h0
    exact nextPrimeLoop_spec 2 0 2 Nat.prime_two (by omega) (by omega)
  · obtain ⟨p, hp, hlt, hle⟩ := Nat.exists_prime_lt_and_le_two_mul n h0
    exact nextPrimeLoop_spec (n + 2) n p hp (by omega) (by omega)

/-- The step budget of `nextPrime` is never used up: `nextPrime` satisfies the
equation of the loop `while (!isPrime(n)) ++n; return n;`. -/
theorem nextPrime_unfold (n : Nat) :
    nextPrime n = if isPrime n then n else nextPrime (n + 1) := by
  by_cases hn : isPrime n = true
  · simp only [hn, if_true]
    exact (nextPrime_spec n).unique ⟨(isPrime_iff n).mp hn, Nat.le_refl _, fun q _ hq => hq⟩
  · rw [if_neg hn]
    have hnn : ¬ Nat.Prime n := fun h => hn ((isPrime_iff n).mpr h)
    obtain ⟨h1, h2, h3⟩ := nextPrime_spec (n + 1)
    refine (nextPrime_spec n).unique ⟨h1, by omega, fun q hq hnq => h3 q hq ?_⟩
    have : q ≠ n := fun h => hnn (h ▸ hq)
    omega

theorem nextPrime_prime (n : Nat) : Nat.Prime (nextPrime n) := (nextPrime_spec n).1

theorem le_nextPrime (n : Nat) : n ≤ nextPrime n := (nextPrime_spec n).2.1

theorem two_le_nextPrime (n : Nat) : 2 ≤ nextPrime n := (nextPrime_prime n).two_le

theorem nextPrime_of_prime {n : Nat} (h : Nat.Prime n) : nextPrime n = n :=
  (nextPrime_spec n).unique ⟨h, Nat.le_refl _, fun _ _ hq => hq⟩

section Theorems

variable {K V : Type} [DecidableEq K] [Inhabited K] [Inhabited V] (hash : K → Nat)

/-! ## `probe` -/

theorem probe_full_of_ge (t : HashTable K V) (index i : Nat) (key : K)
    (h : t.tableSize ≤ i) : probe hash t index i key = .error .hashTableFull := by
  simp [probe, h]

theorem probe_ok_of_lt (t : HashTable K V) (index i : Nat) (key : K)
    (hdh : t.collisionMethod = DOUBLE_HASHING → t.tableSize ≠ 1) (h : i < t.tableSize) :
    ∃ p, probe hash t index i key = .ok p := by
  unfold probe
  have h1 : ¬ i ≥ t.tableSize := by omega
  simp only [h1, if_false]
  by_cases hl : t.collisionMethod = LINEAR_PROBING
  · simp [hl]
  · by_cases hq : t.collisionMethod = QUADRATIC_PROBING
    · simp [hq]
    · by_cases hd : t.collisionMethod = DOUBLE_HASHING
      · have : ¬ t.tableSize - 1 = 0 := by have := hdh hd; omega
        simp [hd, this]
      · simp [hl, hq, hd]

/-- C10. For every strategy, base index, key and attempt `i`, `probe` raises
the `Hash table full` error if and only if `i ≥ tableSize`; for `i < tableSize`
it returns an index.  (The second part is for the capacities a table can have:
under double hashing the source divides by `tableSize - 1`, so capacity 1 is
excluded there.) -/
theorem probe_exhausted_iff (t : HashTable K V) (index i : Nat) (key : K) :
    (probe hash t index i key = .error .hashTableFull ↔ t.tableSize ≤ i) ∧
    ((t.collisionMethod = DOUBLE_HASHING → t.tableSize ≠ 1) → i < t.tableSize →
      ∃ p, probe hash t index i key = .ok p) := by
  refine ⟨⟨fun h => ?_, probe_full_of_ge hash t index i key⟩,
    probe_ok_of_lt hash t index i key⟩
  by_contra hlt
  have h1 : ¬ i ≥ t.tableSize := by omega
  unfold probe at h
  simp only [h1, if_false] at h
  split at h
  · cases h
  · split at h
    · cases h
    · split at h
      · split at h <;> cases h
      · cases h

/-! ## `remove` and `retrieve` take the same walk -/

theorem removeBucket_isSome (key : K) (bucket : List (K × V)) :
    (removeBucket key bucket).isSome = (retrieveBucket key bucket).isSome := by
  induction bucket with
  | nil => rfl
  | cons pair rest ih =>
    unfold removeBucket retrieveBucket
    by_cases h : pair.1 = key
    · simp [h]
    · simp only [h, if_false]
      rw [← ih]
      cases removeBucket key rest <;> rfl

/-- The way `removeLoop` ends, described by the way `retrieveLoop` ends. -/
theorem removeLoop_retrieveLoop (t : HashTable K V) (index : Nat) (key : K) :
    ∀ fuel i,
      (∀ e, removeLoop hash t index key fuel i = .error e ↔
        retrieveLoop hash t index key fuel i = .error e) ∧
      (removeLoop hash t index key fuel i = .ok none ↔
        retrieveLoop hash t index key fuel i = .ok none) := by
  intro fuel
  induction fuel with
  | zero => intro i; simp [removeLoop, retrieveLoop]
  | succ fuel ih =>
    intro i
    unfold removeLoop retrieveLoop
    cases hp : probe hash t index i key with
    | error e => simp
    | ok p =>
      by_cases ho : t.isOccupied.getD p false = true
      · by_cases hk : (t.probedTable.getD p default).1 = key
        · simp only [ho, hk, if_true]
          simp
        · simp only [ho, hk, if_true, if_false]
          exact ih (i + 1)
      · simp only [ho]
        simp

theorem removeFlag_eq_retrieveFlag (t : HashTable K V) (key : K) :
    removeFlag hash t key = retrieveFlag hash t key := by
  unfold removeFlag retrieveFlag remove retrieve
  cases hf : hashFunction hash t key with
  | error e => rfl
  | ok index =>
    by_cases hm : t.collisionMethod = CHAINING
    · simp only [hm, if_true]
      have := removeBucket_isSome key (t.chainedTable.getD index [])
      cases h1 : removeBucket key (t.chainedTable.getD index []) <;>
        cases h2 : retrieveBucket key (t.chainedTable.getD index []) <;>
        simp_all
    · simp only [hm, if_false]
      have h := removeLoop_retrieveLoop hash t index key (t.tableSize + 1) 0
      cases h1 : removeLoop hash t index key (t.tableSize + 1) 0 with
      | error e =>
        rw [(h.1 e).mp h1]
      | ok r =>
        cases h2 : retrieveLoop hash t index key (t.tableSize + 1) 0 with
        | error e => rw [(h.1 e).mpr h2] at h1; cases h1
        | ok r2 =>
          cases r with
          | none => rw [h.2.mp h1] at h2; cases h2; rfl
          | some p =>
            cases r2 with
            | none => rw [h.2.mpr h2] at h1; cases h1
            | some v => rfl

theorem remove_false_unchanged (t t1 : HashTable K V) (key : K)
    (h : remove hash t key = .ok (false, t1)) : t1 = t := by
  unfold remove at h
  cases hf : hashFunction hash t key with
  | error e => rw [hf] at h; cases h
  | ok index =>
    rw [hf] at h
    simp only at h
    split at h
    · split at h
      · cases h
      · cases h; rfl
    · split at h
      · cases h
      · cases h
      · cases h; rfl

/-- C4. `remove(k)` returns `true` exactly when `retrieve(k)` on the same state
returns `true` (the two calls also fail together), and a `remove` that returns
`false` leaves every field of the table as it was. -/
theorem remove_reports_presence (t : HashTable K V) (key : K) :
    removeFlag hash t key = retrieveFlag hash t key ∧
    ∀ t1, remove hash t key = .ok (false, t1) → t1 = t :=
  ⟨removeFlag_eq_retrieveFlag hash t key, fun t1 => remove_false_unchanged hash t t1 key⟩

theorem nextPrime_zero : nextPrime 0 = 2 := by decide

/-! ## The prime utilities in 64-bit arithmetic -/

/-- For `n < (2 ^ 32 - 6) ^ 2` nothing wraps around in the loop of `isPrime`,
and its step budget is not used up. -/
theorem isPrimeLoop64_eq (n : Nat) (hn : n < (2 ^ 32 - 6) ^ 2) :
    ∀ fuel i, 1 ≤ i → i ≤ 4294967295 → n + 2 ≤ i + fuel → 1 ≤ fuel →
      isPrimeLoop64 n fuel i = some (isPrimeLoop n fuel i) := by
  have hn1 : n < 4294967290 * 4294967290 := by
    have : (2 ^ 32 - 6) ^ 2 = 4294967290 * 4294967290 := by norm_num
    omega
  intro fuel
  induction fuel with
  | zero => intro i _ _ _ h; omega
  | succ fuel ih =>
    intro i h1 hB hfuel _
    have hsq : i * i ≤ 4294967295 * 4294967295 := Nat.mul_le_mul hB hB
    have hmod : (i * i) % 2 ^ 64 = i * i := Nat.mod_eq_of_lt (by omega)
    have hmod2 : (i + 2) % 2 ^ 64 = i + 2 := Nat.mod_eq_of_lt (by omega)
    have hmod6 : (i + 6) % 2 ^ 64 = i + 6 := Nat.mod_eq_of_lt (by omega)
    unfold isPrimeLoop64 isPrimeLoop
    rw [hmod, hmod2, hmod6]
    by_cases hle : i * i ≤ n
    · rw [if_pos hle, if_pos hle]
      have hi : i ≤ 4294967289 := by
        by_contra hc
        have h2 : 4294967290 * 4294967290 ≤ i * i := Nat.mul_le_mul (by omega) (by omega)
        omega
      have hin : i ≤ n := by
        have := Nat.le_mul_self i
        omega
      by_cases hd : (n % i == 0 || n % (i + 2) == 0) = true
      · rw [if_pos hd, if_pos hd]
      · rw [if_neg hd, if_neg hd]
        exact ih (i + 6) (by omega) (by omega) (by omega) (by omega)
    · rw [if_neg hle, if_neg hle]

theorem isPrime64_eq (n : Nat) (hn : n < (2 ^ 32 - 6) ^ 2) :
    isPrime64 n = some (isPrime n) := by
  unfold isPrime64 isPrime
  by_cases h1 : n ≤ 1
  · rw [if_pos h1, if_pos h1]
  · rw [if_neg h1, if_neg h1]
    by_cases h3 : n ≤ 3
    · rw [if_pos h3, if_pos h3]
    · rw [if_neg h3, if_neg h3]
      by_cases hd : (n % 2 == 0 || n % 3 == 0) = true
      · rw [if_pos hd, if_pos hd]
      · rw [if_neg hd, if_neg hd]
        exact isPrimeLoop64_eq n hn n 5 (by omega) (by omega) (by omega) (by omega)

/-- When the first prime from `n` on is below `(2 ^ 32 - 6) ^ 2`, the 64-bit
loop of `nextPrime` reaches it without wrapping around. -/
theorem nextPrimeLoop64_eq :
    ∀ k n fuel, (∀ j, j < k → isPrime (n + j) = false) → isPrime (n + k) = true →
      n + k < (2 ^ 32 - 6) ^ 2 → k < fuel → nextPrimeLoop64 fuel n = some (n + k) := by
  have hT : (2 ^ 32 - 6) ^ 2 < 2 ^ 64 := by norm_num
  intro k
  induction k with
  | zero =>
    intro n fuel _ hp hle hfuel
    obtain ⟨f, rfl⟩ : ∃ f, fuel = f + 1 := ⟨fuel - 1, by omega⟩
    unfold nextPrimeLoop64
    rw [isPrime64_eq n hle]
    rw [Nat.add_zero] at hp
    rw [hp]
    rfl
  | succ k ih =>
    intro n fuel hnp hp hle hfuel
    obtain ⟨f, rfl⟩ : ∃ f, fuel = f + 1 := ⟨fuel - 1, by omega⟩
    unfold nextPrimeLoop64
    rw [isPrime64_eq n (by omega)]
    have h0 := hnp 0 (by omega)
    rw [Nat.add_zero] at h0
    rw [h0]
    simp only
    have hmod : (n + 1) % 2 ^ 64 = n + 1 := Nat.mod_eq_of_lt (by omega)
    rw [hmod]
    have := ih (n + 1) f (fun j hj => by
      have := hnp (j + 1) (by omega)
      rwa [show n + (j + 1) = n + 1 + j by omega] at this)
      (by rwa [show n + 1 + k = n + (k + 1) by omega])
      (by rwa [show n + 1 + k = n + (k + 1) by omega]) (by omega)
    rw [this]
    congr 1
    omega

/-- When there is a prime from `n` on below `(2 ^ 32 - 6) ^ 2`, the 64-bit
`nextPrime` returns what `nextPrime` on the natural numbers returns. -/
theorem nextPrime64_eq (n : Nat)
    (hq : ∃ q, Nat.Prime q ∧ n ≤ q ∧ q < (2 ^ 32 - 6) ^ 2) :
    nextPrime64 n = some (nextPrime n) := by
  obtain ⟨hp, hle, hleast⟩ := nextPrime_spec n
  obtain ⟨q, hqp, hnq, hqT⟩ := hq
  have hpq := hleast q hqp hnq
  have hbound : nextPrime n ≤ 2 * n + 2 := by
    by_cases h0 : n = 0
    · subst h0
      rw [nextPrime_zero]
    · obtain ⟨p, hpp, _, hp2⟩ := Nat.exists_prime_lt_and_le_two_mul n h0
      have := hleast p hpp (by omega)
      omega
  have h := nextPrimeLoop64_eq (nextPrime n - n) n (n + 3)
    (fun j hj => by
      cases h : isPrime (n + j) with
      | false => rfl
      | true =>
        have := hleast (n + j) ((isPrime_iff _).mp h) (by omega)
        omega)
    (by rw [Nat.add_sub_cancel' hle]; exact (isPrime_iff _).mpr hp)
    (by rw [Nat.add_sub_cancel' hle]; omega) (by omega)
  unfold nextPrime64
  rw [h, Nat.add_sub_cancel' hle]

/-- Every request up to `2 ^ 62` has a prime from it on below
`(2 ^ 32 - 6) ^ 2`. -/
theorem prime_below_wrap (n : Nat) (hn : n ≤ 2 ^ 62) :
    ∃ q, Nat.Prime q ∧ n ≤ q ∧ q < (2 ^ 32 - 6) ^ 2 := by
  have hT : 2 ^ 63 < (2 ^ 32 - 6) ^ 2 := by norm_num
  by_cases h0 : n = 0
  · exact ⟨2, Nat.prime_two, by omega, by omega⟩
  · obtain ⟨p, hpp, hlt, hp2⟩ := Nat.exists_prime_lt_and_le_two_mul n h0
    exact ⟨p, hpp, by omega, by omega⟩

theorem new64_eq (n : Nat) (m : CollisionMethod)
    (hq : ∃ q, Nat.Prime q ∧ n ≤ q ∧ q < (2 ^ 32 - 6) ^ 2) :
    (HashTable.new64 n m : Option (HashTable K V)) = some (HashTable.new n m) := by
  unfold HashTable.new64 HashTable.new
  rw [nextPrime64_eq n hq]
  simp only
  split <;> rfl

/-- C6, counterexample. A request of `2 ^ 64 - 1`, the largest value of
`size_t`: this number is divisible by 3, `++n` wraps around to 0, and
`nextPrime` returns 2.  The constructed table has capacity 2, which is less
than the request. -/
theorem new_wraps_around :
    nextPrime64 (2 ^ 64 - 1) = some 2 ∧
    (HashTable.new64 (2 ^ 64 - 1) LINEAR_PROBING : Option (HashTable Nat Nat)) =
      some { chainedTable := [], probedTable := [(0, 0), (0, 0)], isOccupied := [false, false],
             tableSize := 2, currentSize := 0, collisionMethod := LINEAR_PROBING, cout := [] } ∧
    ¬ IsLeastPrimeGE (2 ^ 64 - 1) 2 := by
  have h : nextPrime64 (2 ^ 64 - 1) = some 2 := by decide
  refine ⟨h, ?_, fun hc => absurd hc.2.1 (by norm_num)⟩
  unfold HashTable.new64
  rw [h]
  rfl

/-- C6, amended. For every requested capacity `n` from which on there is a
prime below `(2 ^ 32 - 6) ^ 2` (every `n ≤ 2 ^ 62` is such a request, by
`prime_below_wrap`): `nextPrime n` returns after finitely many increments, and
nothing in it wraps around (the 64-bit function returns the same number); the
table constructed for `n` has as capacity the smallest prime `p ≥ n` (101 for
100, 11 for 10), entry count 0, and for its strategy exactly `p` buckets, all
empty, or exactly `p` slots, all unoccupied. -/
theorem new_rounds_up (n : Nat) (m : CollisionMethod)
    (hq : ∃ q, Nat.Prime q ∧ n ≤ q ∧ q < (2 ^ 32 - 6) ^ 2) :
    nextPrime64 n = some (nextPrime n) ∧
    (HashTable.new64 n m : Option (HashTable K V)) = some (HashTable.new n m) ∧
    IsLeastPrimeGE n (HashTable.new n m : HashTable K V).tableSize ∧
    (∃ k, isPrime (n + k) = true ∧ (∀ j, j < k → isPrime (n + j) = false) ∧
      (HashTable.new n m : HashTable K V).tableSize = n + k) ∧
    (HashTable.new n m : HashTable K V).currentSize = 0 ∧
    (HashTable.new n m : HashTable K V).chainedTable =
      (if m = CHAINING then List.replicate (HashTable.new n m : HashTable K V).tableSize []
       else []) ∧
    (HashTable.new n m : HashTable K V).probedTable =
      (if m = CHAINING then []
       else List.replicate (HashTable.new n m : HashTable K V).tableSize default) ∧
    (HashTable.new n m : HashTable K V).isOccupied =
      (if m = CHAINING then []
       else List.replicate (HashTable.new n m : HashTable K V).tableSize false) ∧
    (HashTable.new 100 m : HashTable K V).tableSize = 101 ∧
    (HashTable.new 10 m : HashTable K V).tableSize = 11 := by
  have hts : ∀ a, (HashTable.new a m : HashTable K V).tableSize = nextPrime a := by
    intro a; unfold HashTable.new; split <;> rfl
  refine ⟨nextPrime64_eq n hq, new64_eq n m hq, ?_, ?_, ?_, ?_, ?_, ?_, ?_, ?_⟩
  · rw [hts]; exact nextPrime_spec n
  · rw [hts]
    obtain ⟨hp, hle, hleast⟩ := nextPrime_spec n
    refine ⟨nextPrime n - n, ?_, ?_, by omega⟩
    · rw [Nat.add_sub_cancel' hle]; exact (isPrime_iff _).mpr hp
    · intro j hj
      cases h : isPrime (n + j) with
      | false => rfl
      | true =>
        have := hleast (n + j) ((isPrime_iff _).mp h) (by omega)
        omega
  · unfold HashTable.new; split <;> rfl
  · unfold HashTable.new; split <;> rfl
  · unfold HashTable.new; split <;> rfl
  · unfold HashTable.new; split <;> rfl
  · rw [hts]; decide
  · rw [hts]; decide

/-- A request of 100 with linear probing (`100 ≤ 2 ^ 62`): the 64-bit
constructor returns the table of capacity 101 with 101 unoccupied slots. -/
theorem new_rounds_up_witness :
    (∃ q, Nat.Prime q ∧ 100 ≤ q ∧ q < (2 ^ 32 - 6) ^ 2) ∧ nextPrime64 100 = some 101 ∧
    ((HashTable.new64 100 LINEAR_PROBING : Option (HashTable Nat Nat)).map
      fun t => (t.tableSize, t.isOccupied.length, t.isOccupied.count true, t.currentSize)) =
      some (101, 101, 0, 0) ∧
    (HashTable.new64 100 LINEAR_PROBING : Option (HashTable Nat Nat)) =
      some (HashTable.new 100 LINEAR_PROBING) :=
  have hq : ∃ q, Nat.Prime q ∧ 100 ≤ q ∧ q < (2 ^ 32 - 6) ^ 2 :=
    prime_below_wrap 100 (by norm_num)
  ⟨hq, by decide, by decide, (new_rounds_up 100 LINEAR_PROBING hq).2.1⟩

/-- C9, counterexample. Constructing a table with requested capacity 0 is not
rejected: the constructor returns a table, of capacity 2. -/
theorem new_zero_returns_table :
    (HashTable.new 0 LINEAR_PROBING : HashTable Nat Nat) =
      { chainedTable := [], probedTable := [(0, 0), (0, 0)], isOccupied := [false, false],
        tableSize := 2, currentSize := 0, collisionMethod := LINEAR_PROBING, cout := [] } := by
  decide

/-- C9, amended. For every strategy, constructing a table with requested
capacity 0 returns the empty table of capacity 2 (`nextPrime 0 = 2`). -/
theorem new_zero_capacity_two (m : CollisionMethod) :
    (HashTable.new 0 m : HashTable K V) =
      (if m = CHAINING then
        { chainedTable := [[], []], probedTable := [], isOccupied := [],
          tableSize := 2, currentSize := 0, collisionMethod := m, cout := [] }
      else
        { chainedTable := [], probedTable := [default, default],
          isOccupied := [false, false],
          tableSize := 2, currentSize := 0, collisionMethod := m, cout := [] }) := by
  unfold HashTable.new
  simp only [nextPrime_zero]
  rfl

/-- C2, the code at the failing input. For every strategy, after `insert(5, 1)`
and `insert(5, 2)` on a fresh table the entry count is 1 and then 2, and
`retrieve(5)` returns the first value, 1. -/
theorem insert_same_key_twice (m : CollisionMethod) :
    overwriteScenario m = .ok (1, 2, some 1) := by
  cases m <;> decide!

/-- C3, the code at the failing input. For every strategy, `remove(5)` after
`insert(5, 1)` returns `true` and leaves `currentSize` at 1; and under chaining,
after `insert(5, 1)`, `insert(5, 2)` a successful `remove(5)` is followed by a
`retrieve(5)` that still finds the key, with value 2. -/
theorem remove_keeps_currentSize (m : CollisionMethod) :
    removeScenario m = .ok (true, 1, 1) ∧
    removeDuplicateScenario = .ok (true, some 2) := by
  constructor
  · cases m <;> decide!
  · decide!

/-- The double-hashing table of capacity 11: attempt 4 for key 5 returns an index. -/
theorem probe_exhausted_iff_witness :
    ((DOUBLE_HASHING = DOUBLE_HASHING → (11 : Nat) ≠ 1) ∧ 4 < 11) ∧
    ∃ p, probe (fun k : Nat => k) (HashTable.new 10 DOUBLE_HASHING : HashTable Nat Nat)
      3 4 5 = .ok p :=
  ⟨⟨by decide, by decide⟩,
    (probe_exhausted_iff (fun k : Nat => k)
      (HashTable.new 10 DOUBLE_HASHING : HashTable Nat Nat) 3 4 5).2 (by decide) (by decide)⟩

/-- On a fresh linear-probing table `remove(5)` returns `false` and the table is unchanged. -/
theorem remove_reports_presence_witness :
    remove (fun k : Nat => k) (HashTable.new 10 LINEAR_PROBING : HashTable Nat Nat) 5 =
      .ok (false, HashTable.new 10 LINEAR_PROBING) ∧
    (HashTable.new 10 LINEAR_PROBING : HashTable Nat Nat) = HashTable.new 10 LINEAR_PROBING :=
  ⟨by decide!,
    (remove_reports_presence (fun k : Nat => k)
      (HashTable.new 10 LINEAR_PROBING : HashTable Nat Nat) 5).2 _ (by decide!)⟩

/-! ## The loops of `rehash` as one pass over `entries` -/

theorem reinsertBucket_append (ins : HashTable K V → K → V → Except Error (HashTable K V)) :
    ∀ (l1 l2 : List (K × V)) (t : HashTable K V),
      reinsertBucket ins t (l1 ++ l2) =
        match reinsertBucket ins t l1 with
        | .error e => .error e
        | .ok t1 => reinsertBucket ins t1 l2 := by
  intro l1
  induction l1 with
  | nil => intro l2 t; rfl
  | cons p l1 ih =>
    intro l2 t
    simp only [List.cons_append, reinsertBucket]
    cases ins t p.1 p.2 with
    | error e => rfl
    | ok t1 => exact ih l2 t1

theorem reinsertBuckets_eq (ins : HashTable K V → K → V → Except Error (HashTable K V)) :
    ∀ (buckets : List (List (K × V))) (t : HashTable K V),
      reinsertBuckets ins t buckets = reinsertBucket ins t buckets.flatten := by
  intro buckets
  induction buckets with
  | nil => intro t; rfl
  | cons b rest ih =>
    intro t
    simp only [reinsertBuckets, List.flatten_cons, reinsertBucket_append]
    cases reinsertBucket ins t b with
    | error e => rfl
    | ok t1 => exact ih t1

theorem reinsertSlots_eq (ins : HashTable K V → K → V → Except Error (HashTable K V))
    (oldTable : List (K × V)) (oldOccupied : List Bool) :
    ∀ (idxs : List Nat) (t : HashTable K V),
      reinsertSlots ins oldTable oldOccupied t idxs =
        reinsertBucket ins t (idxs.filterMap fun i =>
          if oldOccupied.getD i false then some (oldTable.getD i default) else none) := by
  intro idxs
  induction idxs with
  | nil => intro t; rfl
  | cons i rest ih =>
    intro t
    unfold reinsertSlots
    by_cases ho : oldOccupied.getD i false = true
    · rw [if_pos ho, List.filterMap_cons_some (by rw [if_pos ho])]
      simp only [reinsertBucket]
      cases ins t (oldTable.getD i default).1 (oldTable.getD i default).2 with
      | error e => rfl
      | ok t1 => exact ih t1
    · rw [if_neg ho, List.filterMap_cons_none (by rw [if_neg ho])]
      exact ih t

/-- `rehash` re-inserts the pairs of `entries t`, in that order, into
`rehashStart t`, and then writes its second line of output. -/
theorem rehash_eq (ins : HashTable K V → K → V → Except Error (HashTable K V))
    (t : HashTable K V) :
    rehash ins t =
      match reinsertBucket ins (rehashStart t) (entries t) with
      | .error e => .error e
      | .ok t2 =>
        .ok { t2 with cout := t2.cout ++ [Output.rehashComplete t2.tableSize] } := by
  unfold rehash rehashStart entries
  by_cases hm : t.collisionMethod = CHAINING
  · simp only [hm, if_true, reinsertBuckets_eq]
  · simp only [hm, if_false, reinsertSlots_eq]

theorem insertAll_eq (fuel : Nat) :
    ∀ (l : List (K × V)) (t : HashTable K V),
      insertAll hash fuel t l = reinsertBucket (insert hash fuel) t l := by
  intro l
  induction l with
  | nil => intro t; rfl
  | cons p l ih =>
    intro t
    simp only [insertAll, reinsertBucket]
    cases insert hash fuel t p.1 p.2 with
    | error e => rfl
    | ok t1 => exact ih t1

/-! ## Lists -/

theorem getD_set_self {α : Type} (l : List α) (p : Nat) (x d : α) (h : p < l.length) :
    (l.set p x).getD p d = x := by
  simp [List.getElem?_set, h]

theorem getD_set_ne {α : Type} (l : List α) (p s : Nat) (x d : α) (h : s ≠ p) :
    (l.set p x).getD s d = l.getD s d := by
  simp [List.getElem?_set, Ne.symm h]

theorem getD_replicate {α : Type} (n s : Nat) (x : α) :
    (List.replicate n x).getD s x = x := by
  simp only [List.getD_eq_getElem?_getD, List.getElem?_replicate]
  split <;> rfl

/-- Changing a selection function at one index of a duplicate-free list from
`none` to `some a` adds `a` to the selected elements. -/
theorem filterMap_update_perm {α : Type} (g g1 : Nat → Option α) (p : Nat) (a : α)
    (hg : g p = none) (hg1 : g1 p = some a) (hne : ∀ i, i ≠ p → g1 i = g i) :
    ∀ l : List Nat, l.Nodup → p ∈ l → (l.filterMap g1).Perm (a :: l.filterMap g) := by
  intro l
  induction l with
  | nil => intro _ h; cases h
  | cons x xs ih =>
    intro hnd hmem
    rw [List.nodup_cons] at hnd
    by_cases hx : x = p
    · subst hx
      rw [List.filterMap_cons_some hg1, List.filterMap_cons_none hg]
      have : xs.filterMap g1 = xs.filterMap g := by
        apply List.filterMap_congr
        intro i hi
        exact hne i (fun h => hnd.1 (h ▸ hi))
      rw [this]
    · have hp : p ∈ xs := by
        rcases List.mem_cons.mp hmem with h | h
        · exact absurd h.symm hx
        · exact h
      have ih1 := ih hnd.2 hp
      cases hgx : g x with
      | none =>
        rw [List.filterMap_cons_none hgx, List.filterMap_cons_none ((hne x hx).trans hgx)]
        exact ih1
      | some b =>
        rw [List.filterMap_cons_some hgx, List.filterMap_cons_some ((hne x hx).trans hgx)]
        exact (List.Perm.cons b ih1).trans (List.Perm.swap a b _)

theorem flatten_set_perm {α : Type} (a : α) :
    ∀ (l : List (List α)) (i : Nat) (b : List α), i < l.length →
      b.Perm (a :: l.getD i []) → (l.set i b).flatten.Perm (a :: l.flatten) := by
  intro l
  induction l with
  | nil => intro i b h; simp at h
  | cons x xs ih =>
    intro i b hi hb
    cases i with
    | zero =>
      simp only [List.set_cons_zero, List.flatten_cons]
      simp only [List.getD_cons_zero] at hb
      exact (List.Perm.append_right xs.flatten hb)
    | succ i =>
      simp only [List.set_cons_succ, List.flatten_cons]
      simp only [List.getD_cons_succ] at hb
      have := ih i b (by simpa using hi) hb
      exact (List.Perm.append_left x this).trans List.perm_middle

theorem flatten_perm_set {α : Type} (a : α) :
    ∀ (l : List (List α)) (i : Nat) (b : List α), i < l.length →
      (l.getD i []).Perm (a :: b) → l.flatten.Perm (a :: (l.set i b).flatten) := by
  intro l
  induction l with
  | nil => intro i b h; simp at h
  | cons x xs ih =>
    intro i b hi hb
    cases i with
    | zero =>
      simp only [List.set_cons_zero, List.flatten_cons]
      simp only [List.getD_cons_zero] at hb
      exact (List.Perm.append_right xs.flatten hb)
    | succ i =>
      simp only [List.set_cons_succ, List.flatten_cons]
      simp only [List.getD_cons_succ] at hb
      have := ih i b (by simpa using hi) hb
      exact (List.Perm.append_left x this).trans List.perm_middle

theorem getD_mem_of_lt {α : Type} (l : List (List α)) (i : Nat) (h : i < l.length) :
    l.getD i [] ∈ l := by
  simp [List.getD_eq_getElem?_getD, List.getElem?_eq_getElem h]

theorem removeBucket_perm (key : K) :
    ∀ (bucket rest : List (K × V)), removeBucket key bucket = some rest →
      ∃ value, bucket.Perm ((key, value) :: rest) := by
  intro bucket
  induction bucket with
  | nil => intro rest h; cases h
  | cons pair tail ih =>
    intro rest h
    unfold removeBucket at h
    by_cases hk : pair.1 = key
    · rw [if_pos hk] at h
      cases h
      exact ⟨pair.2, by rw [← hk]⟩
    · rw [if_neg hk] at h
      cases hr : removeBucket key tail with
      | none => rw [hr] at h; cases h
      | some rest1 =>
        rw [hr] at h
        cases h
        obtain ⟨value, hv⟩ := ih rest1 hr
        exact ⟨value, (List.Perm.cons pair hv).trans (List.Perm.swap _ _ _)⟩

theorem retrieveBucket_of_mem (key : K) (value : V) :
    ∀ bucket : List (K × V), (bucket.map Prod.fst).Nodup → (key, value) ∈ bucket →
      retrieveBucket key bucket = some value := by
  intro bucket
  induction bucket with
  | nil => intro _ h; cases h
  | cons pair tail ih =>
    intro hnd hmem
    rw [List.map_cons, List.nodup_cons] at hnd
    unfold retrieveBucket
    rcases List.mem_cons.mp hmem with h | h
    · subst h; simp
    · have hne : pair.1 ≠ key := by
        intro heq
        apply hnd.1
        rw [heq]
        exact List.mem_map.mpr ⟨(key, value), h, rfl⟩
      rw [if_neg hne]
      exact ih hnd.2 h

/-! ## Facts about `probe` and the loop of `insert` -/

theorem probe_congr (t t1 : HashTable K V) (hs : t1.tableSize = t.tableSize)
    (hm : t1.collisionMethod = t.collisionMethod) (index i : Nat) (key : K) :
    probe hash t1 index i key = probe hash t index i key := by
  unfold probe
  rw [hs, hm]

theorem probe_attempt_lt (t : HashTable K V) (index i p : Nat) (key : K)
    (h : probe hash t index i key = .ok p) : i < t.tableSize := by
  by_contra hlt
  rw [probe_full_of_ge hash t index i key (by omega)] at h
  cases h

theorem probe_result_lt (t : HashTable K V) (index i p : Nat) (key : K)
    (hm : t.collisionMethod ≠ CHAINING) (h : probe hash t index i key = .ok p) :
    p < t.tableSize := by
  have hi := probe_attempt_lt hash t index i p key h
  have hpos : 0 < t.tableSize := by omega
  unfold probe at h
  have h1 : ¬ i ≥ t.tableSize := by omega
  simp only [h1, if_false] at h
  split at h
  · cases h; exact Nat.mod_lt _ hpos
  · split at h
    · cases h; exact Nat.mod_lt _ hpos
    · split at h
      · split at h
        · cases h
        · cases h; exact Nat.mod_lt _ hpos
      · rename_i h2 h3 h4
        exfalso
        cases hcm : t.collisionMethod <;> simp_all

theorem insertLoop_ok (t : HashTable K V) (index : Nat) (key : K) :
    ∀ fuel i0 i, insertLoop hash t index key fuel i0 = .ok i →
      i0 ≤ i ∧
      (∃ p, probe hash t index i key = .ok p ∧ t.isOccupied.getD p false = false) ∧
      ∀ j, i0 ≤ j → j < i →
        ∃ q, probe hash t index j key = .ok q ∧ t.isOccupied.getD q false = true := by
  intro fuel
  induction fuel with
  | zero => intro i0 i h; cases h
  | succ fuel ih =>
    intro i0 i h
    unfold insertLoop at h
    cases hp : probe hash t index i0 key with
    | error e => rw [hp] at h; cases h
    | ok p =>
      rw [hp] at h
      simp only at h
      by_cases ho : t.isOccupied.getD p false = true
      · rw [if_pos ho] at h
        obtain ⟨h1, h2, h3⟩ := ih (i0 + 1) i h
        refine ⟨by omega, h2, fun j hj hji => ?_⟩
        by_cases hj0 : j = i0
        · subst hj0; exact ⟨p, hp, ho⟩
        · exact h3 j (by omega) hji
      · rw [if_neg ho] at h
        cases h
        refine ⟨Nat.le_refl _, ⟨p, hp, by simpa using ho⟩, fun j hj hji => by omega⟩

theorem probe_ne_outOfFuel (t : HashTable K V) (index i : Nat) (key : K) :
    probe hash t index i key ≠ .error .outOfFuel := by
  unfold probe
  split
  · intro hc; cases hc
  · split
    · intro hc; cases hc
    · split
      · intro hc; cases hc
      · split
        · split <;> (intro hc; cases hc)
        · intro hc; cases hc

theorem insertLoop_ne_outOfFuel (t : HashTable K V) (index : Nat) (key : K) :
    ∀ fuel i0, t.tableSize ≤ i0 + fuel →
      insertLoop hash t index key (fuel + 1) i0 ≠ .error .outOfFuel := by
  intro fuel
  induction fuel with
  | zero =>
    intro i0 h
    unfold insertLoop
    rw [probe_full_of_ge hash t index i0 key (by omega)]
    intro hc
    cases hc
  | succ fuel ih =>
    intro i0 h
    unfold insertLoop
    cases hp : probe hash t index i0 key with
    | error e =>
      intro hc
      cases hc
      exact probe_ne_outOfFuel hash t index i0 key hp
    | ok p =>
      simp only
      split
      · exact ih (i0 + 1) (by omega)
      · intro hc; cases hc

/-- When some attempt below `tableSize` reaches an unoccupied slot, and the
attempts before it do not fail, the loop of `insert` ends normally. -/
theorem insertLoop_finds (t : HashTable K V) (index : Nat) (key : K) :
    ∀ fuel i0 i p, i0 ≤ i → i < i0 + fuel →
      (∀ j, j ≤ i → ∃ q, probe hash t index j key = .ok q) →
      probe hash t index i key = .ok p → t.isOccupied.getD p false = false →
      ∃ i1, insertLoop hash t index key fuel i0 = .ok i1 := by
  intro fuel
  induction fuel with
  | zero => intro i0 i p h1 h2; omega
  | succ fuel ih =>
    intro i0 i p h1 h2 hall hp ho
    unfold insertLoop
    obtain ⟨q, hq⟩ := hall i0 h1
    rw [hq]
    simp only
    by_cases hoq : t.isOccupied.getD q false = true
    · rw [if_pos hoq]
      have hne : i0 ≠ i := by
        intro h
        subst h
        rw [hq] at hp
        cases hp
        rw [hoq] at ho
        cases ho
      exact ih (i0 + 1) i p (by omega) (by omega) hall hp ho
    · rw [if_neg hoq]
      exact ⟨i0, rfl⟩

/-! ## Facts about `insertEntry` -/

theorem hashFunction_ok (t : HashTable K V) (key : K) (h : t.tableSize ≠ 0) :
    hashFunction hash t key = .ok (hash key % t.tableSize) := by
  unfold hashFunction
  rw [if_neg h]

theorem insertEntry_chaining (t : HashTable K V) (key : K) (value : V)
    (hm : t.collisionMethod = CHAINING) (hts : t.tableSize ≠ 0) :
    insertEntry hash t key value =
      .ok { t with
        chainedTable :=
          t.chainedTable.set (hash key % t.tableSize)
            (t.chainedTable.getD (hash key % t.tableSize) [] ++ [(key, value)])
        currentSize := t.currentSize + 1 } := by
  unfold insertEntry
  rw [hashFunction_ok hash t key hts]
  simp only [hm, if_true]

theorem insertEntry_probing (t t1 : HashTable K V) (key : K) (value : V)
    (hm : t.collisionMethod ≠ CHAINING) (h : insertEntry hash t key value = .ok t1) :
    ∃ i p, insertLoop hash t (hash key % t.tableSize) key (t.tableSize + 1) 0 = .ok i ∧
      probe hash t (hash key % t.tableSize) i key = .ok p ∧
      t1 = { t with
        probedTable := t.probedTable.set p (key, value)
        isOccupied := t.isOccupied.set p true
        currentSize := t.currentSize + 1 } := by
  unfold insertEntry at h
  by_cases hts : t.tableSize = 0
  · simp [hashFunction, hts] at h
  · rw [hashFunction_ok hash t key hts] at h
    simp only [hm, if_false] at h
    cases hl : insertLoop hash t (hash key % t.tableSize) key (t.tableSize + 1) 0 with
    | error e => rw [hl] at h; cases h
    | ok i =>
      rw [hl] at h
      simp only at h
      cases hp : probe hash t (hash key % t.tableSize) i key with
      | error e => rw [hp] at h; cases h
      | ok p =>
        rw [hp] at h
        simp only at h
        cases h
        exact ⟨i, p, rfl, hp, rfl⟩

theorem insertEntry_fields (t t1 : HashTable K V) (key : K) (value : V)
    (h : insertEntry hash t key value = .ok t1) :
    t1.tableSize = t.tableSize ∧ t1.collisionMethod = t.collisionMethod ∧
    t1.cout = t.cout ∧ t1.currentSize = t.currentSize + 1 := by
  by_cases hm : t.collisionMethod = CHAINING
  · by_cases hts : t.tableSize = 0
    · simp [insertEntry, hashFunction, hts] at h
    · rw [insertEntry_chaining hash t key value hm hts] at h
      cases h
      exact ⟨rfl, rfl, rfl, rfl⟩
  · obtain ⟨i, p, _, _, rfl⟩ := insertEntry_probing hash t t1 key value hm h
    exact ⟨rfl, rfl, rfl, rfl⟩

theorem insertEntry_wellFormed (t t1 : HashTable K V) (key : K) (value : V)
    (hwf : WellFormed t) (h : insertEntry hash t key value = .ok t1) : WellFormed t1 := by
  obtain ⟨hp, hc, ho⟩ := hwf
  by_cases hm : t.collisionMethod = CHAINING
  · rw [insertEntry_chaining hash t key value hm hp.pos.ne'] at h
    cases h
    refine ⟨hp, fun _ => ?_, fun h2 => absurd hm h2⟩
    simp only [List.length_set]
    exact hc hm
  · obtain ⟨i, p, _, _, rfl⟩ := insertEntry_probing hash t t1 key value hm h
    refine ⟨hp, fun h2 => absurd h2 hm, fun _ => ?_⟩
    simp only [List.length_set]
    exact ho hm

theorem insertEntry_perm (t t1 : HashTable K V) (key : K) (value : V)
    (hwf : WellFormed t) (h : insertEntry hash t key value = .ok t1) :
    (entries t1).Perm ((key, value) :: entries t) := by
  obtain ⟨hp, hc, ho⟩ := hwf
  by_cases hm : t.collisionMethod = CHAINING
  · rw [insertEntry_chaining hash t key value hm hp.pos.ne'] at h
    cases h
    unfold entries
    simp only [hm, if_true]
    apply flatten_set_perm
    · rw [hc hm]; exact Nat.mod_lt _ hp.pos
    · exact List.perm_append_singleton _ _
  · obtain ⟨i, p, hl, hpr, rfl⟩ := insertEntry_probing hash t t1 key value hm h
    obtain ⟨_, ⟨p1, hp1, hfree⟩, _⟩ := insertLoop_ok hash t _ key _ _ _ hl
    rw [hpr] at hp1
    cases hp1
    have hplt : p < t.tableSize := probe_result_lt hash t _ _ _ key hm hpr
    unfold entries
    simp only [hm, if_false]
    apply filterMap_update_perm _ _ p (key, value) _ _ _ _ (List.nodup_range _)
      (List.mem_range.mpr hplt)
    · rw [hfree]; rfl
    · rw [getD_set_self _ _ _ _ (by rw [(ho hm).2]; exact hplt),
        getD_set_self _ _ _ _ (by rw [(ho hm).1]; exact hplt)]
      rfl
    · intro s hs
      rw [getD_set_ne _ _ _ _ _ hs, getD_set_ne _ _ _ _ _ hs]

theorem insertEntry_ne_outOfFuel (t : HashTable K V) (key : K) (value : V) :
    insertEntry hash t key value ≠ .error .outOfFuel := by
  unfold insertEntry
  unfold hashFunction
  split
  · rename_i e he
    split at he
    · cases he; intro hc; cases hc
    · cases he
  · split
    · intro hc; cases hc
    · split
      · rename_i e he
        intro hc
        cases hc
        exact insertLoop_ne_outOfFuel hash t _ key _ 0 (by omega) he
      · split
        · rename_i e he
          intro hc
          cases hc
          rename_i i hi _
          obtain ⟨_, ⟨p, hp, _⟩, _⟩ := insertLoop_ok hash t _ key _ _ _ hi
          rw [hp] at he
          cases he
        · intro hc; cases hc

/-! ## `insert` in terms of `insertEntry` and `rehash` -/

theorem insert_of_error (fuel : Nat) (t : HashTable K V) (key : K) (value : V) (e : Error)
    (h : insertEntry hash t key value = .error e) :
    insert hash fuel t key value = .error e := by
  cases fuel <;> simp only [insert, h]

theorem insert_of_small (fuel : Nat) (t t1 : HashTable K V) (key : K) (value : V)
    (h : insertEntry hash t key value = .ok t1)
    (hs : ¬ 4 * t1.currentSize > 3 * t1.tableSize) :
    insert hash fuel t key value = .ok t1 := by
  cases fuel <;> simp only [insert, h, hs, if_false]

theorem insert_of_large (fuel : Nat) (t t1 : HashTable K V) (key : K) (value : V)
    (h : insertEntry hash t key value = .ok t1)
    (hs : 4 * t1.currentSize > 3 * t1.tableSize) :
    insert hash (fuel + 1) t key value = rehash (insert hash fuel) t1 := by
  simp only [insert, h, hs, if_true]

theorem insert_zero_of_large (t t1 : HashTable K V) (key : K) (value : V)
    (h : insertEntry hash t key value = .ok t1)
    (hs : 4 * t1.currentSize > 3 * t1.tableSize) :
    insert hash 0 t key value = .error .outOfFuel := by
  simp only [insert, h, hs, if_true]

/-! ## The table at the start of the re-insertion loop -/

theorem rehashStart_fields (t : HashTable K V) :
    (rehashStart t).tableSize = nextPrime (t.tableSize * 2) ∧
    (rehashStart t).currentSize = 0 ∧
    (rehashStart t).collisionMethod = t.collisionMethod ∧
    (rehashStart t).cout = t.cout ++ [Output.rehashing t.tableSize] := by
  unfold rehashStart
  split <;> exact ⟨rfl, rfl, rfl, rfl⟩

theorem rehashStart_wellFormed (t : HashTable K V) : WellFormed (rehashStart t) := by
  unfold rehashStart
  by_cases hm : t.collisionMethod = CHAINING
  · rw [if_pos hm]
    exact ⟨nextPrime_prime _, fun _ => List.length_replicate _ _, fun h => absurd hm h⟩
  · rw [if_neg hm]
    exact ⟨nextPrime_prime _, fun h => absurd h hm,
      fun _ => ⟨List.length_replicate _ _, List.length_replicate _ _⟩⟩

theorem filterMap_replicate_false (n c : Nat) (tbl : List (K × V)) :
    ((List.range n).filterMap fun i =>
      if (List.replicate c false).getD i false then some (tbl.getD i default) else none) = [] := by
  rw [List.filterMap_eq_nil_iff]
  intro i _
  rw [getD_replicate]
  rfl

theorem rehashStart_entries (t : HashTable K V) : entries (rehashStart t) = [] := by
  unfold rehashStart entries
  by_cases hm : t.collisionMethod = CHAINING
  · simp only [hm, if_true, List.flatten_replicate_nil]
  · simp only [hm, if_false]
    exact filterMap_replicate_false _ _ _

theorem new_fields (size : Nat) (m : CollisionMethod) :
    (HashTable.new size m : HashTable K V).tableSize = nextPrime size ∧
    (HashTable.new size m : HashTable K V).currentSize = 0 ∧
    (HashTable.new size m : HashTable K V).collisionMethod = m ∧
    (HashTable.new size m : HashTable K V).cout = [] := by
  unfold HashTable.new
  split <;> exact ⟨rfl, rfl, rfl, rfl⟩

theorem new_wellFormed (size : Nat) (m : CollisionMethod) :
    WellFormed (HashTable.new size m : HashTable K V) := by
  unfold HashTable.new
  by_cases hm : m = CHAINING
  · simp only [hm, if_true]
    exact ⟨nextPrime_prime _, fun _ => List.length_replicate _ _, fun h => absurd rfl h⟩
  · simp only [hm, if_false]
    exact ⟨nextPrime_prime _, fun h => absurd h hm,
      fun _ => ⟨List.length_replicate _ _, List.length_replicate _ _⟩⟩

theorem new_entries (size : Nat) (m : CollisionMethod) :
    entries (HashTable.new size m : HashTable K V) = [] := by
  unfold HashTable.new entries
  by_cases hm : m = CHAINING
  · simp only [hm, if_true, List.flatten_replicate_nil]
  · simp only [hm, if_false]
    exact filterMap_replicate_false _ _ _

/-! ## The growth policy -/

/-- Re-inserting a list that fits below the load limit never rehashes: every
call of `insert` in the loop is just `insertEntry`. -/
theorem reinsert_small (fuel : Nat) :
    ∀ (l : List (K × V)) (t0 : HashTable K V), WellFormed t0 →
      (entries t0).length = t0.currentSize →
      4 * (t0.currentSize + l.length) ≤ 3 * t0.tableSize →
      reinsertBucket (insert hash fuel) t0 l ≠ .error .outOfFuel ∧
      ∀ t2, reinsertBucket (insert hash fuel) t0 l = .ok t2 →
        t2.tableSize = t0.tableSize ∧ t2.cout = t0.cout ∧
        t2.collisionMethod = t0.collisionMethod ∧
        t2.currentSize = t0.currentSize + l.length ∧ WellFormed t2 ∧
        (entries t2).length = t2.currentSize := by
  intro l
  induction l with
  | nil =>
    intro t0 hwf hlen _
    refine ⟨fun hc => (by cases hc), fun t2 h => ?_⟩
    cases h
    exact ⟨rfl, rfl, rfl, rfl, hwf, hlen⟩
  | cons p rest ih =>
    intro t0 hwf hlen hsmall
    simp only [List.length_cons] at hsmall
    unfold reinsertBucket
    cases he : insertEntry hash t0 p.1 p.2 with
    | error e =>
      rw [insert_of_error hash fuel t0 p.1 p.2 e he]
      simp only
      constructor
      · intro hc
        cases hc
        exact insertEntry_ne_outOfFuel hash t0 p.1 p.2 he
      · intro t2 h
        cases h
    | ok t1 =>
      obtain ⟨h1, h2, h3, h4⟩ := insertEntry_fields hash t0 t1 p.1 p.2 he
      have hwf1 := insertEntry_wellFormed hash t0 t1 p.1 p.2 hwf he
      have hperm := insertEntry_perm hash t0 t1 p.1 p.2 hwf he
      have hlen1 : (entries t1).length = t1.currentSize := by
        rw [hperm.length_eq, List.length_cons, hlen, h4]
      rw [insert_of_small hash fuel t0 t1 p.1 p.2 he (by omega)]
      simp only
      obtain ⟨ih1, ih2⟩ := ih t1 hwf1 hlen1 (by omega)
      refine ⟨ih1, fun t2 h => ?_⟩
      obtain ⟨a, b, c, d, e, f⟩ := ih2 t2 h
      simp only [List.length_cons]
      exact ⟨by omega, by rw [b, h3], by rw [c, h2], by omega, e, f⟩

theorem entries_cout (t : HashTable K V) (out : List Output) :
    entries { t with cout := out } = entries t := rfl

theorem wellFormed_cout (t : HashTable K V) (out : List Output) (h : WellFormed t) :
    WellFormed { t with cout := out } := h

/-- The effect of one `insert` on a balanced table. -/
theorem insert_balanced (t : HashTable K V) (key : K) (value : V) (hb : Balanced t) :
    (∀ fuel, insert hash (fuel + 1) t key value ≠ .error .outOfFuel) ∧
    ∀ fuel t1, insert hash fuel t key value = .ok t1 →
      Balanced t1 ∧ t1.collisionMethod = t.collisionMethod ∧
      (entries t1).length = (entries t).length + 1 ∧
      (if 4 * (t.currentSize + 1) > 3 * t.tableSize then
        t1.tableSize = nextPrime (t.tableSize * 2) ∧
        t1.currentSize = (entries t).length + 1 ∧
        t1.cout = t.cout ++
          [Output.rehashing t.tableSize, Output.rehashComplete (nextPrime (t.tableSize * 2))]
      else
        t1.tableSize = t.tableSize ∧ t1.currentSize = t.currentSize + 1 ∧
        t1.cout = t.cout) := by
  obtain ⟨hwf, hlen, hload⟩ := hb
  cases he : insertEntry hash t key value with
  | error e =>
    refine ⟨fun fuel hc => ?_, fun fuel t1 h => ?_⟩
    · rw [insert_of_error hash _ t key value e he] at hc
      cases hc
      exact insertEntry_ne_outOfFuel hash t key value he
    · rw [insert_of_error hash _ t key value e he] at h
      cases h
  | ok t0 =>
    obtain ⟨h1, h2, h3, h4⟩ := insertEntry_fields hash t t0 key value he
    have hwf0 := insertEntry_wellFormed hash t t0 key value hwf he
    have hperm := insertEntry_perm hash t t0 key value hwf he
    have hlen0 : (entries t0).length = (entries t).length + 1 := by
      rw [hperm.length_eq, List.length_cons]
    by_cases hs : 4 * (t.currentSize + 1) > 3 * t.tableSize
    · have hs0 : 4 * t0.currentSize > 3 * t0.tableSize := by rw [h1, h4]; exact hs
      have htwo : 2 ≤ t.tableSize := hwf.1.two_le
      obtain ⟨f1, f2, f3, f4⟩ := rehashStart_fields t0
      have hge : t0.tableSize * 2 ≤ nextPrime (t0.tableSize * 2) := le_nextPrime _
      have hsmall : 4 * ((rehashStart t0).currentSize + (entries t0).length) ≤
          3 * (rehashStart t0).tableSize := by
        rw [f1, f2]; omega
      have key1 : ∀ fuel, (reinsertBucket (insert hash fuel) (rehashStart t0) (entries t0) ≠
            .error .outOfFuel) ∧
          ∀ t2, reinsertBucket (insert hash fuel) (rehashStart t0) (entries t0) = .ok t2 →
            t2.tableSize = (rehashStart t0).tableSize ∧ t2.cout = (rehashStart t0).cout ∧
            t2.collisionMethod = (rehashStart t0).collisionMethod ∧
            t2.currentSize = (rehashStart t0).currentSize + (entries t0).length ∧
            WellFormed t2 ∧ (entries t2).length = t2.currentSize :=
        fun fuel => reinsert_small hash fuel (entries t0) (rehashStart t0)
          (rehashStart_wellFormed t0) (by rw [rehashStart_entries, f2]; rfl) hsmall
      refine ⟨fun fuel hc => ?_, fun fuel t1 h => ?_⟩
      · rw [insert_of_large hash fuel t t0 key value he hs0, rehash_eq] at hc
        cases hr : reinsertBucket (insert hash fuel) (rehashStart t0) (entries t0) with
        | error e =>
          rw [hr] at hc
          cases hc
          exact (key1 fuel).1 hr
        | ok t2 => rw [hr] at hc; cases hc
      · cases fuel with
        | zero =>
          rw [insert_zero_of_large hash t t0 key value he hs0] at h
          cases h
        | succ fuel =>
          rw [insert_of_large hash fuel t t0 key value he hs0, rehash_eq] at h
          cases hr : reinsertBucket (insert hash fuel) (rehashStart t0) (entries t0) with
          | error e => rw [hr] at h; cases h
          | ok t2 =>
            rw [hr] at h
            cases h
            obtain ⟨a, b, c, d, e, f⟩ := (key1 fuel).2 t2 hr
            rw [if_pos hs]
            refine ⟨⟨wellFormed_cout t2 _ e, ?_, ?_⟩, ?_, ?_, ?_, ?_, ?_⟩
            · show (entries t2).length ≤ t2.currentSize
              rw [f]
            · show 4 * t2.currentSize ≤ 3 * t2.tableSize
              rw [a, d, f1, f2]; omega
            · show t2.collisionMethod = t.collisionMethod
              rw [c, f3, h2]
            · show (entries t2).length = _
              rw [f, d, f2]; omega
            · show t2.tableSize = _
              rw [a, f1, h1]
            · show t2.currentSize = _
              rw [d, f2]; omega
            · show t2.cout ++ [Output.rehashComplete t2.tableSize] = _
              rw [a, b, f1, f4, h1, h3]
              simp
    · have hs0 : ¬ 4 * t0.currentSize > 3 * t0.tableSize := by rw [h1, h4]; exact hs
      refine ⟨fun fuel hc => ?_, fun fuel t1 h => ?_⟩
      · rw [insert_of_small hash _ t t0 key value he hs0] at hc
        cases hc
      · rw [insert_of_small hash _ t t0 key value he hs0] at h
        cases h
        rw [if_neg hs]
        refine ⟨⟨hwf0, by omega, by omega⟩, h2, hlen0, h1, h4, h3⟩

/-! ## Facts about `remove` -/

theorem removeLoop_ok (t : HashTable K V) (index : Nat) (key : K) :
    ∀ fuel i0 p, removeLoop hash t index key fuel i0 = .ok (some p) →
      ∃ i, i0 ≤ i ∧ probe hash t index i key = .ok p ∧
        t.isOccupied.getD p false = true ∧ (t.probedTable.getD p default).1 = key ∧
        ∀ j, i0 ≤ j → j < i →
          ∃ q, probe hash t index j key = .ok q ∧ t.isOccupied.getD q false = true ∧
            (t.probedTable.getD q default).1 ≠ key := by
  intro fuel
  induction fuel with
  | zero => intro i0 p h; cases h
  | succ fuel ih =>
    intro i0 p h
    unfold removeLoop at h
    cases hp : probe hash t index i0 key with
    | error e => rw [hp] at h; cases h
    | ok q =>
      rw [hp] at h
      simp only at h
      by_cases ho : t.isOccupied.getD q false = true
      · rw [if_pos ho] at h
        by_cases hk : (t.probedTable.getD q default).1 = key
        · rw [if_pos hk] at h
          cases h
          exact ⟨i0, Nat.le_refl _, hp, ho, hk, fun j h1 h2 => by omega⟩
        · rw [if_neg hk] at h
          obtain ⟨i, h1, h2, h3, h4, h5⟩ := ih (i0 + 1) p h
          refine ⟨i, by omega, h2, h3, h4, fun j hj hji => ?_⟩
          by_cases hj0 : j = i0
          · subst hj0; exact ⟨q, hp, ho, hk⟩
          · exact h5 j (by omega) hji
      · rw [if_neg ho] at h
        cases h

/-- The two ways in which `remove` returns. -/
theorem remove_cases (t t1 : HashTable K V) (key : K) (b : Bool)
    (h : remove hash t key = .ok (b, t1)) :
    (b = false ∧ t1 = t) ∨
    (b = true ∧ t.collisionMethod = CHAINING ∧
      ∃ rest, removeBucket key (t.chainedTable.getD (hash key % t.tableSize) []) = some rest ∧
        t1 = { t with chainedTable := t.chainedTable.set (hash key % t.tableSize) rest }) ∨
    (b = true ∧ t.collisionMethod ≠ CHAINING ∧
      ∃ p, removeLoop hash t (hash key % t.tableSize) key (t.tableSize + 1) 0 = .ok (some p) ∧
        t1 = { t with isOccupied := t.isOccupied.set p false }) := by
  unfold remove at h
  by_cases hts : t.tableSize = 0
  · simp [hashFunction, hts] at h
  · rw [hashFunction_ok hash t key hts] at h
    simp only at h
    by_cases hm : t.collisionMethod = CHAINING
    · rw [if_pos hm] at h
      cases hr : removeBucket key (t.chainedTable.getD (hash key % t.tableSize) []) with
      | none =>
        rw [hr] at h
        cases h
        exact Or.inl ⟨rfl, rfl⟩
      | some rest =>
        rw [hr] at h
        cases h
        exact Or.inr (Or.inl ⟨rfl, hm, rest, rfl, rfl⟩)
    · rw [if_neg hm] at h
      cases hr : removeLoop hash t (hash key % t.tableSize) key (t.tableSize + 1) 0 with
      | error e => rw [hr] at h; cases h
      | ok r =>
        rw [hr] at h
        cases r with
        | none =>
          cases h
          exact Or.inl ⟨rfl, rfl⟩
        | some p =>
          cases h
          exact Or.inr (Or.inr ⟨rfl, hm, p, rfl, rfl⟩)

theorem remove_fields (t t1 : HashTable K V) (key : K) (b : Bool)
    (h : remove hash t key = .ok (b, t1)) :
    t1.tableSize = t.tableSize ∧ t1.collisionMethod = t.collisionMethod ∧
    t1.cout = t.cout ∧ t1.currentSize = t.currentSize := by
  rcases remove_cases hash t t1 key b h with ⟨_, rfl⟩ | ⟨_, _, _, _, rfl⟩ | ⟨_, _, _, _, rfl⟩ <;>
    exact ⟨rfl, rfl, rfl, rfl⟩

theorem remove_wellFormed (t t1 : HashTable K V) (key : K) (b : Bool)
    (hwf : WellFormed t) (h : remove hash t key = .ok (b, t1)) : WellFormed t1 := by
  obtain ⟨hp, hc, ho⟩ := hwf
  rcases remove_cases hash t t1 key b h with ⟨_, rfl⟩ | ⟨_, hm, _, _, rfl⟩ | ⟨_, hm, _, _, rfl⟩
  · exact ⟨hp, hc, ho⟩
  · refine ⟨hp, fun _ => ?_, fun h2 => absurd hm h2⟩
    simp only [List.length_set]
    exact hc hm
  · refine ⟨hp, fun h2 => absurd h2 hm, fun _ => ?_⟩
    simp only [List.length_set]
    exact ho hm

/-- A successful `remove` takes exactly one pair with the given key out of the
stored pairs. -/
theorem remove_perm (t t1 : HashTable K V) (key : K)
    (hwf : WellFormed t) (h : remove hash t key = .ok (true, t1)) :
    ∃ value, (entries t).Perm ((key, value) :: entries t1) := by
  obtain ⟨hp, hc, ho⟩ := hwf
  rcases remove_cases hash t t1 key true h with
    ⟨hb, _⟩ | ⟨_, hm, rest, hr, rfl⟩ | ⟨_, hm, p, hr, rfl⟩
  · cases hb
  · obtain ⟨value, hv⟩ := removeBucket_perm key _ rest hr
    refine ⟨value, ?_⟩
    unfold entries
    simp only [hm, if_true]
    apply flatten_perm_set
    · rw [hc hm]; exact Nat.mod_lt _ hp.pos
    · exact hv
  · obtain ⟨i, _, hpr, hocc, hkey, _⟩ := removeLoop_ok hash t _ key _ _ p hr
    have hplt : p < t.tableSize := probe_result_lt hash t _ _ _ key hm hpr
    refine ⟨(t.probedTable.getD p default).2, ?_⟩
    unfold entries
    simp only [hm, if_false]
    apply filterMap_update_perm _ _ p _ _ _ _ _ (List.nodup_range _) (List.mem_range.mpr hplt)
    · rw [getD_set_self _ _ _ _ (by rw [(ho hm).2]; exact hplt)]
      rfl
    · rw [hocc, ← hkey]
      rfl
    · intro s hs
      rw [getD_set_ne _ _ _ _ _ hs]

theorem remove_balanced (t t1 : HashTable K V) (key : K) (b : Bool)
    (hb : Balanced t) (h : remove hash t key = .ok (b, t1)) : Balanced t1 := by
  obtain ⟨hwf, hlen, hload⟩ := hb
  obtain ⟨h1, _, _, h4⟩ := remove_fields hash t t1 key b h
  refine ⟨remove_wellFormed hash t t1 key b hwf h, ?_, by rw [h1, h4]; exact hload⟩
  cases b with
  | false =>
    rcases remove_cases hash t t1 key false h with ⟨_, rfl⟩ | ⟨hb, _⟩ | ⟨hb, _⟩
    · exact hlen
    · cases hb
    · cases hb
  | true =>
    obtain ⟨value, hv⟩ := remove_perm hash t t1 key hwf h
    have := hv.length_eq
    simp only [List.length_cons] at this
    omega

/-! ## Reachable tables are balanced -/

theorem new_balanced (size : Nat) (m : CollisionMethod) :
    Balanced (HashTable.new size m : HashTable K V) := by
  refine ⟨new_wellFormed size m, ?_, ?_⟩
  · rw [new_entries]; exact Nat.zero_le _
  · rw [(new_fields size m).2.1]; exact Nat.zero_le _

theorem applyOp_balanced (fuel : Nat) (t t1 : HashTable K V) (op : Op K V)
    (hb : Balanced t) (h : applyOp hash fuel t op = .ok t1) : Balanced t1 := by
  cases op with
  | insert key value =>
    exact ((insert_balanced hash t key value hb).2 fuel t1 h).1
  | remove key =>
    simp only [applyOp] at h
    cases hr : remove hash t key with
    | error e => rw [hr] at h; cases h
    | ok r =>
      rw [hr] at h
      cases h
      exact remove_balanced hash t r.2 key r.1 hb hr

theorem runOps_balanced (fuel : Nat) :
    ∀ (ops : List (Op K V)) (t t1 : HashTable K V), Balanced t →
      runOps hash fuel t ops = .ok t1 → Balanced t1 := by
  intro ops
  induction ops with
  | nil => intro t t1 hb h; cases h; exact hb
  | cons op rest ih =>
    intro t t1 hb h
    unfold runOps at h
    cases ha : applyOp hash fuel t op with
    | error e => rw [ha] at h; cases h
    | ok t0 =>
      rw [ha] at h
      exact ih t0 t1 (applyOp_balanced hash fuel t t0 op hb ha) h

theorem reachable_balanced (t : HashTable K V) (h : Reachable hash t) : Balanced t := by
  obtain ⟨size, m, fuel, ops, hops⟩ := h
  exact runOps_balanced hash fuel ops _ t (new_balanced size m) hops

/-- C5. In every table state that can be reached from the constructor by
calls of `insert` and `remove`, the capacity is a prime number; this includes
the fresh table and the table after every rehash. -/
theorem capacity_always_prime (t : HashTable K V) (h : Reachable hash t) :
    Nat.Prime t.tableSize :=
  (reachable_balanced hash t h).1.1

/-! ## Growth -/

theorem insertAll_small (fuel : Nat) (l : List (K × V)) (t0 : HashTable K V)
    (hb : Balanced t0) (hlen : (entries t0).length = t0.currentSize)
    (hsmall : 4 * (t0.currentSize + l.length) ≤ 3 * t0.tableSize) :
    insertAll hash fuel t0 l ≠ .error .outOfFuel ∧
    ∀ t2, insertAll hash fuel t0 l = .ok t2 →
      t2.tableSize = t0.tableSize ∧ t2.cout = t0.cout ∧
      t2.currentSize = t0.currentSize + l.length ∧ Balanced t2 ∧
      (entries t2).length = t2.currentSize := by
  rw [insertAll_eq]
  obtain ⟨h1, h2⟩ := reinsert_small hash fuel l t0 hb.1 hlen hsmall
  refine ⟨h1, fun t2 h => ?_⟩
  obtain ⟨a, b, _, d, e, f⟩ := h2 t2 h
  exact ⟨a, b, d, ⟨e, by omega, by omega⟩, f⟩

theorem insertAll_append (fuel : Nat) (l1 l2 : List (K × V)) (t t2 : HashTable K V)
    (h : insertAll hash fuel t (l1 ++ l2) = .ok t2) :
    ∃ t1, insertAll hash fuel t l1 = .ok t1 ∧ insertAll hash fuel t1 l2 = .ok t2 := by
  rw [insertAll_eq, reinsertBucket_append] at h
  cases h1 : reinsertBucket (insert hash fuel) t l1 with
  | error e => rw [h1] at h; cases h
  | ok t1 =>
    rw [h1] at h
    exact ⟨t1, by rw [insertAll_eq, h1], by rw [insertAll_eq]; exact h⟩

theorem insertAll_cons (fuel : Nat) (p : K × V) (l : List (K × V)) (t t2 : HashTable K V)
    (h : insertAll hash fuel t (p :: l) = .ok t2) :
    ∃ t1, insert hash fuel t p.1 p.2 = .ok t1 ∧ insertAll hash fuel t1 l = .ok t2 := by
  unfold insertAll at h
  cases h1 : insert hash fuel t p.1 p.2 with
  | error e => rw [h1] at h; cases h
  | ok t1 =>
    rw [h1] at h
    exact ⟨t1, rfl, h⟩

theorem nextPrime_100 : nextPrime 100 = 101 := by decide

theorem nextPrime_202 : nextPrime (101 * 2) = 211 := by decide

/-- One hundred inserts into a table requested with capacity 100: the first 75
leave the capacity at 101, the 76th rehashes to 211, the other 24 do not
rehash. -/
theorem hundred_inserts (m : CollisionMethod) (fuel : Nat) (l1 l2 : List (K × V))
    (p : K × V) (t : HashTable K V) (h1 : l1.length = 75) (h2 : l2.length = 24)
    (h : insertAll hash fuel (HashTable.new 100 m) (l1 ++ p :: l2) = .ok t) :
    ∃ ta tb, insertAll hash fuel (HashTable.new 100 m) l1 = .ok ta ∧
      ta.tableSize = 101 ∧ ta.cout = [] ∧
      insert hash fuel ta p.1 p.2 = .ok tb ∧
      tb.tableSize = 211 ∧ tb.cout = [Output.rehashing 101, Output.rehashComplete 211] ∧
      insertAll hash fuel tb l2 = .ok t ∧
      t.tableSize = 211 ∧ t.cout = [Output.rehashing 101, Output.rehashComplete 211] := by
  obtain ⟨ta, ha, hrest⟩ := insertAll_append hash fuel l1 (p :: l2) _ t h
  obtain ⟨tb, hb, hc⟩ := insertAll_cons hash fuel p l2 ta t hrest
  obtain ⟨n1, n2, n3, n4⟩ := new_fields (K := K) (V := V) 100 m
  rw [nextPrime_100] at n1
  obtain ⟨a1, a2, a3, a4, a5⟩ :=
    (insertAll_small hash fuel l1 (HashTable.new 100 m) (new_balanced 100 m)
      (by rw [new_entries, n2]; rfl) (by rw [n1, n2, h1]; omega)).2 ta ha
  rw [n1] at a1
  rw [n4] at a2
  rw [n2, h1] at a3
  obtain ⟨b1, _, b3, b4⟩ := (insert_balanced hash ta p.1 p.2 a4).2 fuel tb hb
  rw [a1, a3, if_pos (by decide), a2, nextPrime_202, a5, a3] at b4
  obtain ⟨b5, b6, b7⟩ := b4
  rw [List.nil_append] at b7
  obtain ⟨c1, c2, _, _, _⟩ :=
    (insertAll_small hash fuel l2 tb b1 (by rw [b3, a5, a3, b6])
      (by rw [b5, b6, h2]; omega)).2 t hc
  exact ⟨ta, tb, ha, a1, a2, hb, b5, b7, hc, by rw [c1, b5], by rw [c2, b7]⟩

/-- C7. On every reachable table, for every strategy: a call of `insert` always
returns or raises (one level of the mutual recursion with `rehash` is enough);
when it returns and the entry count after adding the entry exceeds 0.75 times
the capacity `c`, exactly one rehash has run (two lines of output: the rehash
of the call and no nested one) and the new capacity is the smallest prime
`≥ 2 * c`; otherwise capacity and output are unchanged.  Neither `insert` nor
`remove` ever lowers the capacity.  And for a table requested with capacity
100: the first 75 inserts leave the capacity at 101 without output, the 76th
rehashes to 211, and after 100 inserts the capacity is 211 with that one
rehash. -/
theorem growth_trigger :
    (∀ (t : HashTable K V), Reachable hash t → ∀ (key : K) (value : V),
      (∀ fuel, insert hash (fuel + 1) t key value ≠ .error .outOfFuel) ∧
      (∀ fuel t1, insert hash fuel t key value = .ok t1 →
        t.tableSize ≤ t1.tableSize ∧
        if 4 * (t.currentSize + 1) > 3 * t.tableSize then
          IsLeastPrimeGE (2 * t.tableSize) t1.tableSize ∧
          t1.cout = t.cout ++
            [Output.rehashing t.tableSize, Output.rehashComplete t1.tableSize]
        else t1.tableSize = t.tableSize ∧ t1.cout = t.cout) ∧
      (∀ b t1, remove hash t key = .ok (b, t1) →
        t1.tableSize = t.tableSize ∧ t1.cout = t.cout)) ∧
    (∀ (m : CollisionMethod) (fuel : Nat) (l1 l2 : List (K × V)) (p : K × V)
      (t : HashTable K V), l1.length = 75 → l2.length = 24 →
      insertAll hash fuel (HashTable.new 100 m) (l1 ++ p :: l2) = .ok t →
      ∃ ta tb, insertAll hash fuel (HashTable.new 100 m) l1 = .ok ta ∧
        ta.tableSize = 101 ∧ ta.cout = [] ∧
        insert hash fuel ta p.1 p.2 = .ok tb ∧
        tb.tableSize = 211 ∧
        tb.cout = [Output.rehashing 101, Output.rehashComplete 211] ∧
        insertAll hash fuel tb l2 = .ok t ∧
        t.tableSize = 211 ∧ t.cout = [Output.rehashing 101, Output.rehashComplete 211]) := by
  refine ⟨fun t hr key value => ?_, fun m fuel l1 l2 p t h1 h2 h =>
    hundred_inserts hash m fuel l1 l2 p t h1 h2 h⟩
  have hb := reachable_balanced hash t hr
  obtain ⟨i1, i2⟩ := insert_balanced hash t key value hb
  refine ⟨i1, fun fuel t1 h => ?_, fun b t1 h => ?_⟩
  · obtain ⟨_, _, _, h4⟩ := i2 fuel t1 h
    by_cases hs : 4 * (t.currentSize + 1) > 3 * t.tableSize
    · rw [if_pos hs] at h4
      rw [if_pos hs]
      obtain ⟨h5, _, h7⟩ := h4
      have hge := le_nextPrime (t.tableSize * 2)
      refine ⟨by omega, ?_, by rw [h7, h5]⟩
      rw [h5, Nat.mul_comm]
      exact nextPrime_spec _
    · rw [if_neg hs] at h4
      rw [if_neg hs]
      exact ⟨by omega, h4.1, h4.2.2⟩
  · obtain ⟨h1, _, h3, _⟩ := remove_fields hash t t1 key b h
    exact ⟨h1, h3⟩

/-- The table after 75 inserts is a reachable one. -/
theorem tableAfter75_reachable : Reachable (fun k : Nat => k) tableAfter75 :=
  ⟨100, LINEAR_PROBING, 1, insertOps (workload 0 75), by decide!⟩

/-- The 76th insert into the table requested with capacity 100 rehashes from 101 to 211,
and the capacity is still 211 after 100 inserts. -/
theorem growth_trigger_witness :
    Reachable (fun k : Nat => k) tableAfter75 ∧
    insert (fun k : Nat => k) 1 tableAfter75 75 75 = .ok tableAfter76 ∧
    tableAfter75.tableSize = 101 ∧ tableAfter75.currentSize = 75 ∧
    tableAfter76.tableSize = 211 ∧
    IsLeastPrimeGE (2 * tableAfter75.tableSize) tableAfter76.tableSize ∧
    tableAfter76.cout = tableAfter75.cout ++
      [Output.rehashing tableAfter75.tableSize, Output.rehashComplete tableAfter76.tableSize] ∧
    tableAfter100.tableSize = 211 ∧
    tableAfter100.cout = [Output.rehashing 101, Output.rehashComplete 211] := by
  have hr := tableAfter75_reachable
  have hi : insert (fun k : Nat => k) 1 tableAfter75 75 75 = .ok tableAfter76 := by decide!
  have h := ((growth_trigger (fun k : Nat => k)).1 tableAfter75 hr 75 75).2.1 1 tableAfter76 hi
  have hlarge : 4 * (tableAfter75.currentSize + 1) > 3 * tableAfter75.tableSize := by decide!
  rw [if_pos hlarge] at h
  obtain ⟨ta, tb, _, _, _, _, _, _, _, h8, h9⟩ :=
    (growth_trigger (fun k : Nat => k)).2 LINEAR_PROBING 1 (workload 0 75) (workload 76 24)
      (75, 75) tableAfter100 (by decide) (by decide) (by decide!)
  exact ⟨hr, hi, by decide!, by decide!, by decide!, h.2.1, h.2.2, h8, h9⟩

/-- After two inserts, the second of which rehashes, and a remove, the capacity is the prime 5. -/
theorem capacity_always_prime_witness :
    Reachable (fun k : Nat => k) tableAfterRehash ∧ tableAfterRehash.tableSize = 5 ∧
    Nat.Prime tableAfterRehash.tableSize :=
  have hr : Reachable (fun k : Nat => k) tableAfterRehash :=
    ⟨2, LINEAR_PROBING, 1, [Op.insert 0 0, Op.insert 1 1, Op.remove 0], by decide!⟩
  ⟨hr, by decide!, capacity_always_prime (fun k : Nat => k) tableAfterRehash hr⟩

/-! ## Tables without duplicate keys -/

theorem filterMap_key_inj {α β : Type} (g : Nat → Option α) (f : α → β) :
    ∀ l : List Nat, ((l.filterMap g).map f).Nodup → l.Nodup →
      ∀ s q a b, s ∈ l → q ∈ l → g s = some a → g q = some b → f a = f b → s = q := by
  intro l
  induction l with
  | nil => intro _ _ s q a b hs; cases hs
  | cons x xs ih =>
    intro hnd hl s q a b hs hq hgs hgq hf
    rw [List.nodup_cons] at hl
    have hmem : ∀ r c, r ∈ xs → g r = some c → f c ∈ (xs.filterMap g).map f :=
      fun r c hr hc => List.mem_map.mpr ⟨c, List.mem_filterMap.mpr ⟨r, hr, hc⟩, rfl⟩
    cases hgx : g x with
    | none =>
      rw [List.filterMap_cons_none hgx] at hnd
      have hs1 : s ∈ xs := by
        rcases List.mem_cons.mp hs with h | h
        · rw [h, hgx] at hgs; cases hgs
        · exact h
      have hq1 : q ∈ xs := by
        rcases List.mem_cons.mp hq with h | h
        · rw [h, hgx] at hgq; cases hgq
        · exact h
      exact ih hnd hl.2 s q a b hs1 hq1 hgs hgq hf
    | some c =>
      rw [List.filterMap_cons_some hgx, List.map_cons, List.nodup_cons] at hnd
      rcases List.mem_cons.mp hs with h1 | h1 <;> rcases List.mem_cons.mp hq with h2 | h2
      · rw [h1, h2]
      · exfalso
        rw [h1, hgx] at hgs
        cases hgs
        exact hnd.1 (hf ▸ hmem q b h2 hgq)
      · exfalso
        rw [h2, hgx] at hgq
        cases hgq
        exact hnd.1 (hf ▸ hmem s a h1 hgs)
      · exact ih hnd.2 hl.2 s q a b h1 h2 hgs hgq hf

/-- In a table without duplicate keys two occupied slots hold different keys. -/
theorem slot_unique (t : HashTable K V) (hm : t.collisionMethod ≠ CHAINING)
    (hd : DistinctKeys t) (s q : Nat) (hs : s < t.tableSize) (hq : q < t.tableSize)
    (hos : t.isOccupied.getD s false = true) (hoq : t.isOccupied.getD q false = true)
    (hk : (t.probedTable.getD s default).1 = (t.probedTable.getD q default).1) : s = q := by
  unfold DistinctKeys entries at hd
  rw [if_neg hm] at hd
  exact filterMap_key_inj _ Prod.fst (List.range t.tableSize) hd (List.nodup_range _) s q
    (t.probedTable.getD s default) (t.probedTable.getD q default)
    (List.mem_range.mpr hs) (List.mem_range.mpr hq) (by rw [hos]; rfl) (by rw [hoq]; rfl) hk

theorem mem_entries_probing (t : HashTable K V) (hm : t.collisionMethod ≠ CHAINING)
    (pair : K × V) :
    pair ∈ entries t ↔
      ∃ s, s < t.tableSize ∧ t.isOccupied.getD s false = true ∧
        t.probedTable.getD s default = pair := by
  unfold entries
  rw [if_neg hm, List.mem_filterMap]
  constructor
  · rintro ⟨s, hs, h⟩
    by_cases ho : t.isOccupied.getD s false = true
    · rw [if_pos ho] at h
      cases h
      exact ⟨s, List.mem_range.mp hs, ho, rfl⟩
    · rw [if_neg ho] at h
      cases h
  · rintro ⟨s, hs, ho, h⟩
    exact ⟨s, List.mem_range.mpr hs, by rw [if_pos ho, h]⟩

theorem occupied_lt (l : List Bool) (s : Nat) (h : l.getD s false = true) : s < l.length := by
  by_contra hlt
  have : l.getD s false = false := by
    simp [List.getD_eq_getElem?_getD, List.getElem?_eq_none (Nat.le_of_not_lt hlt)]
  rw [this] at h
  cases h

theorem occupied_set_true (l : List Bool) (p s : Nat) (h : l.getD s false = true) :
    (l.set p true).getD s false = true := by
  by_cases hsp : s = p
  · subst hsp
    exact getD_set_self l s true false (occupied_lt l s h)
  · rw [getD_set_ne l p s true false hsp]
    exact h

/-! ## Fresh tables are sound -/

theorem homed_of_empty (t : HashTable K V)
    (hc : t.collisionMethod = CHAINING → ∃ n, t.chainedTable = List.replicate n [])
    (ho : t.collisionMethod ≠ CHAINING → ∃ n, t.isOccupied = List.replicate n false) :
    Homed hash t := by
  refine ⟨fun hm b pair hmem => ?_, fun hm s hs => ?_⟩
  · obtain ⟨n, hn⟩ := hc hm
    rw [hn, getD_replicate] at hmem
    cases hmem
  · obtain ⟨n, hn⟩ := ho hm
    rw [hn, getD_replicate] at hs
    cases hs

theorem new_sound (size : Nat) (m : CollisionMethod) :
    Sound hash (HashTable.new size m : HashTable K V) := by
  refine ⟨new_wellFormed size m, ?_, ?_⟩
  · apply homed_of_empty
    · intro hm
      unfold HashTable.new at hm ⊢
      split
      · exact ⟨_, rfl⟩
      · rename_i h; rw [if_neg h] at hm; exact absurd hm h
    · intro hm
      unfold HashTable.new at hm ⊢
      split
      · rename_i h; rw [if_pos h] at hm; exact absurd h hm
      · exact ⟨_, rfl⟩
  · unfold DistinctKeys
    rw [new_entries]
    exact List.nodup_nil

theorem rehashStart_sound (t : HashTable K V) : Sound hash (rehashStart t) := by
  refine ⟨rehashStart_wellFormed t, ?_, ?_⟩
  · apply homed_of_empty
    · intro hm
      unfold rehashStart at hm ⊢
      split
      · exact ⟨_, rfl⟩
      · rename_i h; rw [if_neg h] at hm; exact absurd hm h
    · intro hm
      unfold rehashStart at hm ⊢
      split
      · rename_i h; rw [if_pos h] at hm; exact absurd h hm
      · exact ⟨_, rfl⟩
  · unfold DistinctKeys
    rw [rehashStart_entries]
    exact List.nodup_nil

/-! ## `insertEntry` keeps a table sound -/

theorem insertEntry_sound (t t1 : HashTable K V) (key : K) (value : V)
    (hs : Sound hash t) (hnew : key ∉ (entries t).map Prod.fst)
    (h : insertEntry hash t key value = .ok t1) : Sound hash t1 := by
  obtain ⟨hwf, hhome, hdist⟩ := hs
  have hperm := insertEntry_perm hash t t1 key value hwf h
  have hwf1 := insertEntry_wellFormed hash t t1 key value hwf h
  refine ⟨hwf1, ?_, ?_⟩
  · obtain ⟨hp, hc, ho⟩ := hwf
    by_cases hm : t.collisionMethod = CHAINING
    · rw [insertEntry_chaining hash t key value hm hp.pos.ne'] at h
      cases h
      refine ⟨fun _ b pair hmem => ?_, fun h2 => absurd hm h2⟩
      simp only at hmem ⊢
      by_cases hb : b = hash key % t.tableSize
      · subst hb
        rw [getD_set_self _ _ _ _ (by rw [hc hm]; exact Nat.mod_lt _ hp.pos)] at hmem
        rcases List.mem_append.mp hmem with h1 | h1
        · exact hhome.1 hm _ pair h1
        · rw [List.mem_singleton] at h1
          rw [h1]
      · rw [getD_set_ne _ _ _ _ _ hb] at hmem
        exact hhome.1 hm b pair hmem
    · obtain ⟨i, p, hl, hpr, rfl⟩ := insertEntry_probing hash t t1 key value hm h
      obtain ⟨_, ⟨p1, hp1, hfree⟩, hbefore⟩ := insertLoop_ok hash t _ key _ _ _ hl
      rw [hpr] at hp1
      cases hp1
      have hplt : p < t.tableSize := probe_result_lt hash t _ _ _ key hm hpr
      refine ⟨fun h2 => absurd h2 hm, fun _ s hs => ?_⟩
      simp only at hs ⊢
      by_cases hsp : s = p
      · subst hsp
        rw [getD_set_self _ _ _ _ (by rw [(ho hm).1]; exact hplt)]
        refine ⟨i, ?_, fun j hj => ?_⟩
        · exact hpr
        · obtain ⟨q, hq1, hq2⟩ := hbefore j (Nat.zero_le _) hj
          exact ⟨q, hq1, occupied_set_true _ _ _ hq2⟩
      · rw [getD_set_ne _ _ _ _ _ hsp] at hs ⊢
        obtain ⟨i0, h1, h2⟩ := hhome.2 hm s hs
        refine ⟨i0, ?_, fun j hj => ?_⟩
        · exact h1
        · obtain ⟨q, hq1, hq2⟩ := h2 j hj
          exact ⟨q, hq1, occupied_set_true _ _ _ hq2⟩
  · unfold DistinctKeys at hdist ⊢
    rw [(hperm.map Prod.fst).nodup_iff, List.map_cons, List.nodup_cons]
    exact ⟨hnew, hdist⟩

/-! ## `retrieve` finds what a sound table stores -/

theorem retrieveLoop_finds (t : HashTable K V) (index : Nat) (key : K) (value : V)
    (i s : Nat) (hpr : probe hash t index i key = .ok s)
    (hocc : t.isOccupied.getD s false = true)
    (hval : t.probedTable.getD s default = (key, value))
    (hbefore : ∀ j, j < i →
      ∃ q, probe hash t index j key = .ok q ∧ t.isOccupied.getD q false = true)
    (huniq : ∀ j q, probe hash t index j key = .ok q → t.isOccupied.getD q false = true →
      (t.probedTable.getD q default).1 = key → q = s) :
    ∀ fuel j0, j0 ≤ i → i < j0 + fuel →
      retrieveLoop hash t index key fuel j0 = .ok (some value) := by
  intro fuel
  induction fuel with
  | zero => intro j0 h1 h2; omega
  | succ fuel ih =>
    intro j0 h1 h2
    unfold retrieveLoop
    by_cases hj : j0 = i
    · subst hj
      rw [hpr]
      simp only [hocc, hval, if_true]
    · obtain ⟨q, hq1, hq2⟩ := hbefore j0 (by omega)
      rw [hq1]
      simp only [hq2, if_true]
      by_cases hk : (t.probedTable.getD q default).1 = key
      · have := huniq j0 q hq1 hq2 hk
        subst this
        rw [if_pos hk, hval]
      · rw [if_neg hk]
        exact ih (j0 + 1) (by omega) (by omega)

/-- In a sound table `retrieve` returns the value of every stored pair. -/
theorem retrieve_of_mem (t : HashTable K V) (key : K) (value : V)
    (hs : Sound hash t) (hmem : (key, value) ∈ entries t) :
    retrieve hash t key = .ok (some value) := by
  obtain ⟨⟨hp, hc, ho⟩, hhome, hdist⟩ := hs
  unfold retrieve
  rw [hashFunction_ok hash t key hp.pos.ne']
  simp only
  by_cases hm : t.collisionMethod = CHAINING
  · rw [if_pos hm]
    have hmem1 := hmem
    unfold entries at hmem1
    rw [if_pos hm, List.mem_flatten] at hmem1
    obtain ⟨bucket, hb1, hb2⟩ := hmem1
    obtain ⟨b, hb, hget⟩ := List.getElem_of_mem hb1
    have hgetD : t.chainedTable.getD b [] = bucket := by
      simp [List.getD_eq_getElem?_getD, List.getElem?_eq_getElem hb, hget]
    have hidx : hash key % t.tableSize = b := by
      have := hhome.1 hm b (key, value) (by rw [hgetD]; exact hb2)
      exact this
    have hnd : (bucket.map Prod.fst).Nodup := by
      unfold DistinctKeys entries at hdist
      rw [if_pos hm] at hdist
      exact hdist.sublist ((List.sublist_flatten_of_mem hb1).map Prod.fst)
    rw [hidx, hgetD, retrieveBucket_of_mem key value bucket hnd hb2]
  · rw [if_neg hm]
    obtain ⟨s, hslt, hocc, hval⟩ := (mem_entries_probing t hm (key, value)).mp hmem
    obtain ⟨i, hi1, hi2⟩ := hhome.2 hm s hocc
    rw [hval] at hi1 hi2
    simp only at hi1 hi2
    have hilt : i < t.tableSize := probe_attempt_lt hash t _ _ _ key hi1
    apply retrieveLoop_finds hash t _ key value i s hi1 hocc hval hi2 _ _ 0 (Nat.zero_le _)
      (by omega)
    intro j q hq1 hq2 hq3
    have hqlt : q < t.tableSize := probe_result_lt hash t _ _ _ key hm hq1
    exact slot_unique t hm hdist q s hqlt hslt hq2 hocc (by rw [hq3, hval])

/-! ## `insert` keeps a table sound -/

/-- What the proofs below need from the function that `rehash` calls. -/
theorem reinsert_sound (ins : HashTable K V → K → V → Except Error (HashTable K V))
    (hins : ∀ t key value t1, Sound hash t → key ∉ (entries t).map Prod.fst →
      ins t key value = .ok t1 → Sound hash t1 ∧ (entries t1).Perm ((key, value) :: entries t)) :
    ∀ (l : List (K × V)) (t0 t2 : HashTable K V), Sound hash t0 →
      (l.map Prod.fst).Nodup → (∀ k, k ∈ l.map Prod.fst → k ∉ (entries t0).map Prod.fst) →
      reinsertBucket ins t0 l = .ok t2 →
      Sound hash t2 ∧ (entries t2).Perm (l ++ entries t0) := by
  intro l
  induction l with
  | nil =>
    intro t0 t2 hs _ _ h
    cases h
    exact ⟨hs, List.Perm.refl _⟩
  | cons p rest ih =>
    intro t0 t2 hs hnd hdisj h
    rw [List.map_cons, List.nodup_cons] at hnd
    unfold reinsertBucket at h
    cases h1 : ins t0 p.1 p.2 with
    | error e => rw [h1] at h; cases h
    | ok t1 =>
      rw [h1] at h
      simp only at h
      obtain ⟨hs1, hperm1⟩ := hins t0 p.1 p.2 t1 hs
        (hdisj p.1 (by rw [List.map_cons]; exact List.mem_cons_self _ _)) h1
      have hdisj1 : ∀ k, k ∈ rest.map Prod.fst → k ∉ (entries t1).map Prod.fst := by
        intro k hk hk1
        rw [(hperm1.map Prod.fst).mem_iff, List.map_cons, List.mem_cons] at hk1
        rcases hk1 with h2 | h2
        · exact hnd.1 (h2 ▸ hk)
        · exact hdisj k (by rw [List.map_cons]; exact List.mem_cons_of_mem _ hk) h2
      obtain ⟨hs2, hperm2⟩ := ih t1 t2 hs1 hnd.2 hdisj1 h
      refine ⟨hs2, hperm2.trans ?_⟩
      have : (rest ++ entries t1).Perm (rest ++ (p.1, p.2) :: entries t0) :=
        List.Perm.append_left rest hperm1
      exact this.trans List.perm_middle

theorem sound_cout (t : HashTable K V) (out : List Output) (h : Sound hash t) :
    Sound hash { t with cout := out } := h

/-- A call of `insert` with a key that is not stored keeps the table sound and
adds exactly the new pair, whether or not it rehashes. -/
theorem insert_sound :
    ∀ (fuel : Nat) (t : HashTable K V) (key : K) (value : V) (t1 : HashTable K V),
      Sound hash t → key ∉ (entries t).map Prod.fst →
      insert hash fuel t key value = .ok t1 →
      Sound hash t1 ∧ (entries t1).Perm ((key, value) :: entries t) := by
  intro fuel
  induction fuel with
  | zero =>
    intro t key value t1 hs hnew h
    cases he : insertEntry hash t key value with
    | error e => rw [insert_of_error hash 0 t key value e he] at h; cases h
    | ok t0 =>
      by_cases hl : 4 * t0.currentSize > 3 * t0.tableSize
      · rw [insert_zero_of_large hash t t0 key value he hl] at h
        cases h
      · rw [insert_of_small hash 0 t t0 key value he hl] at h
        cases h
        exact ⟨insertEntry_sound hash t _ key value hs hnew he,
          insertEntry_perm hash t _ key value hs.1 he⟩
  | succ fuel ih =>
    intro t key value t1 hs hnew h
    cases he : insertEntry hash t key value with
    | error e => rw [insert_of_error hash _ t key value e he] at h; cases h
    | ok t0 =>
      have hs0 := insertEntry_sound hash t t0 key value hs hnew he
      have hperm0 := insertEntry_perm hash t t0 key value hs.1 he
      by_cases hl : 4 * t0.currentSize > 3 * t0.tableSize
      · rw [insert_of_large hash fuel t t0 key value he hl, rehash_eq] at h
        cases hr : reinsertBucket (insert hash fuel) (rehashStart t0) (entries t0) with
        | error e => rw [hr] at h; cases h
        | ok t2 =>
          rw [hr] at h
          cases h
          obtain ⟨hs2, hperm2⟩ := reinsert_sound hash (insert hash fuel) ih (entries t0)
            (rehashStart t0) t2 (rehashStart_sound hash t0) hs0.2.2
            (by intro k _ hk; rw [rehashStart_entries] at hk; cases hk) hr
          rw [rehashStart_entries, List.append_nil] at hperm2
          exact ⟨sound_cout hash t2 _ hs2, hperm2.trans hperm0⟩
      · rw [insert_of_small hash _ t t0 key value he hl] at h
        cases h
        exact ⟨hs0, hperm0⟩

/-- Retrieval after a run of inserts with pairwise distinct keys into a fresh
table. -/
theorem retrieve_after_insertAll (size : Nat) (m : CollisionMethod) (fuel : Nat)
    (kvs : List (K × V)) (t : HashTable K V) (hkeys : (kvs.map Prod.fst).Nodup)
    (hall : insertAll hash fuel (HashTable.new size m) kvs = .ok t)
    (key : K) (value : V) (hmem : (key, value) ∈ kvs) :
    retrieve hash t key = .ok (some value) := by
  rw [insertAll_eq] at hall
  obtain ⟨hs, hperm⟩ := reinsert_sound hash (insert hash fuel) (insert_sound hash fuel) kvs
    (HashTable.new size m) t (new_sound hash size m) hkeys
    (by intro k _ hk; rw [new_entries] at hk; cases hk) hall
  apply retrieve_of_mem hash t key value hs
  rw [hperm.mem_iff]
  exact List.mem_append_left _ hmem

/-- C1. For every strategy, requested capacity and hash function: when the
calls `insert(k, v)` for the pairs of a list with pairwise distinct keys, made
in order on a freshly constructed table, all return (none raises), with any
number of rehashes on the way, then `retrieve(k)` returns `true` with the
value `v` for every pair `(k, v)` of the list. -/
theorem round_trip (size : Nat) (m : CollisionMethod) (fuel : Nat) (kvs : List (K × V))
    (t : HashTable K V) (hkeys : (kvs.map Prod.fst).Nodup)
    (hall : insertAll hash fuel (HashTable.new size m) kvs = .ok t)
    (key : K) (value : V) (hmem : (key, value) ∈ kvs) :
    retrieve hash t key = .ok (some value) :=
  retrieve_after_insertAll hash size m fuel kvs t hkeys hall key value hmem

/-- Three keys with the same hash value, with a rehash after the second: the third is
retrieved with its value. -/
theorem round_trip_witness :
    (([(0, 10), (5, 11), (10, 12)] : List (Nat × Nat)).map Prod.fst).Nodup ∧
    insertAll (fun k : Nat => k) 1 (HashTable.new 2 LINEAR_PROBING)
      [(0, 10), (5, 11), (10, 12)] = .ok tableOfThree ∧
    tableOfThree.tableSize = 5 ∧
    retrieve (fun k : Nat => k) tableOfThree 10 = .ok (some 12) :=
  ⟨by decide, by decide!, by decide!,
    round_trip (fun k : Nat => k) 2 LINEAR_PROBING 1 [(0, 10), (5, 11), (10, 12)] tableOfThree
      (by decide) (by decide!) 10 12 (by decide)⟩

/-! ## The probe sequence -/

theorem probe_eq (t : HashTable K V) (index i : Nat) (key : K)
    (hm : t.collisionMethod ≠ CHAINING) (hts : 2 ≤ t.tableSize) (hi : i < t.tableSize) :
    probe hash t index i key = .ok ((index + probeOffset hash t key i) % t.tableSize) := by
  unfold probe probeOffset
  have h1 : ¬ i ≥ t.tableSize := by omega
  have h2 : ¬ t.tableSize - 1 = 0 := by omega
  rw [if_neg h1]
  by_cases hl : t.collisionMethod = LINEAR_PROBING
  · rw [if_pos hl, if_pos hl]
  · rw [if_neg hl, if_neg hl]
    by_cases hq : t.collisionMethod = QUADRATIC_PROBING
    · rw [if_pos hq, if_pos hq]
    · rw [if_neg hq, if_neg hq]
      have hd : t.collisionMethod = DOUBLE_HASHING := by
        cases hcm : t.collisionMethod <;> simp_all
      rw [if_pos hd, if_neg h2]
      simp only [Nat.add_eq_zero, one_ne_zero, false_and, if_false]

theorem offset_inj_double (c step i j : Nat) (hc : Nat.Prime c) (h1 : 1 ≤ step)
    (h2 : step < c) (hi : i < c) (hj : j < c) (b : Nat)
    (h : (b + step * i) % c = (b + step * j) % c) : i = j := by
  have hcop : Nat.gcd c step = 1 :=
    (Nat.Prime.coprime_iff_not_dvd hc).mpr (Nat.not_dvd_of_pos_of_lt (by omega) h2)
  have h3 : Nat.ModEq c (step * i) (step * j) := Nat.ModEq.add_left_cancel' b h
  have h4 : Nat.ModEq c i j := Nat.ModEq.cancel_left_of_coprime hcop h3
  exact Nat.ModEq.eq_of_lt_of_lt h4 hi hj

theorem offset_inj_quadratic_le (c i j : Nat) (hc : Nat.Prime c) (hij : i ≤ j)
    (hj : 2 * j + 1 ≤ c) (b : Nat) (h : (b + i * i) % c = (b + j * j) % c) : i = j := by
  have h3 : Nat.ModEq c (i * i) (j * j) := Nat.ModEq.add_left_cancel' b h
  have h4 : c ∣ j * j - i * i := (Nat.modEq_iff_dvd' (Nat.mul_le_mul hij hij)).mp h3
  rw [Nat.mul_self_sub_mul_self_eq] at h4
  rcases (Nat.Prime.dvd_mul hc).mp h4 with h5 | h5
  · have := Nat.eq_zero_of_dvd_of_lt h5 (by omega)
    omega
  · have := Nat.eq_zero_of_dvd_of_lt h5 (by omega)
    omega

theorem offset_inj_quadratic (c i j : Nat) (hc : Nat.Prime c)
    (hi : 2 * i + 1 ≤ c) (hj : 2 * j + 1 ≤ c) (b : Nat)
    (h : (b + i * i) % c = (b + j * j) % c) : i = j := by
  rcases Nat.le_total i j with hij | hij
  · exact offset_inj_quadratic_le c i j hc hij hj b h
  · exact (offset_inj_quadratic_le c j i hc hij hi b h.symm).symm

/-! ## A free slot on the probe sequence -/

theorem length_filterMap_ite {α : Type} (o : Nat → Bool) (g : Nat → α) :
    ∀ l : List Nat,
      (l.filterMap fun i => if o i then some (g i) else none).length = (l.filter o).length := by
  intro l
  induction l with
  | nil => rfl
  | cons x xs ih =>
    by_cases hx : o x = true
    · rw [List.filterMap_cons_some (by rw [if_pos hx]), List.filter_cons_of_pos hx,
        List.length_cons, List.length_cons, ih]
    · rw [List.filterMap_cons_none (by rw [if_neg hx]), List.filter_cons_of_neg hx, ih]

/-- Pigeonhole: `n` attempts that reach pairwise different slots of a table
with fewer than `n` stored pairs reach an unoccupied slot. -/
theorem exists_free_attempt (t : HashTable K V) (hm : t.collisionMethod ≠ CHAINING)
    (f : Nat → Nat) (n : Nat) (hlt : ∀ i, i < n → f i < t.tableSize)
    (hinj : ∀ i j, i < n → j < n → f i = f j → i = j)
    (hcount : (entries t).length < n) :
    ∃ i, i < n ∧ t.isOccupied.getD (f i) false = false := by
  by_contra hno
  have hall : ∀ i, i < n → t.isOccupied.getD (f i) false = true := by
    intro i hi
    cases ho : t.isOccupied.getD (f i) false with
    | true => rfl
    | false => exact absurd ⟨i, hi, ho⟩ hno
  have hnd : ((List.range n).map f).Nodup := by
    apply List.Nodup.map_on _ (List.nodup_range n)
    intro i hi j hj hij
    exact hinj i j (List.mem_range.mp hi) (List.mem_range.mp hj) hij
  have hsub : (List.range n).map f ⊆
      (List.range t.tableSize).filter (fun s => t.isOccupied.getD s false) := by
    intro s hs
    obtain ⟨i, hi, rfl⟩ := List.mem_map.mp hs
    have hi1 := List.mem_range.mp hi
    exact List.mem_filter.mpr ⟨List.mem_range.mpr (hlt i hi1), hall i hi1⟩
  have hle := (List.subperm_of_subset hnd hsub).length_le
  rw [List.length_map, List.length_range] at hle
  have hent : (entries t).length =
      ((List.range t.tableSize).filter (fun s => t.isOccupied.getD s false)).length := by
    unfold entries
    rw [if_neg hm]
    exact length_filterMap_ite (fun s => t.isOccupied.getD s false)
      (fun s => t.probedTable.getD s default) _
  omega

/-- The number of attempts of a probe sequence that are known to reach pairwise
different slots: all of them under double hashing, the first half (rounded up)
under quadratic probing. -/
theorem exists_free_slot (t : HashTable K V) (key : K) (hwf : WellFormed t)
    (hcase : (t.collisionMethod = DOUBLE_HASHING ∧ (entries t).length < t.tableSize) ∨
      (t.collisionMethod = QUADRATIC_PROBING ∧ 2 * (entries t).length + 1 ≤ t.tableSize)) :
    ∃ i p, i < t.tableSize ∧
      probe hash t (hash key % t.tableSize) i key = .ok p ∧
      t.isOccupied.getD p false = false := by
  have hp := hwf.1
  have htwo := hp.two_le
  rcases hcase with ⟨hm, hcount⟩ | ⟨hm, hcount⟩
  · have hne : t.collisionMethod ≠ CHAINING := by rw [hm]; decide
    have hoff : ∀ i, probeOffset hash t key i = (1 + hash key % (t.tableSize - 1)) * i := by
      intro i
      unfold probeOffset
      rw [hm]
      rfl
    have hstep : 1 + hash key % (t.tableSize - 1) < t.tableSize := by
      have := Nat.mod_lt (hash key) (show 0 < t.tableSize - 1 by omega)
      omega
    obtain ⟨i, hi, hfree⟩ := exists_free_attempt t hne
      (fun i => (hash key % t.tableSize + probeOffset hash t key i) % t.tableSize) t.tableSize
      (fun i _ => Nat.mod_lt _ hp.pos)
      (fun i j hi hj h => by
        simp only [hoff] at h
        exact offset_inj_double t.tableSize _ i j hp (by omega) hstep hi hj _ h)
      hcount
    exact ⟨i, _, hi, probe_eq hash t _ i key hne htwo hi, hfree⟩
  · have hne : t.collisionMethod ≠ CHAINING := by rw [hm]; decide
    have hoff : ∀ i, probeOffset hash t key i = i * i := by
      intro i
      unfold probeOffset
      rw [hm]
      rfl
    obtain ⟨i, hi, hfree⟩ := exists_free_attempt t hne
      (fun i => (hash key % t.tableSize + probeOffset hash t key i) % t.tableSize)
      ((entries t).length + 1)
      (fun i _ => Nat.mod_lt _ hp.pos)
      (fun i j hi hj h => by
        simp only [hoff] at h
        exact offset_inj_quadratic t.tableSize i j hp (by omega) (by omega) _ h)
      (by omega)
    have hi1 : i < t.tableSize := by omega
    exact ⟨i, _, hi1, probe_eq hash t _ i key hne htwo hi1, hfree⟩

theorem insertEntry_ok_of_free (t : HashTable K V) (key : K) (value : V)
    (hwf : WellFormed t) (hm : t.collisionMethod ≠ CHAINING) (i p : Nat)
    (hi : i < t.tableSize)
    (hpr : probe hash t (hash key % t.tableSize) i key = .ok p)
    (hfree : t.isOccupied.getD p false = false) :
    ∃ t1, insertEntry hash t key value = .ok t1 := by
  have htwo := hwf.1.two_le
  obtain ⟨i1, hl⟩ := insertLoop_finds hash t (hash key % t.tableSize) key (t.tableSize + 1) 0 i p
    (Nat.zero_le _) (by omega)
    (fun j hj => ⟨_, probe_eq hash t _ j key hm htwo (by omega)⟩) hpr hfree
  obtain ⟨_, ⟨p1, hp1, _⟩, _⟩ := insertLoop_ok hash t _ key _ _ _ hl
  unfold insertEntry
  rw [hashFunction_ok hash t key (by omega)]
  simp only [hm, if_false, hl, hp1]
  exact ⟨_, rfl⟩

/-! ## Inserts that cannot fail -/

/-- Below the stated load, a run of inserts under double hashing or quadratic
probing returns normally. -/
theorem insertAll_ok (fuel : Nat) :
    ∀ (l : List (K × V)) (t0 : HashTable K V), Balanced t0 →
      (entries t0).length = t0.currentSize →
      ((t0.collisionMethod = DOUBLE_HASHING ∧
          4 * (t0.currentSize + l.length) ≤ 3 * t0.tableSize) ∨
        (t0.collisionMethod = QUADRATIC_PROBING ∧
          2 * (t0.currentSize + l.length) ≤ t0.tableSize + 1)) →
      ∃ t, insertAll hash fuel t0 l = .ok t := by
  intro l
  induction l with
  | nil => intro t0 _ _ _; exact ⟨t0, rfl⟩
  | cons p rest ih =>
    intro t0 hb hlen hcase
    obtain ⟨hwf, _, _⟩ := hb
    have htwo := hwf.1.two_le
    simp only [List.length_cons] at hcase
    have hne : t0.collisionMethod ≠ CHAINING := by
      rcases hcase with ⟨hm, _⟩ | ⟨hm, _⟩ <;> rw [hm] <;> decide
    obtain ⟨i, q, hi, hpr, hfree⟩ := exists_free_slot hash t0 p.1 hwf (by
      rcases hcase with ⟨hm, h⟩ | ⟨hm, h⟩
      · exact Or.inl ⟨hm, by omega⟩
      · exact Or.inr ⟨hm, by omega⟩)
    obtain ⟨t1, he⟩ := insertEntry_ok_of_free hash t0 p.1 p.2 hwf hne i q hi hpr hfree
    obtain ⟨h1, h2, _, h4⟩ := insertEntry_fields hash t0 t1 p.1 p.2 he
    have hwf1 := insertEntry_wellFormed hash t0 t1 p.1 p.2 hwf he
    have hperm := insertEntry_perm hash t0 t1 p.1 p.2 hwf he
    have hlen1 : (entries t1).length = t1.currentSize := by
      rw [hperm.length_eq, List.length_cons, hlen, h4]
    have hsmall : 4 * t1.currentSize ≤ 3 * t1.tableSize := by
      rw [h1, h4]
      rcases hcase with ⟨_, h⟩ | ⟨_, h⟩ <;> omega
    have hins : insert hash fuel t0 p.1 p.2 = .ok t1 :=
      insert_of_small hash fuel t0 t1 p.1 p.2 he (by omega)
    obtain ⟨t, ht⟩ := ih t1 ⟨hwf1, by omega, hsmall⟩ hlen1 (by
      rw [h1, h2, h4]
      rcases hcase with ⟨hm, h⟩ | ⟨hm, h⟩
      · exact Or.inl ⟨hm, by omega⟩
      · exact Or.inr ⟨hm, by omega⟩)
    refine ⟨t, ?_⟩
    unfold insertAll
    rw [hins]
    exact ht

/-- C8, counterexample. Quadratic probing, prime capacity 7, identity hash:
the five inserts of the distinct keys 0, 1, 2, 4, 7 (5 ≤ 0.75 * 7) do not all
return: the fifth one raises `Hash table full`. -/
theorem quadratic_probing_exhausted :
    Nat.Prime 7 ∧ 4 * 5 ≤ 3 * 7 ∧
    (([(0, 0), (1, 1), (2, 2), (4, 4), (7, 7)] : List (Nat × Nat)).map Prod.fst).Nodup ∧
    insertAll (fun k : Nat => k) 1 (HashTable.new 7 QUADRATIC_PROBING : HashTable Nat Nat)
      [(0, 0), (1, 1), (2, 2), (4, 4), (7, 7)] = .error .hashTableFull :=
  ⟨by norm_num, by decide, by decide, by decide!⟩

/-- C8, amended. For every prime capacity `c`, every hash function and every
list of pairs with pairwise distinct keys inserted into a fresh table of
capacity `c`: under double hashing with at most `0.75 * c` pairs, and under
quadratic probing with at most `(c + 1) / 2` pairs, no insert raises and
afterwards `retrieve` returns `true` with its value for every inserted key. -/
theorem no_lost_updates (c : Nat) (m : CollisionMethod) (fuel : Nat) (kvs : List (K × V))
    (hc : Nat.Prime c) (hkeys : (kvs.map Prod.fst).Nodup)
    (hcase : (m = DOUBLE_HASHING ∧ 4 * kvs.length ≤ 3 * c) ∨
      (m = QUADRATIC_PROBING ∧ 2 * kvs.length ≤ c + 1)) :
    ∃ t, insertAll hash fuel (HashTable.new c m) kvs = .ok t ∧
      ∀ key value, (key, value) ∈ kvs → retrieve hash t key = .ok (some value) := by
  obtain ⟨n1, n2, n3, _⟩ := new_fields (K := K) (V := V) c m
  rw [nextPrime_of_prime hc] at n1
  obtain ⟨t, ht⟩ := insertAll_ok hash fuel kvs (HashTable.new c m) (new_balanced c m)
    (by rw [new_entries, n2]; rfl) (by
      rw [n1, n2, n3]
      rcases hcase with ⟨hm, h⟩ | ⟨hm, h⟩
      · exact Or.inl ⟨hm, by omega⟩
      · exact Or.inr ⟨hm, by omega⟩)
  exact ⟨t, ht, fun key value hmem =>
    retrieve_after_insertAll hash c m fuel kvs t hkeys ht key value hmem⟩

/-- Five colliding keys in a double-hashing table of capacity 7 are all inserted and
retrieved. -/
theorem no_lost_updates_witness :
    Nat.Prime 7 ∧
    (([(0, 0), (7, 1), (14, 2), (21, 3), (28, 4)] : List (Nat × Nat)).map Prod.fst).Nodup ∧
    4 * ([(0, 0), (7, 1), (14, 2), (21, 3), (28, 4)] : List (Nat × Nat)).length ≤ 3 * 7 ∧
    insertAll (fun k : Nat => k) 1 (HashTable.new 7 DOUBLE_HASHING)
      [(0, 0), (7, 1), (14, 2), (21, 3), (28, 4)] = .ok tableOfFive ∧
    ∃ t, insertAll (fun k : Nat => k) 1 (HashTable.new 7 DOUBLE_HASHING)
        [(0, 0), (7, 1), (14, 2), (21, 3), (28, 4)] = .ok t ∧
      ∀ key value, (key, value) ∈ ([(0, 0), (7, 1), (14, 2), (21, 3), (28, 4)] : List (Nat × Nat)) →
        retrieve (fun k : Nat => k) t key = .ok (some value) :=
  ⟨by norm_num, by decide, by decide, by decide!,
    no_lost_updates (fun k : Nat => k) 7 DOUBLE_HASHING 1
      [(0, 0), (7, 1), (14, 2), (21, 3), (28, 4)] (by norm_num) (by decide)
      (Or.inl ⟨rfl, by decide⟩)⟩

/-! ## The probe formulas -/

theorem probeOffset_linear (t : HashTable K V) (key : K) (i : Nat)
    (hm : t.collisionMethod = LINEAR_PROBING) : probeOffset hash t key i = i := by
  unfold probeOffset
  rw [if_pos hm]

theorem probeOffset_quadratic (t : HashTable K V) (key : K) (i : Nat)
    (hm : t.collisionMethod = QUADRATIC_PROBING) : probeOffset hash t key i = i * i := by
  unfold probeOffset
  rw [hm]
  rfl

theorem probeOffset_double (t : HashTable K V) (key : K) (i : Nat)
    (hm : t.collisionMethod = DOUBLE_HASHING) :
    probeOffset hash t key i = (1 + hash key % (t.tableSize - 1)) * i := by
  unfold probeOffset
  rw [hm]
  rfl

/-- C13. For every capacity `c ≥ 2`, base index `b`, key with hash `h` and
attempt `i < c`: `probe` returns `(b + i) mod c` under linear probing,
`(b + i * i) mod c` under quadratic probing and `(b + i * step) mod c` with
`step = 1 + (h mod (c - 1))` under double hashing; in all three cases the result
is `< c`, and `hashFunction(key) = h mod c` is `< c` too. -/
theorem probe_formulas (t : HashTable K V) (index i : Nat) (key : K)
    (hc : 2 ≤ t.tableSize) (hi : i < t.tableSize) :
    (t.collisionMethod = LINEAR_PROBING →
      probe hash t index i key = .ok ((index + i) % t.tableSize)) ∧
    (t.collisionMethod = QUADRATIC_PROBING →
      probe hash t index i key = .ok ((index + i * i) % t.tableSize)) ∧
    (t.collisionMethod = DOUBLE_HASHING →
      probe hash t index i key =
        .ok ((index + i * (1 + hash key % (t.tableSize - 1))) % t.tableSize)) ∧
    (t.collisionMethod ≠ CHAINING →
      ∃ p, probe hash t index i key = .ok p ∧ p < t.tableSize) ∧
    hashFunction hash t key = .ok (hash key % t.tableSize) ∧
    hash key % t.tableSize < t.tableSize := by
  refine ⟨fun hm => ?_, fun hm => ?_, fun hm => ?_, fun hm => ?_, ?_, ?_⟩
  · rw [probe_eq hash t index i key (by rw [hm]; decide) hc hi, probeOffset_linear hash t key i hm]
  · rw [probe_eq hash t index i key (by rw [hm]; decide) hc hi,
      probeOffset_quadratic hash t key i hm]
  · rw [probe_eq hash t index i key (by rw [hm]; decide) hc hi,
      probeOffset_double hash t key i hm, Nat.mul_comm]
  · exact ⟨_, probe_eq hash t index i key hm hc hi, Nat.mod_lt _ (by omega)⟩
  · exact hashFunction_ok hash t key (by omega)
  · exact Nat.mod_lt _ (by omega)

/-- The double-hashing table of capacity 11, key 25, base index 3, attempt 4. -/
theorem probe_formulas_witness :
    (2 ≤ (HashTable.new 10 DOUBLE_HASHING : HashTable Nat Nat).tableSize ∧
      4 < (HashTable.new 10 DOUBLE_HASHING : HashTable Nat Nat).tableSize) ∧
    probe (fun k : Nat => k) (HashTable.new 10 DOUBLE_HASHING : HashTable Nat Nat) 3 4 25 =
      .ok 5 ∧
    hashFunction (fun k : Nat => k) (HashTable.new 10 DOUBLE_HASHING : HashTable Nat Nat) 25 =
      .ok 3 :=
  have h := probe_formulas (fun k : Nat => k)
    (HashTable.new 10 DOUBLE_HASHING : HashTable Nat Nat) 3 4 25 (by decide) (by decide)
  ⟨⟨by decide, by decide⟩, (h.2.2.1 (by decide)).trans (by decide), h.2.2.2.2.1.trans (by decide)⟩

/-! ## The step of double hashing -/

/-- C20. For the capacity `c` of every reachable table and every key hash `h`:
`c - 1 ≥ 1`, so the remainder in `probe` is not a remainder by zero, the step
`1 + (h mod (c - 1))` satisfies `1 ≤ step ≤ c - 1`, and `probe` uses that step
unchanged: the branch `if (step == 0)` is never taken. -/
theorem double_hash_step (t : HashTable K V) (hr : Reachable hash t) (key : K) :
    1 ≤ t.tableSize - 1 ∧
    1 ≤ 1 + hash key % (t.tableSize - 1) ∧
    1 + hash key % (t.tableSize - 1) ≤ t.tableSize - 1 ∧
    (if 1 + hash key % (t.tableSize - 1) = 0 then 1 else 1 + hash key % (t.tableSize - 1)) =
      1 + hash key % (t.tableSize - 1) ∧
    (∀ index i, probe hash t index i key ≠ .error .divisionByZero) ∧
    (t.collisionMethod = DOUBLE_HASHING → ∀ index i, i < t.tableSize →
      probe hash t index i key =
        .ok ((index + (1 + hash key % (t.tableSize - 1)) * i) % t.tableSize)) := by
  have htwo : 2 ≤ t.tableSize := (reachable_balanced hash t hr).1.1.two_le
  have hmod := Nat.mod_lt (hash key) (show 0 < t.tableSize - 1 by omega)
  refine ⟨by omega, by omega, by omega, ?_, fun index i => ?_, fun hm index i hi => ?_⟩
  · rw [if_neg (by omega)]
  · by_cases hi : t.tableSize ≤ i
    · rw [probe_full_of_ge hash t index i key hi]
      intro hc
      cases hc
    · obtain ⟨p, hp⟩ := probe_ok_of_lt hash t index i key (fun _ => by omega) (by omega)
      rw [hp]
      intro hc
      cases hc
  · rw [probe_eq hash t index i key (by rw [hm]; decide) htwo hi,
      probeOffset_double hash t key i hm]

/-- The double-hashing table requested with capacity 10 after three inserts. -/
theorem double_hash_step_witness :
    Reachable (fun k : Nat => k)
      (resultOr (HashTable.new 10 DOUBLE_HASHING)
        (runOps (fun k : Nat => k) 1 (HashTable.new 10 DOUBLE_HASHING : HashTable Nat Nat)
          (insertOps (workload 0 3)))) ∧
    1 + 25 % ((resultOr (HashTable.new 10 DOUBLE_HASHING)
        (runOps (fun k : Nat => k) 1 (HashTable.new 10 DOUBLE_HASHING : HashTable Nat Nat)
          (insertOps (workload 0 3)))).tableSize - 1) ≤
      (resultOr (HashTable.new 10 DOUBLE_HASHING)
        (runOps (fun k : Nat => k) 1 (HashTable.new 10 DOUBLE_HASHING : HashTable Nat Nat)
          (insertOps (workload 0 3)))).tableSize - 1 :=
  have hr : Reachable (fun k : Nat => k)
      (resultOr (HashTable.new 10 DOUBLE_HASHING)
        (runOps (fun k : Nat => k) 1 (HashTable.new 10 DOUBLE_HASHING : HashTable Nat Nat)
          (insertOps (workload 0 3)))) :=
    ⟨10, DOUBLE_HASHING, 1, insertOps (workload 0 3), by decide!⟩
  ⟨hr, (double_hash_step (fun k : Nat => k) _ hr 25).2.2.1⟩

/-! ## `isPrime` -/

theorem isPrimeLoop_fuel (n : Nat) :
    ∀ f1 f2 i, n < i + f1 → n < i + f2 → isPrimeLoop n f1 i = isPrimeLoop n f2 i := by
  intro f1
  induction f1 with
  | zero =>
    intro f2 i h1 _
    have hsq : ¬ i * i ≤ n := by
      have := Nat.le_mul_self i
      omega
    cases f2 with
    | zero => rfl
    | succ f2 =>
      simp only [isPrimeLoop]
      rw [if_neg hsq]
  | succ f1 ih =>
    intro f2 i h1 h2
    cases f2 with
    | zero =>
      have hsq : ¬ i * i ≤ n := by
        have := Nat.le_mul_self i
        omega
      simp only [isPrimeLoop]
      rw [if_neg hsq]
    | succ f2 =>
      simp only [isPrimeLoop]
      rw [ih f2 (i + 6) (by omega) (by omega)]

/-- C17. For every natural number `n`, `isPrime n` is `true` if and only if `n`
is prime, that is `n ≥ 2` and `n` has no divisor other than 1 and `n`; and the
loop of `isPrime` ends by its own test: a larger step budget gives the same
result. -/
theorem isPrime_correct (n : Nat) :
    (isPrime n = true ↔ 2 ≤ n ∧ ∀ d, d ∣ n → d = 1 ∨ d = n) ∧
    (isPrime n = true ↔ Nat.Prime n) ∧
    (∀ fuel, n ≤ fuel → isPrimeLoop n fuel 5 = isPrimeLoop n n 5) :=
  ⟨(isPrime_iff n).trans Nat.prime_def, isPrime_iff n,
    fun fuel h => isPrimeLoop_fuel n fuel n 5 (by omega) (by omega)⟩
/-- The prime 101 and the composite 91 = 7 * 13. -/
theorem isPrime_correct_witness :
    101 ≤ 200 ∧ isPrimeLoop 101 200 5 = isPrimeLoop 101 101 5 ∧ isPrime 101 = true ∧
    isPrime 91 = false :=
  ⟨by decide, (isPrime_correct 101).2.2 200 (by decide), by decide, by decide⟩

/-! ## Probe sequences without repetition -/

theorem offset_inj_linear (c i j : Nat) (hi : i < c) (hj : j < c) (b : Nat)
    (h : (b + i) % c = (b + j) % c) : i = j :=
  Nat.ModEq.eq_of_lt_of_lt (Nat.ModEq.add_left_cancel' b h) hi hj

/-- Two attempts of a probe sequence that return the same slot are the same
attempt: for linear probing and double hashing among all attempts below the
capacity, for quadratic probing among the attempts `i` with `2 * i + 1 ≤ c`. -/
theorem probe_inj (t : HashTable K V) (index : Nat) (key : K) (i j : Nat)
    (hp : Nat.Prime t.tableSize) (hi : i < t.tableSize) (hj : j < t.tableSize)
    (hm : t.collisionMethod = LINEAR_PROBING ∨ t.collisionMethod = DOUBLE_HASHING ∨
      (t.collisionMethod = QUADRATIC_PROBING ∧ 2 * i + 1 ≤ t.tableSize ∧
        2 * j + 1 ≤ t.tableSize))
    (h : probe hash t index i key = probe hash t index j key) : i = j := by
  have htwo := hp.two_le
  have hne : t.collisionMethod ≠ CHAINING := by
    rcases hm with hm | hm | ⟨hm, _⟩ <;> rw [hm] <;> decide
  rw [probe_eq hash t index i key hne htwo hi, probe_eq hash t index j key hne htwo hj] at h
  have h1 : (index + probeOffset hash t key i) % t.tableSize =
      (index + probeOffset hash t key j) % t.tableSize := by
    injection h
  rcases hm with hm | hm | ⟨hm, h2, h3⟩
  · rw [probeOffset_linear hash t key i hm, probeOffset_linear hash t key j hm] at h1
    exact offset_inj_linear t.tableSize i j hi hj index h1
  · rw [probeOffset_double hash t key i hm, probeOffset_double hash t key j hm] at h1
    have hmod := Nat.mod_lt (hash key) (show 0 < t.tableSize - 1 by omega)
    exact offset_inj_double t.tableSize _ i j hp (by omega) (by omega) hi hj index h1
  · rw [probeOffset_quadratic hash t key i hm, probeOffset_quadratic hash t key j hm] at h1
    exact offset_inj_quadratic t.tableSize i j hp h2 h3 index h1

/-- C14, counterexample. Quadratic probing with the prime capacity 7 and base
index 0: the attempts 3 and 4 return the same slot, 2. -/
theorem quadratic_probe_revisits :
    Nat.Prime (HashTable.new 7 QUADRATIC_PROBING : HashTable Nat Nat).tableSize ∧
    (0 : Nat) < (HashTable.new 7 QUADRATIC_PROBING : HashTable Nat Nat).tableSize ∧
    (3 : Nat) < (HashTable.new 7 QUADRATIC_PROBING : HashTable Nat Nat).tableSize ∧
    (4 : Nat) < (HashTable.new 7 QUADRATIC_PROBING : HashTable Nat Nat).tableSize ∧
    probe (fun k : Nat => k) (HashTable.new 7 QUADRATIC_PROBING : HashTable Nat Nat) 0 3 0 =
      .ok 2 ∧
    probe (fun k : Nat => k) (HashTable.new 7 QUADRATIC_PROBING : HashTable Nat Nat) 0 4 0 =
      .ok 2 := by
  have h7 : (HashTable.new 7 QUADRATIC_PROBING : HashTable Nat Nat).tableSize = 7 := by decide
  refine ⟨by rw [h7]; norm_num, by decide, by decide, by decide, by decide, by decide⟩

/-- C14, amended. For every prime capacity `c`, every base index and every key:
under linear probing and under double hashing the indices `probe(b, i, key)`
for the attempts `i = 0, …, c - 1` are pairwise distinct; under quadratic
probing the indices for the attempts `i` with `2 * i + 1 ≤ c` (the first
`(c + 1) / 2` attempts) are pairwise distinct. -/
theorem probe_sequence_distinct (t : HashTable K V) (index : Nat) (key : K) (i j : Nat)
    (hp : Nat.Prime t.tableSize) (hi : i < t.tableSize) (hj : j < t.tableSize) (hij : i ≠ j)
    (hm : t.collisionMethod = LINEAR_PROBING ∨ t.collisionMethod = DOUBLE_HASHING ∨
      (t.collisionMethod = QUADRATIC_PROBING ∧ 2 * i + 1 ≤ t.tableSize ∧
        2 * j + 1 ≤ t.tableSize)) :
    (∃ p q, probe hash t index i key = .ok p ∧ probe hash t index j key = .ok q ∧ p ≠ q) := by
  have htwo := hp.two_le
  have hne : t.collisionMethod ≠ CHAINING := by
    rcases hm with hm | hm | ⟨hm, _⟩ <;> rw [hm] <;> decide
  refine ⟨_, _, probe_eq hash t index i key hne htwo hi, probe_eq hash t index j key hne htwo hj,
    fun heq => hij ?_⟩
  apply probe_inj hash t index key i j hp hi hj hm
  rw [probe_eq hash t index i key hne htwo hi, probe_eq hash t index j key hne htwo hj, heq]

/-- Quadratic probing with capacity 7: the attempts 1 and 3 return different slots. -/
theorem probe_sequence_distinct_witness :
    Nat.Prime (HashTable.new 7 QUADRATIC_PROBING : HashTable Nat Nat).tableSize ∧
    (1 : Nat) ≠ 3 ∧
    ∃ p q,
      probe (fun k : Nat => k) (HashTable.new 7 QUADRATIC_PROBING : HashTable Nat Nat) 5 1 0 =
        .ok p ∧
      probe (fun k : Nat => k) (HashTable.new 7 QUADRATIC_PROBING : HashTable Nat Nat) 5 3 0 =
        .ok q ∧ p ≠ q :=
  have h7 : (HashTable.new 7 QUADRATIC_PROBING : HashTable Nat Nat).tableSize = 7 := by decide
  have hp : Nat.Prime (HashTable.new 7 QUADRATIC_PROBING : HashTable Nat Nat).tableSize := by
    rw [h7]; norm_num
  ⟨hp, by decide,
    probe_sequence_distinct (fun k : Nat => k)
      (HashTable.new 7 QUADRATIC_PROBING : HashTable Nat Nat) 5 0 1 3 hp (by decide) (by decide)
      (by decide) (Or.inr (Or.inr ⟨by decide, by decide, by decide⟩))⟩

/-! ## Double hashing reaches every slot -/

/-- A function that is injective on the attempts below `c` and maps them to
slots below `c` reaches every slot below `c`. -/
theorem surj_of_inj_below (f : Nat → Nat) (c : Nat) (hlt : ∀ i, i < c → f i < c)
    (hinj : ∀ i j, i < c → j < c → f i = f j → i = j) (s : Nat) (hs : s < c) :
    ∃ i, i < c ∧ f i = s := by
  have hnd : ((List.range c).map f).Nodup := by
    apply List.Nodup.map_on _ (List.nodup_range c)
    intro i hi j hj hij
    exact hinj i j (List.mem_range.mp hi) (List.mem_range.mp hj) hij
  have hsub : (List.range c).map f ⊆ List.range c := by
    intro x hx
    obtain ⟨i, hi, rfl⟩ := List.mem_map.mp hx
    exact List.mem_range.mpr (hlt i (List.mem_range.mp hi))
  have hperm : ((List.range c).map f).Perm (List.range c) :=
    (List.subperm_of_subset hnd hsub).perm_of_length_le (by rw [List.length_map])
  obtain ⟨i, hi, hfi⟩ := List.mem_map.mp (hperm.mem_iff.mpr (List.mem_range.mpr hs))
  exact ⟨i, List.mem_range.mp hi, hfi⟩

/-- C15. Under double hashing, for every prime capacity `c`, every base index
and every key, the map `i ↦ probe(b, i, key)` on the attempts `0 ≤ i < c` is a
bijection onto the slot indices `0, …, c - 1`: every attempt returns a slot
below `c`, different attempts return different slots, and every slot (so every
empty one) is returned by an attempt below `c`. -/
theorem double_hashing_bijection (t : HashTable K V) (index : Nat) (key : K)
    (hp : Nat.Prime t.tableSize) (hm : t.collisionMethod = DOUBLE_HASHING) :
    (∀ i, i < t.tableSize → ∃ p, p < t.tableSize ∧ probe hash t index i key = .ok p) ∧
    (∀ i j, i < t.tableSize → j < t.tableSize →
      probe hash t index i key = probe hash t index j key → i = j) ∧
    (∀ s, s < t.tableSize → ∃ i, i < t.tableSize ∧ probe hash t index i key = .ok s) := by
  have htwo := hp.two_le
  have hne : t.collisionMethod ≠ CHAINING := by rw [hm]; decide
  have hinj : ∀ i j, i < t.tableSize → j < t.tableSize →
      probe hash t index i key = probe hash t index j key → i = j :=
    fun i j hi hj h => probe_inj hash t index key i j hp hi hj (Or.inr (Or.inl hm)) h
  refine ⟨fun i hi => ⟨_, Nat.mod_lt _ hp.pos, probe_eq hash t index i key hne htwo hi⟩,
    hinj, fun s hs => ?_⟩
  obtain ⟨i, hi, hfi⟩ := surj_of_inj_below
    (fun i => (index + probeOffset hash t key i) % t.tableSize) t.tableSize
    (fun i _ => Nat.mod_lt _ hp.pos)
    (fun i j hi hj h => hinj i j hi hj (by
      rw [probe_eq hash t index i key hne htwo hi, probe_eq hash t index j key hne htwo hj]
      exact congrArg Except.ok h)) s hs
  exact ⟨i, hi, by rw [probe_eq hash t index i key hne htwo hi]; exact congrArg Except.ok hfi⟩

/-- Capacity 7, key 9 (step 4), base index 2: slot 0 is reached at attempt 3. -/
theorem double_hashing_bijection_witness :
    Nat.Prime (HashTable.new 7 DOUBLE_HASHING : HashTable Nat Nat).tableSize ∧
    (0 : Nat) < (HashTable.new 7 DOUBLE_HASHING : HashTable Nat Nat).tableSize ∧
    probe (fun k : Nat => k) (HashTable.new 7 DOUBLE_HASHING : HashTable Nat Nat) 2 3 9 =
      .ok 0 ∧
    ∃ i, i < (HashTable.new 7 DOUBLE_HASHING : HashTable Nat Nat).tableSize ∧
      probe (fun k : Nat => k) (HashTable.new 7 DOUBLE_HASHING : HashTable Nat Nat) 2 i 9 =
        .ok 0 :=
  have h7 : (HashTable.new 7 DOUBLE_HASHING : HashTable Nat Nat).tableSize = 7 := by decide
  have hp : Nat.Prime (HashTable.new 7 DOUBLE_HASHING : HashTable Nat Nat).tableSize := by
    rw [h7]; norm_num
  ⟨hp, by decide, by decide,
    (double_hashing_bijection (fun k : Nat => k)
      (HashTable.new 7 DOUBLE_HASHING : HashTable Nat Nat) 2 9 hp (by decide)).2.2 0 (by decide)⟩

/-! ## The load factor -/

theorem count_true_eq_filter_range :
    ∀ l : List Bool,
      l.count true = ((List.range l.length).filter fun s => l.getD s false).length := by
  intro l
  induction l using List.reverseRecOn with
  | nil => rfl
  | append_singleton l a ih =>
    rw [List.count_append, List.length_append, List.length_singleton, List.range_succ,
      List.filter_append, List.length_append, ih]
    congr 1
    · congr 1
      apply List.filter_congr
      intro s hs
      have hs1 : s < l.length := List.mem_range.mp hs
      simp [List.getD_eq_getElem?_getD, List.getElem?_append_left hs1]
    · cases a <;> simp [List.getD_eq_getElem?_getD]

theorem occupiedCount_eq_entries (t : HashTable K V) (hwf : WellFormed t)
    (hm : t.collisionMethod ≠ CHAINING) : occupiedCount t = (entries t).length := by
  unfold occupiedCount entries
  rw [if_neg hm, count_true_eq_filter_range, (hwf.2.2 hm).2]
  exact (length_filterMap_ite (fun s => t.isOccupied.getD s false)
    (fun s => t.probedTable.getD s default) _).symm

/-- C16. In every table state reachable from the constructor by calls of
`insert` and `remove` that returned, for every strategy,
`4 * currentSize ≤ 3 * capacity`; and for the open-addressing strategies the
number of slots flagged occupied is at most `currentSize` and so less than the
capacity: at least one slot is empty. -/
theorem load_factor_invariant (t : HashTable K V) (hr : Reachable hash t) :
    4 * t.currentSize ≤ 3 * t.tableSize ∧
    (t.collisionMethod ≠ CHAINING →
      occupiedCount t ≤ t.currentSize ∧ occupiedCount t < t.tableSize ∧
      ∃ s, s < t.tableSize ∧ t.isOccupied.getD s false = false) := by
  obtain ⟨hwf, hlen, hload⟩ := reachable_balanced hash t hr
  refine ⟨hload, fun hm => ?_⟩
  have hocc := occupiedCount_eq_entries t hwf hm
  have hpos := hwf.1.pos
  refine ⟨by omega, by omega, ?_⟩
  obtain ⟨i, hi, hfree⟩ := exists_free_attempt t hm (fun i => i) t.tableSize
    (fun i hi => hi) (fun i j _ _ h => h) (by omega)
  exact ⟨i, hi, hfree⟩

/-- The table after 75 of the 100 inserts: 75 occupied slots, entry count 75,
capacity 101. -/
theorem load_factor_invariant_witness :
    Reachable (fun k : Nat => k) tableAfter75 ∧
    4 * tableAfter75.currentSize ≤ 3 * tableAfter75.tableSize ∧
    occupiedCount tableAfter75 = 75 ∧ occupiedCount tableAfter75 < tableAfter75.tableSize :=
  have hr : Reachable (fun k : Nat => k) tableAfter75 :=
    ⟨100, LINEAR_PROBING, 1, insertOps (workload 0 75), by decide!⟩
  have h := load_factor_invariant (fun k : Nat => k) tableAfter75 hr
  ⟨hr, h.1, by decide!, (h.2 (by decide!)).2.1⟩

/-! ## Removal without tombstones -/

/-- C12. For each open-addressing strategy there are a hash function (the
identity), two distinct keys (0 and 11) and a table (capacity 11) such that
after `insert(0, 1)`, `insert(11, 2)` and a `remove(0)` that returns `true`,
`retrieve(11)` returns `false`, although key 11 was inserted and never removed;
and a further `insert(11, 3)` stores a second pair for key 11. -/
theorem tombstone_hazard :
    tombstoneScenario LINEAR_PROBING = .ok (true, none, [(11, 3), (11, 2)]) ∧
    tombstoneScenario QUADRATIC_PROBING = .ok (true, none, [(11, 3), (11, 2)]) ∧
    tombstoneScenario DOUBLE_HASHING = .ok (true, none, [(11, 3), (11, 2)]) :=
  ⟨by decide!, by decide!, by decide!⟩

/-! ## Linear probing and double hashing never exhaust the probe sequence -/

/-- Under linear probing and double hashing a table that is not full has an
unoccupied slot on every probe sequence. -/
theorem exists_free_slot_open (t : HashTable K V) (index : Nat) (key : K) (hwf : WellFormed t)
    (hm : t.collisionMethod = LINEAR_PROBING ∨ t.collisionMethod = DOUBLE_HASHING)
    (hcount : (entries t).length < t.tableSize) :
    ∃ i p, i < t.tableSize ∧ probe hash t index i key = .ok p ∧
      t.isOccupied.getD p false = false := by
  have hp := hwf.1
  have htwo := hp.two_le
  have hne : t.collisionMethod ≠ CHAINING := by
    rcases hm with hm | hm <;> rw [hm] <;> decide
  have hm3 : ∀ i j : Nat, t.collisionMethod = LINEAR_PROBING ∨
      t.collisionMethod = DOUBLE_HASHING ∨
      (t.collisionMethod = QUADRATIC_PROBING ∧ 2 * i + 1 ≤ t.tableSize ∧
        2 * j + 1 ≤ t.tableSize) := by
    intro i j
    rcases hm with hm | hm
    · exact Or.inl hm
    · exact Or.inr (Or.inl hm)
  obtain ⟨i, hi, hfree⟩ := exists_free_attempt t hne
    (fun i => (index + probeOffset hash t key i) % t.tableSize) t.tableSize
    (fun i _ => Nat.mod_lt _ hp.pos)
    (fun i j hi hj h => probe_inj hash t index key i j hp hi hj (hm3 i j) (by
      rw [probe_eq hash t index i key hne htwo hi, probe_eq hash t index j key hne htwo hj]
      exact congrArg Except.ok h))
    hcount
  exact ⟨i, _, hi, probe_eq hash t index i key hne htwo hi, hfree⟩

theorem retrieveLoop_ok_of_free (t : HashTable K V) (index : Nat) (key : K) (i p : Nat)
    (hall : ∀ j, j ≤ i → ∃ q, probe hash t index j key = .ok q)
    (hpr : probe hash t index i key = .ok p) (hfree : t.isOccupied.getD p false = false) :
    ∀ fuel j0, j0 ≤ i → i < j0 + fuel →
      ∃ r, retrieveLoop hash t index key fuel j0 = .ok r := by
  intro fuel
  induction fuel with
  | zero => intro j0 h1 h2; omega
  | succ fuel ih =>
    intro j0 h1 h2
    unfold retrieveLoop
    obtain ⟨q, hq⟩ := hall j0 h1
    rw [hq]
    simp only
    by_cases hoq : t.isOccupied.getD q false = true
    · rw [if_pos hoq]
      by_cases hk : (t.probedTable.getD q default).1 = key
      · rw [if_pos hk]
        exact ⟨_, rfl⟩
      · rw [if_neg hk]
        have hne : j0 ≠ i := by
          intro h
          subst h
          rw [hq] at hpr
          cases hpr
          rw [hoq] at hfree
          cases hfree
        exact ih (j0 + 1) (by omega) (by omega)
    · rw [if_neg hoq]
      exact ⟨_, rfl⟩

theorem removeLoop_ok_of_free (t : HashTable K V) (index : Nat) (key : K) (i p : Nat)
    (hall : ∀ j, j ≤ i → ∃ q, probe hash t index j key = .ok q)
    (hpr : probe hash t index i key = .ok p) (hfree : t.isOccupied.getD p false = false) :
    ∀ fuel j0, j0 ≤ i → i < j0 + fuel →
      ∃ r, removeLoop hash t index key fuel j0 = .ok r := by
  intro fuel
  induction fuel with
  | zero => intro j0 h1 h2; omega
  | succ fuel ih =>
    intro j0 h1 h2
    unfold removeLoop
    obtain ⟨q, hq⟩ := hall j0 h1
    rw [hq]
    simp only
    by_cases hoq : t.isOccupied.getD q false = true
    · rw [if_pos hoq]
      by_cases hk : (t.probedTable.getD q default).1 = key
      · rw [if_pos hk]
        exact ⟨_, rfl⟩
      · rw [if_neg hk]
        have hne : j0 ≠ i := by
          intro h
          subst h
          rw [hq] at hpr
          cases hpr
          rw [hoq] at hfree
          cases hfree
        exact ih (j0 + 1) (by omega) (by omega)
    · rw [if_neg hoq]
      exact ⟨_, rfl⟩

/-- Re-inserting a list that fits below the load limit returns normally under
linear probing and double hashing. -/
theorem reinsert_ok_open (fuel : Nat) :
    ∀ (l : List (K × V)) (t0 : HashTable K V), WellFormed t0 →
      (entries t0).length = t0.currentSize →
      (t0.collisionMethod = LINEAR_PROBING ∨ t0.collisionMethod = DOUBLE_HASHING) →
      4 * (t0.currentSize + l.length) ≤ 3 * t0.tableSize →
      ∃ t, reinsertBucket (insert hash fuel) t0 l = .ok t := by
  intro l
  induction l with
  | nil => intro t0 _ _ _ _; exact ⟨t0, rfl⟩
  | cons p rest ih =>
    intro t0 hwf hlen hm hsmall
    have htwo := hwf.1.two_le
    simp only [List.length_cons] at hsmall
    have hne : t0.collisionMethod ≠ CHAINING := by
      rcases hm with hm | hm <;> rw [hm] <;> decide
    obtain ⟨i, q, hi, hpr, hfree⟩ :=
      exists_free_slot_open hash t0 (hash p.1 % t0.tableSize) p.1 hwf hm (by omega)
    obtain ⟨t1, he⟩ := insertEntry_ok_of_free hash t0 p.1 p.2 hwf hne i q hi hpr hfree
    obtain ⟨h1, h2, _, h4⟩ := insertEntry_fields hash t0 t1 p.1 p.2 he
    have hwf1 := insertEntry_wellFormed hash t0 t1 p.1 p.2 hwf he
    have hperm := insertEntry_perm hash t0 t1 p.1 p.2 hwf he
    have hlen1 : (entries t1).length = t1.currentSize := by
      rw [hperm.length_eq, List.length_cons, hlen, h4]
    have hins : insert hash fuel t0 p.1 p.2 = .ok t1 :=
      insert_of_small hash fuel t0 t1 p.1 p.2 he (by omega)
    obtain ⟨t, ht⟩ := ih t1 hwf1 hlen1 (by rw [h2]; exact hm) (by omega)
    refine ⟨t, ?_⟩
    unfold reinsertBucket
    rw [hins]
    exact ht

/-- On a balanced table `insert` returns normally under linear probing and
double hashing. -/
theorem insert_ok_open (t : HashTable K V) (key : K) (value : V) (hb : Balanced t)
    (hm : t.collisionMethod = LINEAR_PROBING ∨ t.collisionMethod = DOUBLE_HASHING)
    (fuel : Nat) : ∃ t1, insert hash (fuel + 1) t key value = .ok t1 := by
  obtain ⟨hwf, hlen, hload⟩ := hb
  have htwo := hwf.1.two_le
  have hne : t.collisionMethod ≠ CHAINING := by
    rcases hm with hm | hm <;> rw [hm] <;> decide
  obtain ⟨i, q, hi, hpr, hfree⟩ :=
    exists_free_slot_open hash t (hash key % t.tableSize) key hwf hm (by omega)
  obtain ⟨t0, he⟩ := insertEntry_ok_of_free hash t key value hwf hne i q hi hpr hfree
  obtain ⟨h1, h2, _, h4⟩ := insertEntry_fields hash t t0 key value he
  have hperm := insertEntry_perm hash t t0 key value hwf he
  have hlen0 : (entries t0).length = (entries t).length + 1 := by
    rw [hperm.length_eq, List.length_cons]
  by_cases hs : 4 * t0.currentSize > 3 * t0.tableSize
  · rw [insert_of_large hash fuel t t0 key value he hs, rehash_eq]
    obtain ⟨f1, f2, f3, _⟩ := rehashStart_fields t0
    have hge : t0.tableSize * 2 ≤ nextPrime (t0.tableSize * 2) := le_nextPrime _
    obtain ⟨t2, ht2⟩ := reinsert_ok_open hash fuel (entries t0) (rehashStart t0)
      (rehashStart_wellFormed t0) (by rw [rehashStart_entries, f2]; rfl)
      (by rw [f3, h2]; exact hm) (by rw [f1, f2]; omega)
    rw [ht2]
    exact ⟨_, rfl⟩
  · exact ⟨t0, insert_of_small hash _ t t0 key value he hs⟩

theorem retrieve_ok_open (t : HashTable K V) (key : K) (hb : Balanced t)
    (hm : t.collisionMethod = LINEAR_PROBING ∨ t.collisionMethod = DOUBLE_HASHING) :
    ∃ r, retrieve hash t key = .ok r := by
  obtain ⟨hwf, hlen, hload⟩ := hb
  have htwo := hwf.1.two_le
  have hne : t.collisionMethod ≠ CHAINING := by
    rcases hm with hm | hm <;> rw [hm] <;> decide
  obtain ⟨i, q, hi, hpr, hfree⟩ :=
    exists_free_slot_open hash t (hash key % t.tableSize) key hwf hm (by omega)
  unfold retrieve
  rw [hashFunction_ok hash t key (by omega)]
  simp only [hne, if_false]
  exact retrieveLoop_ok_of_free hash t _ key i q
    (fun j hj => ⟨_, probe_eq hash t _ j key hne htwo (by omega)⟩) hpr hfree _ 0
    (Nat.zero_le _) (by omega)

theorem remove_ok_open (t : HashTable K V) (key : K) (hb : Balanced t)
    (hm : t.collisionMethod = LINEAR_PROBING ∨ t.collisionMethod = DOUBLE_HASHING) :
    ∃ r, remove hash t key = .ok r := by
  obtain ⟨hwf, hlen, hload⟩ := hb
  have htwo := hwf.1.two_le
  have hne : t.collisionMethod ≠ CHAINING := by
    rcases hm with hm | hm <;> rw [hm] <;> decide
  obtain ⟨i, q, hi, hpr, hfree⟩ :=
    exists_free_slot_open hash t (hash key % t.tableSize) key hwf hm (by omega)
  obtain ⟨r, hr⟩ := removeLoop_ok_of_free hash t _ key i q
    (fun j hj => ⟨_, probe_eq hash t _ j key hne htwo (by omega)⟩) hpr hfree
    (t.tableSize + 1) 0 (Nat.zero_le _) (by omega)
  unfold remove
  rw [hashFunction_ok hash t key (by omega)]
  simp only [hne, if_false, hr]
  cases r with
  | none => exact ⟨_, rfl⟩
  | some p => exact ⟨_, rfl⟩

/-! ## Every storage access of a well-formed table is in range -/

theorem checked_inRange {α : Type} (capacity : Nat) (v : List α) (i : Nat)
    (h1 : i < capacity) (h2 : i < v.length) : Checked.inRange capacity v i = true := by
  simp [Checked.inRange, h1, h2]

theorem checked_insertLoop_eq (t : HashTable K V) (index : Nat) (key : K)
    (hwf : WellFormed t) (hm : t.collisionMethod ≠ CHAINING) :
    ∀ fuel i, Checked.insertLoop hash t index key fuel i =
      Checked.lift (insertLoop hash t index key fuel i) := by
  intro fuel
  induction fuel with
  | zero => intro i; rfl
  | succ fuel ih =>
    intro i
    unfold Checked.insertLoop insertLoop
    cases hp : probe hash t index i key with
    | error e => rfl
    | ok p =>
      simp only
      have hlt := probe_result_lt hash t index i p key hm hp
      rw [if_pos (checked_inRange _ _ _ hlt (by rw [(hwf.2.2 hm).2]; exact hlt))]
      by_cases ho : t.isOccupied.getD p false = true
      · rw [if_pos ho, if_pos ho]
        exact ih (i + 1)
      · rw [if_neg ho, if_neg ho]
        rfl

theorem checked_insertEntry_eq (t : HashTable K V) (key : K) (value : V) (hwf : WellFormed t) :
    Checked.insertEntry hash t key value = Checked.lift (insertEntry hash t key value) := by
  have hpos := hwf.1.pos
  have hidx : hash key % t.tableSize < t.tableSize := Nat.mod_lt _ hpos
  unfold Checked.insertEntry insertEntry
  rw [hashFunction_ok hash t key (by omega)]
  simp only
  by_cases hm : t.collisionMethod = CHAINING
  · rw [if_pos hm, if_pos hm,
      if_pos (checked_inRange _ _ _ hidx (by rw [hwf.2.1 hm]; exact hidx))]
    rfl
  · rw [if_neg hm, if_neg hm, checked_insertLoop_eq hash t _ key hwf hm]
    cases hl : insertLoop hash t (hash key % t.tableSize) key (t.tableSize + 1) 0 with
    | error e => rfl
    | ok i =>
      simp only [Checked.lift]
      cases hp : probe hash t (hash key % t.tableSize) i key with
      | error e => rfl
      | ok p =>
        simp only
        have hlt := probe_result_lt hash t _ i p key hm hp
        have h1 := checked_inRange t.tableSize t.probedTable p hlt
          (by rw [(hwf.2.2 hm).1]; exact hlt)
        have h2 := checked_inRange t.tableSize t.isOccupied p hlt
          (by rw [(hwf.2.2 hm).2]; exact hlt)
        rw [h1, h2]
        rfl

/-- Re-insertion keeps a table well formed and does not shrink it, when the
inserting function does so. -/
theorem reinsertBucket_wellFormed
    (ins : HashTable K V → K → V → Except Error (HashTable K V))
    (hins : ∀ t key value t1, WellFormed t → ins t key value = .ok t1 →
      WellFormed t1 ∧ t.tableSize ≤ t1.tableSize) :
    ∀ (l : List (K × V)) (t t1 : HashTable K V), WellFormed t →
      reinsertBucket ins t l = .ok t1 → WellFormed t1 ∧ t.tableSize ≤ t1.tableSize := by
  intro l
  induction l with
  | nil =>
    intro t t1 hwf h
    simp only [reinsertBucket] at h
    injection h with h
    rw [← h]
    exact ⟨hwf, Nat.le_refl _⟩
  | cons p rest ih =>
    intro t t1 hwf h
    simp only [reinsertBucket] at h
    cases hi : ins t p.1 p.2 with
    | error e =>
      rw [hi] at h
      cases h
    | ok t2 =>
      rw [hi] at h
      obtain ⟨h1, h2⟩ := hins t _ _ t2 hwf hi
      obtain ⟨h3, h4⟩ := ih t2 t1 h1 h
      exact ⟨h3, by omega⟩

/-- An `insert` that returns keeps a table well formed and does not shrink it,
also when it rehashes. -/
theorem insert_wellFormed :
    ∀ (fuel : Nat) (t : HashTable K V) (key : K) (value : V) (t1 : HashTable K V),
      WellFormed t → insert hash fuel t key value = .ok t1 →
      WellFormed t1 ∧ t.tableSize ≤ t1.tableSize := by
  intro fuel
  induction fuel with
  | zero =>
    intro t key value t1 hwf h
    cases he : insertEntry hash t key value with
    | error e =>
      rw [insert_of_error hash 0 t key value e he] at h
      cases h
    | ok t0 =>
      by_cases hs : 4 * t0.currentSize > 3 * t0.tableSize
      · rw [insert_zero_of_large hash t t0 key value he hs] at h
        cases h
      · rw [insert_of_small hash 0 t t0 key value he hs] at h
        injection h with h
        rw [← h]
        exact ⟨insertEntry_wellFormed hash t t0 key value hwf he,
          by rw [(insertEntry_fields hash t t0 key value he).1]⟩
  | succ fuel ih =>
    intro t key value t1 hwf h
    cases he : insertEntry hash t key value with
    | error e =>
      rw [insert_of_error hash _ t key value e he] at h
      cases h
    | ok t0 =>
      have hwf0 := insertEntry_wellFormed hash t t0 key value hwf he
      have hts := (insertEntry_fields hash t t0 key value he).1
      by_cases hs : 4 * t0.currentSize > 3 * t0.tableSize
      · rw [insert_of_large hash fuel t t0 key value he hs, rehash_eq] at h
        cases hr : reinsertBucket (insert hash fuel) (rehashStart t0) (entries t0) with
        | error e =>
          rw [hr] at h
          cases h
        | ok t2 =>
          rw [hr] at h
          simp only at h
          injection h with h
          obtain ⟨h1, h2⟩ := reinsertBucket_wellFormed (insert hash fuel)
            (fun t key value t1 => ih t key value t1) _ _ t2 (rehashStart_wellFormed t0) hr
          rw [(rehashStart_fields t0).1] at h2
          have hge := le_nextPrime (t0.tableSize * 2)
          rw [← h]
          exact ⟨wellFormed_cout t2 _ h1, by
            show t.tableSize ≤ t2.tableSize
            omega⟩
      · rw [insert_of_small hash _ t t0 key value he hs] at h
        injection h with h
        rw [← h]
        exact ⟨hwf0, by rw [hts]⟩

theorem checked_reinsertBucket_eq
    (ins : HashTable K V → K → V → Except Error (HashTable K V))
    (cins : HashTable K V → K → V → Except Checked.Fault (HashTable K V))
    (hc : ∀ t key value, WellFormed t → cins t key value = Checked.lift (ins t key value))
    (hins : ∀ t key value t1, WellFormed t → ins t key value = .ok t1 →
      WellFormed t1 ∧ t.tableSize ≤ t1.tableSize) :
    ∀ (l : List (K × V)) (t : HashTable K V), WellFormed t →
      Checked.reinsertBucket cins t l = Checked.lift (reinsertBucket ins t l) := by
  intro l
  induction l with
  | nil => intro t _; rfl
  | cons p rest ih =>
    intro t hwf
    simp only [Checked.reinsertBucket, reinsertBucket]
    rw [hc t _ _ hwf]
    cases hi : ins t p.1 p.2 with
    | error e => rfl
    | ok t2 =>
      simp only [Checked.lift]
      exact ih t2 (hins t _ _ t2 hwf hi).1

theorem checked_reinsertBuckets_eq
    (ins : HashTable K V → K → V → Except Error (HashTable K V))
    (cins : HashTable K V → K → V → Except Checked.Fault (HashTable K V))
    (hc : ∀ t key value, WellFormed t → cins t key value = Checked.lift (ins t key value))
    (hins : ∀ t key value t1, WellFormed t → ins t key value = .ok t1 →
      WellFormed t1 ∧ t.tableSize ≤ t1.tableSize) :
    ∀ (buckets : List (List (K × V))) (t : HashTable K V), WellFormed t →
      Checked.reinsertBuckets cins t buckets = Checked.lift (reinsertBuckets ins t buckets) := by
  intro buckets
  induction buckets with
  | nil => intro t _; rfl
  | cons b rest ih =>
    intro t hwf
    simp only [Checked.reinsertBuckets, reinsertBuckets]
    rw [checked_reinsertBucket_eq ins cins hc hins b t hwf]
    cases hi : reinsertBucket ins t b with
    | error e => rfl
    | ok t2 =>
      simp only [Checked.lift]
      exact ih t2 (reinsertBucket_wellFormed ins hins b t t2 hwf hi).1

theorem checked_reinsertSlots_eq
    (ins : HashTable K V → K → V → Except Error (HashTable K V))
    (cins : HashTable K V → K → V → Except Checked.Fault (HashTable K V))
    (hc : ∀ t key value, WellFormed t → cins t key value = Checked.lift (ins t key value))
    (hins : ∀ t key value t1, WellFormed t → ins t key value = .ok t1 →
      WellFormed t1 ∧ t.tableSize ≤ t1.tableSize)
    (oldTable : List (K × V)) (oldOccupied : List Bool) :
    ∀ (idxs : List Nat) (t : HashTable K V), WellFormed t →
      (∀ i, i ∈ idxs → i < oldOccupied.length ∧ i < oldTable.length ∧ i < t.tableSize) →
      Checked.reinsertSlots cins oldTable oldOccupied t idxs =
        Checked.lift (reinsertSlots ins oldTable oldOccupied t idxs) := by
  intro idxs
  induction idxs with
  | nil => intro t _ _; rfl
  | cons i rest ih =>
    intro t hwf hidx
    obtain ⟨h1, h2, h3⟩ := hidx i (List.mem_cons_self _ _)
    unfold Checked.reinsertSlots reinsertSlots
    rw [if_pos (checked_inRange _ _ _ h3 h1)]
    by_cases ho : oldOccupied.getD i false = true
    · rw [if_pos ho, if_pos ho, if_pos (checked_inRange _ _ _ h3 h2), hc t _ _ hwf]
      cases hi : ins t (oldTable.getD i default).1 (oldTable.getD i default).2 with
      | error e => rfl
      | ok t2 =>
        simp only [Checked.lift]
        obtain ⟨hwf2, hle⟩ := hins t _ _ t2 hwf hi
        exact ih t2 hwf2 (fun j hj => by
          obtain ⟨a, b, c⟩ := hidx j (List.mem_cons_of_mem _ hj)
          exact ⟨a, b, by omega⟩)
    · rw [if_neg ho, if_neg ho]
      exact ih t hwf (fun j hj => hidx j (List.mem_cons_of_mem _ hj))

theorem checked_rehash_eq
    (ins : HashTable K V → K → V → Except Error (HashTable K V))
    (cins : HashTable K V → K → V → Except Checked.Fault (HashTable K V))
    (hc : ∀ t key value, WellFormed t → cins t key value = Checked.lift (ins t key value))
    (hins : ∀ t key value t1, WellFormed t → ins t key value = .ok t1 →
      WellFormed t1 ∧ t.tableSize ≤ t1.tableSize)
    (t : HashTable K V) (hwf : WellFormed t) :
    Checked.rehash cins t = Checked.lift (rehash ins t) := by
  have hstart := rehashStart_wellFormed t
  have hge := le_nextPrime (t.tableSize * 2)
  unfold Checked.rehash rehash
  unfold rehashStart at hstart
  by_cases hm : t.collisionMethod = CHAINING
  · rw [if_pos hm] at hstart
    simp only [if_pos hm]
    rw [checked_reinsertBuckets_eq ins cins hc hins _ _ hstart]
    cases reinsertBuckets ins _ t.chainedTable with
    | error e => rfl
    | ok t2 => rfl
  · rw [if_neg hm] at hstart
    simp only [if_neg hm]
    rw [checked_reinsertSlots_eq ins cins hc hins _ _ _ _ hstart (fun i hi => by
      have hi := List.mem_range.mp hi
      refine ⟨by rw [(hwf.2.2 hm).2]; exact hi, by rw [(hwf.2.2 hm).1]; exact hi, ?_⟩
      show i < nextPrime (t.tableSize * 2)
      omega)]
    cases reinsertSlots ins t.probedTable t.isOccupied _ (List.range t.tableSize) with
    | error e => rfl
    | ok t2 => rfl

/-- On a well-formed table the checked `insert` is `insert`: no access of the
call, or of a `rehash` inside it, is out of range. -/
theorem checked_insert_eq :
    ∀ (fuel : Nat) (t : HashTable K V) (key : K) (value : V), WellFormed t →
      Checked.insert hash fuel t key value = Checked.lift (insert hash fuel t key value) := by
  intro fuel
  induction fuel with
  | zero =>
    intro t key value hwf
    unfold Checked.insert insert
    rw [checked_insertEntry_eq hash t key value hwf]
    cases he : insertEntry hash t key value with
    | error e => rfl
    | ok t0 =>
      simp only [Checked.lift]
      split <;> rfl
  | succ fuel ih =>
    intro t key value hwf
    unfold Checked.insert insert
    rw [checked_insertEntry_eq hash t key value hwf]
    cases he : insertEntry hash t key value with
    | error e => rfl
    | ok t0 =>
      simp only [Checked.lift]
      by_cases hs : 4 * t0.currentSize > 3 * t0.tableSize
      · rw [if_pos hs, if_pos hs]
        exact checked_rehash_eq (insert hash fuel) (Checked.insert hash fuel)
          (fun t key value => ih t key value)
          (fun t key value t1 => insert_wellFormed hash fuel t key value t1) t0
          (insertEntry_wellFormed hash t t0 key value hwf he)
      · rw [if_neg hs, if_neg hs]

theorem checked_retrieveLoop_eq (t : HashTable K V) (index : Nat) (key : K)
    (hwf : WellFormed t) (hm : t.collisionMethod ≠ CHAINING) :
    ∀ fuel i, Checked.retrieveLoop hash t index key fuel i =
      Checked.lift (retrieveLoop hash t index key fuel i) := by
  intro fuel
  induction fuel with
  | zero => intro i; rfl
  | succ fuel ih =>
    intro i
    unfold Checked.retrieveLoop retrieveLoop
    cases hp : probe hash t index i key with
    | error e => rfl
    | ok p =>
      simp only
      have hlt := probe_result_lt hash t index i p key hm hp
      rw [if_pos (checked_inRange _ _ _ hlt (by rw [(hwf.2.2 hm).2]; exact hlt))]
      by_cases ho : t.isOccupied.getD p false = true
      · rw [if_pos ho, if_pos ho,
          if_pos (checked_inRange _ _ _ hlt (by rw [(hwf.2.2 hm).1]; exact hlt))]
        by_cases hk : (t.probedTable.getD p default).1 = key
        · rw [if_pos hk, if_pos hk]
          rfl
        · rw [if_neg hk, if_neg hk]
          exact ih (i + 1)
      · rw [if_neg ho, if_neg ho]
        rfl

theorem checked_retrieve_eq (t : HashTable K V) (key : K) (hwf : WellFormed t) :
    Checked.retrieve hash t key = Checked.lift (retrieve hash t key) := by
  have hpos := hwf.1.pos
  have hidx : hash key % t.tableSize < t.tableSize := Nat.mod_lt _ hpos
  unfold Checked.retrieve retrieve
  rw [hashFunction_ok hash t key (by omega)]
  simp only
  by_cases hm : t.collisionMethod = CHAINING
  · rw [if_pos hm, if_pos hm,
      if_pos (checked_inRange _ _ _ hidx (by rw [hwf.2.1 hm]; exact hidx))]
    rfl
  · rw [if_neg hm, if_neg hm]
    exact checked_retrieveLoop_eq hash t _ key hwf hm _ 0

theorem checked_removeLoop_eq (t : HashTable K V) (index : Nat) (key : K)
    (hwf : WellFormed t) (hm : t.collisionMethod ≠ CHAINING) :
    ∀ fuel i, Checked.removeLoop hash t index key fuel i =
      Checked.lift (removeLoop hash t index key fuel i) := by
  intro fuel
  induction fuel with
  | zero => intro i; rfl
  | succ fuel ih =>
    intro i
    unfold Checked.removeLoop removeLoop
    cases hp : probe hash t index i key with
    | error e => rfl
    | ok p =>
      simp only
      have hlt := probe_result_lt hash t index i p key hm hp
      rw [if_pos (checked_inRange _ _ _ hlt (by rw [(hwf.2.2 hm).2]; exact hlt))]
      by_cases ho : t.isOccupied.getD p false = true
      · rw [if_pos ho, if_pos ho,
          if_pos (checked_inRange _ _ _ hlt (by rw [(hwf.2.2 hm).1]; exact hlt))]
        by_cases hk : (t.probedTable.getD p default).1 = key
        · rw [if_pos hk, if_pos hk]
          rfl
        · rw [if_neg hk, if_neg hk]
          exact ih (i + 1)
      · rw [if_neg ho, if_neg ho]
        rfl

theorem checked_remove_eq (t : HashTable K V) (key : K) (hwf : WellFormed t) :
    Checked.remove hash t key = Checked.lift (remove hash t key) := by
  have hpos := hwf.1.pos
  have hidx : hash key % t.tableSize < t.tableSize := Nat.mod_lt _ hpos
  unfold Checked.remove remove
  rw [hashFunction_ok hash t key (by omega)]
  simp only
  by_cases hm : t.collisionMethod = CHAINING
  · rw [if_pos hm, if_pos hm,
      if_pos (checked_inRange _ _ _ hidx (by rw [hwf.2.1 hm]; exact hidx))]
    cases removeBucket key (t.chainedTable.getD (hash key % t.tableSize) []) <;> rfl
  · rw [if_neg hm, if_neg hm, checked_removeLoop_eq hash t _ key hwf hm]
    cases hl : removeLoop hash t (hash key % t.tableSize) key (t.tableSize + 1) 0 with
    | error e => rfl
    | ok r =>
      cases r with
      | none => rfl
      | some p =>
        simp only [Checked.lift]
        obtain ⟨i, _, hp, _⟩ := removeLoop_ok hash t _ key _ 0 p hl
        have hlt := probe_result_lt hash t _ i p key hm hp
        rw [if_pos (checked_inRange _ _ _ hlt (by rw [(hwf.2.2 hm).2]; exact hlt))]

/-- C11. Under linear probing and double hashing, for every hash function and
every table state reachable from the constructor by calls of `insert` and
`remove` (repeated keys allowed), the next `insert`, `retrieve` or `remove`
with any key returns normally, and it does so in the form of the member
function in which every storage access is checked: the call does not raise
`Hash table full`, it ends, and every index at which it reads or writes
`probedTable` or `isOccupied` (in a rehash that the `insert` triggers: the old
vectors and the new ones) is below the capacity and inside the vector.  The
storage has exactly `capacity` slots, and every index that `probe` returns is
`< capacity`. -/
theorem probe_exhausted_unreachable (t : HashTable K V) (hr : Reachable hash t)
    (hm : t.collisionMethod = LINEAR_PROBING ∨ t.collisionMethod = DOUBLE_HASHING)
    (key : K) (value : V) :
    (∀ fuel, ∃ t1, insert hash (fuel + 1) t key value = .ok t1 ∧
      Checked.insert hash (fuel + 1) t key value = .ok t1) ∧
    (∃ r, retrieve hash t key = .ok r ∧ Checked.retrieve hash t key = .ok r) ∧
    (∃ r, remove hash t key = .ok r ∧ Checked.remove hash t key = .ok r) ∧
    t.probedTable.length = t.tableSize ∧ t.isOccupied.length = t.tableSize ∧
    (∀ index i p, probe hash t index i key = .ok p → p < t.tableSize) := by
  have hb := reachable_balanced hash t hr
  have hne : t.collisionMethod ≠ CHAINING := by
    rcases hm with hm | hm <;> rw [hm] <;> decide
  refine ⟨fun fuel => ?_, ?_, ?_, (hb.1.2.2 hne).1, (hb.1.2.2 hne).2,
    fun index i p h => probe_result_lt hash t index i p key hne h⟩
  · obtain ⟨t1, h⟩ := insert_ok_open hash t key value hb hm fuel
    exact ⟨t1, h, by rw [checked_insert_eq hash _ t key value hb.1, h]; rfl⟩
  · obtain ⟨r, h⟩ := retrieve_ok_open hash t key hb hm
    exact ⟨r, h, by rw [checked_retrieve_eq hash t key hb.1, h]; rfl⟩
  · obtain ⟨r, h⟩ := remove_ok_open hash t key hb hm
    exact ⟨r, h, by rw [checked_remove_eq hash t key hb.1, h]; rfl⟩

/-- A double-hashing table of capacity 5 after inserts with a repeated key and
a remove: the next `insert(15, 150)` rehashes to capacity 11, and it, the
`retrieve` and the `remove` of key 15 return normally with every access
checked. -/
theorem probe_exhausted_unreachable_witness :
    Reachable (fun k : Nat => k) tableBeforeGrowth ∧
    tableBeforeGrowth.collisionMethod = DOUBLE_HASHING ∧
    tableBeforeGrowth.tableSize = 5 ∧
    (∃ t1, insert (fun k : Nat => k) 1 tableBeforeGrowth 15 150 = .ok t1 ∧
      Checked.insert (fun k : Nat => k) 1 tableBeforeGrowth 15 150 = .ok t1) ∧
    (resultOr tableBeforeGrowth
      (insert (fun k : Nat => k) 1 tableBeforeGrowth 15 150)).tableSize = 11 ∧
    Checked.retrieve (fun k : Nat => k) tableBeforeGrowth 15 = .ok none ∧
    (∃ r, remove (fun k : Nat => k) tableBeforeGrowth 15 = .ok r ∧
      Checked.remove (fun k : Nat => k) tableBeforeGrowth 15 = .ok r) :=
  have hr : Reachable (fun k : Nat => k) tableBeforeGrowth :=
    ⟨5, DOUBLE_HASHING, 1, [Op.insert 0 0, Op.insert 5 50, Op.insert 5 51, Op.remove 0],
      by decide!⟩
  have h := probe_exhausted_unreachable (fun k : Nat => k) tableBeforeGrowth hr
    (Or.inr (by decide!)) 15 150
  ⟨hr, by decide!, by decide!, h.1 0, by decide!, by decide!, h.2.2.1⟩

/-! ## Chaining: the pairs of one key -/

theorem retrieveBucket_eq_filter (key : K) :
    ∀ bucket : List (K × V),
      retrieveBucket key bucket =
        ((bucket.filter fun pair => pair.1 = key).head?).map Prod.snd := by
  intro bucket
  induction bucket with
  | nil => rfl
  | cons pair rest ih =>
    unfold retrieveBucket
    by_cases hk : pair.1 = key
    · rw [if_pos hk, List.filter_cons_of_pos (by simpa using hk)]
      rfl
    · rw [if_neg hk, List.filter_cons_of_neg (by simpa using hk)]
      exact ih

theorem filter_key_eq_nil (key : K) (h : K → Nat) (n : Nat) (bucket : List (K × V))
    (hb : ∀ pair ∈ bucket, h pair.1 = n) (hne : h key ≠ n) :
    (bucket.filter fun pair => pair.1 = key) = [] := by
  rw [List.filter_eq_nil_iff]
  intro pair hp hk
  have h1 : pair.1 = key := by simpa using hk
  exact hne (h1 ▸ hb pair hp)

/-- When every pair of bucket number `i` has the value `i + off` under `h`, the
pairs with a given key are all in one bucket. -/
theorem flatten_filter_bucket (h : K → Nat) (key : K) :
    ∀ (buckets : List (List (K × V))) (off : Nat),
      (∀ i, ∀ pair ∈ buckets.getD i [], h pair.1 = i + off) →
      (buckets.flatten.filter fun pair => pair.1 = key) =
        if off ≤ h key then (buckets.getD (h key - off) []).filter fun pair => pair.1 = key
        else [] := by
  intro buckets
  induction buckets with
  | nil =>
    intro off _
    split <;> rfl
  | cons x xs ih =>
    intro off hall
    have hx : ∀ pair ∈ x, h pair.1 = off := by
      intro pair hp
      have := hall 0 pair (by simpa using hp)
      omega
    have hxs : ∀ i, ∀ pair ∈ xs.getD i [], h pair.1 = i + (off + 1) := by
      intro i pair hp
      have := hall (i + 1) pair (by simpa using hp)
      omega
    rw [List.flatten_cons, List.filter_append, ih (off + 1) hxs]
    by_cases h1 : off ≤ h key
    · rw [if_pos h1]
      by_cases h2 : h key = off
      · rw [if_neg (by omega), List.append_nil, h2, Nat.sub_self]
        rfl
      · rw [if_pos (by omega), filter_key_eq_nil key h off x hx h2, List.nil_append]
        have h3 : h key - off = (h key - (off + 1)) + 1 := by omega
        rw [h3, List.getD_cons_succ]
    · rw [if_neg h1, if_neg (by omega), filter_key_eq_nil key h off x hx (by omega)]
      rfl

theorem chainOf_eq_bucket (t : HashTable K V) (key : K) (hi : ChainInv hash t) :
    chainOf key t =
      (t.chainedTable.getD (hash key % t.tableSize) []).filter fun pair => pair.1 = key := by
  obtain ⟨_, hm, hhome⟩ := hi
  unfold chainOf entries
  rw [if_pos hm, flatten_filter_bucket (fun k => hash k % t.tableSize) key t.chainedTable 0
    (fun i pair hp => hhome.1 hm i pair hp), if_pos (Nat.zero_le _), Nat.sub_zero]

/-- Under chaining `retrieve` returns the value of the first stored pair with
the key. -/
theorem retrieve_chaining (t : HashTable K V) (key : K) (hi : ChainInv hash t) :
    retrieve hash t key = .ok (((chainOf key t).head?).map Prod.snd) := by
  rw [chainOf_eq_bucket hash t key hi]
  obtain ⟨hwf, hm, _⟩ := hi
  unfold retrieve
  rw [hashFunction_ok hash t key hwf.1.pos.ne']
  simp only [hm, if_true]
  rw [retrieveBucket_eq_filter]

/-! ## Chaining: `insert` -/

theorem insertEntry_chainInv (t t1 : HashTable K V) (key : K) (value : V)
    (hi : ChainInv hash t) (h : insertEntry hash t key value = .ok t1) :
    ChainInv hash t1 ∧
    ∀ key1, chainOf key1 t1 =
      chainOf key1 t ++ [(key, value)].filter fun pair => pair.1 = key1 := by
  have hwf1 := insertEntry_wellFormed hash t t1 key value hi.1 h
  obtain ⟨hwf, hm, hhome⟩ := hi
  obtain ⟨hp, hc, _⟩ := hwf
  have hidx : hash key % t.tableSize < t.chainedTable.length := by
    rw [hc hm]; exact Nat.mod_lt _ hp.pos
  rw [insertEntry_chaining hash t key value hm hp.pos.ne'] at h
  cases h
  have hinv : ChainInv hash
      { t with
        chainedTable := t.chainedTable.set (hash key % t.tableSize)
          (t.chainedTable.getD (hash key % t.tableSize) [] ++ [(key, value)])
        currentSize := t.currentSize + 1 } := by
    refine ⟨hwf1, hm, fun _ b pair hmem => ?_, fun h2 => absurd hm h2⟩
    simp only at hmem ⊢
    by_cases hb : b = hash key % t.tableSize
    · subst hb
      rw [getD_set_self _ _ _ _ hidx] at hmem
      rcases List.mem_append.mp hmem with h1 | h1
      · exact hhome.1 hm _ pair h1
      · rw [List.mem_singleton] at h1
        rw [h1]
    · rw [getD_set_ne _ _ _ _ _ hb] at hmem
      exact hhome.1 hm b pair hmem
  refine ⟨hinv, fun key1 => ?_⟩
  rw [chainOf_eq_bucket hash _ key1 hinv, chainOf_eq_bucket hash t key1 ⟨⟨hp, hc, by
    intro h2; exact absurd hm h2⟩, hm, hhome⟩]
  simp only
  by_cases hb : hash key1 % t.tableSize = hash key % t.tableSize
  · rw [hb, getD_set_self _ _ _ _ hidx, List.filter_append]
  · rw [getD_set_ne _ _ _ _ _ hb]
    have hk : ¬ key = key1 := fun hk => hb (by rw [hk])
    rw [List.filter_cons_of_neg (by simpa using hk)]
    simp

theorem chainInv_cout (t : HashTable K V) (out : List Output) (h : ChainInv hash t) :
    ChainInv hash { t with cout := out } := h

theorem chainOf_cout (t : HashTable K V) (out : List Output) (key : K) :
    chainOf key { t with cout := out } = chainOf key t := rfl

theorem reinsert_chainInv (ins : HashTable K V → K → V → Except Error (HashTable K V))
    (hins : ∀ t key value t1, ChainInv hash t → ins t key value = .ok t1 →
      ChainInv hash t1 ∧
      ∀ key1, chainOf key1 t1 =
        chainOf key1 t ++ [(key, value)].filter fun pair => pair.1 = key1) :
    ∀ (l : List (K × V)) (t0 t2 : HashTable K V), ChainInv hash t0 →
      reinsertBucket ins t0 l = .ok t2 →
      ChainInv hash t2 ∧
      ∀ key1, chainOf key1 t2 = chainOf key1 t0 ++ l.filter fun pair => pair.1 = key1 := by
  intro l
  induction l with
  | nil =>
    intro t0 t2 hi h
    cases h
    exact ⟨hi, fun key1 => by rw [List.filter_nil, List.append_nil]⟩
  | cons p rest ih =>
    intro t0 t2 hi h
    unfold reinsertBucket at h
    cases h1 : ins t0 p.1 p.2 with
    | error e => rw [h1] at h; cases h
    | ok t1 =>
      rw [h1] at h
      simp only at h
      obtain ⟨hi1, hc1⟩ := hins t0 p.1 p.2 t1 hi h1
      obtain ⟨hi2, hc2⟩ := ih t1 t2 hi1 h
      refine ⟨hi2, fun key1 => ?_⟩
      rw [hc2 key1, hc1 key1, List.append_assoc, ← List.filter_append]
      rfl

theorem rehashStart_chainInv (t : HashTable K V) (hm : t.collisionMethod = CHAINING) :
    ChainInv hash (rehashStart t) :=
  ⟨rehashStart_wellFormed t, by rw [(rehashStart_fields t).2.2.1, hm],
    (rehashStart_sound hash t).2.1⟩

/-- Under chaining a call of `insert` appends its pair to the pairs of its key
and leaves the pairs of every other key as they are, in the same order, also
when it rehashes. -/
theorem insert_chainInv :
    ∀ (fuel : Nat) (t : HashTable K V) (key : K) (value : V) (t1 : HashTable K V),
      ChainInv hash t → insert hash fuel t key value = .ok t1 →
      ChainInv hash t1 ∧
      ∀ key1, chainOf key1 t1 =
        chainOf key1 t ++ [(key, value)].filter fun pair => pair.1 = key1 := by
  intro fuel
  induction fuel with
  | zero =>
    intro t key value t1 hi h
    cases he : insertEntry hash t key value with
    | error e => rw [insert_of_error hash 0 t key value e he] at h; cases h
    | ok t0 =>
      by_cases hl : 4 * t0.currentSize > 3 * t0.tableSize
      · rw [insert_zero_of_large hash t t0 key value he hl] at h
        cases h
      · rw [insert_of_small hash 0 t t0 key value he hl] at h
        cases h
        exact insertEntry_chainInv hash t _ key value hi he
  | succ fuel ih =>
    intro t key value t1 hi h
    cases he : insertEntry hash t key value with
    | error e => rw [insert_of_error hash _ t key value e he] at h; cases h
    | ok t0 =>
      obtain ⟨hi0, hc0⟩ := insertEntry_chainInv hash t t0 key value hi he
      by_cases hl : 4 * t0.currentSize > 3 * t0.tableSize
      · rw [insert_of_large hash fuel t t0 key value he hl, rehash_eq] at h
        cases hr : reinsertBucket (insert hash fuel) (rehashStart t0) (entries t0) with
        | error e => rw [hr] at h; cases h
        | ok t2 =>
          rw [hr] at h
          cases h
          obtain ⟨hi2, hc2⟩ := reinsert_chainInv hash (insert hash fuel) ih (entries t0)
            (rehashStart t0) t2 (rehashStart_chainInv hash t0 hi0.2.1) hr
          refine ⟨chainInv_cout hash t2 _ hi2, fun key1 => ?_⟩
          rw [chainOf_cout, hc2 key1, ← hc0 key1]
          unfold chainOf
          rw [rehashStart_entries]
          rfl
      · rw [insert_of_small hash _ t t0 key value he hl] at h
        cases h
        exact ⟨hi0, hc0⟩

/-! ## Chaining: `remove` -/

theorem removeBucket_filter (key key1 : K) (hne : key ≠ key1) :
    ∀ (bucket rest : List (K × V)), removeBucket key bucket = some rest →
      (rest.filter fun pair => pair.1 = key1) = bucket.filter fun pair => pair.1 = key1 := by
  intro bucket
  induction bucket with
  | nil => intro rest h; cases h
  | cons pair tail ih =>
    intro rest h
    unfold removeBucket at h
    by_cases hk : pair.1 = key
    · rw [if_pos hk] at h
      cases h
      have : ¬ pair.1 = key1 := fun h1 => hne (hk ▸ h1)
      rw [List.filter_cons_of_neg (by simpa using this)]
    · rw [if_neg hk] at h
      cases hr : removeBucket key tail with
      | none => rw [hr] at h; cases h
      | some rest1 =>
        rw [hr] at h
        cases h
        rw [List.filter_cons, List.filter_cons, ih rest1 hr]

theorem remove_chainInv (t t1 : HashTable K V) (key : K) (b : Bool)
    (hi : ChainInv hash t) (h : remove hash t key = .ok (b, t1)) :
    ChainInv hash t1 ∧ ∀ key1, key ≠ key1 → chainOf key1 t1 = chainOf key1 t := by
  have hwf1 := remove_wellFormed hash t t1 key b hi.1 h
  rcases remove_cases hash t t1 key b h with
    ⟨_, rfl⟩ | ⟨_, _, rest, hr, rfl⟩ | ⟨_, hm2, _⟩
  · exact ⟨hi, fun _ _ => rfl⟩
  · have hi0 := hi
    obtain ⟨hwf, hm, hhome⟩ := hi
    obtain ⟨hp, hc, _⟩ := hwf
    have hidx : hash key % t.tableSize < t.chainedTable.length := by
      rw [hc hm]; exact Nat.mod_lt _ hp.pos
    obtain ⟨value, hperm⟩ := removeBucket_perm key _ rest hr
    have hinv : ChainInv hash
        { t with chainedTable := t.chainedTable.set (hash key % t.tableSize) rest } := by
      refine ⟨hwf1, hm, fun _ b pair hmem => ?_, fun h2 => absurd hm h2⟩
      simp only at hmem ⊢
      by_cases hb : b = hash key % t.tableSize
      · subst hb
        rw [getD_set_self _ _ _ _ hidx] at hmem
        exact hhome.1 hm _ pair (hperm.mem_iff.mpr (List.mem_cons_of_mem _ hmem))
      · rw [getD_set_ne _ _ _ _ _ hb] at hmem
        exact hhome.1 hm b pair hmem
    refine ⟨hinv, fun key1 hne => ?_⟩
    rw [chainOf_eq_bucket hash _ key1 hinv, chainOf_eq_bucket hash t key1 hi0]
    simp only
    by_cases hb : hash key1 % t.tableSize = hash key % t.tableSize
    · rw [hb, getD_set_self _ _ _ _ hidx]
      exact removeBucket_filter key key1 hne _ rest hr
    · rw [getD_set_ne _ _ _ _ _ hb]
  · exact absurd hi.2.1 hm2

/-! ## Chaining: reachable tables -/

theorem new_chainInv (size : Nat) :
    ChainInv hash (HashTable.new size CHAINING : HashTable K V) :=
  ⟨new_wellFormed size CHAINING, (new_fields size CHAINING).2.2.1,
    (new_sound hash size CHAINING).2.1⟩

theorem runOps_chainInv (fuel : Nat) :
    ∀ (ops : List (Op K V)) (t t1 : HashTable K V), ChainInv hash t →
      runOps hash fuel t ops = .ok t1 → ChainInv hash t1 := by
  intro ops
  induction ops with
  | nil => intro t t1 hi h; cases h; exact hi
  | cons op rest ih =>
    intro t t1 hi h
    unfold runOps at h
    cases ha : applyOp hash fuel t op with
    | error e => rw [ha] at h; cases h
    | ok t0 =>
      rw [ha] at h
      refine ih t0 t1 ?_ h
      cases op with
      | insert key value => exact (insert_chainInv hash fuel t key value t0 hi ha).1
      | remove key =>
        simp only [applyOp] at ha
        cases hr : remove hash t key with
        | error e => rw [hr] at ha; cases ha
        | ok r =>
          rw [hr] at ha
          cases ha
          exact (remove_chainInv hash t r.2 key r.1 hi hr).1

theorem runOps_method (fuel : Nat) :
    ∀ (ops : List (Op K V)) (t t1 : HashTable K V), Balanced t →
      runOps hash fuel t ops = .ok t1 → t1.collisionMethod = t.collisionMethod := by
  intro ops
  induction ops with
  | nil => intro t t1 _ h; cases h; rfl
  | cons op rest ih =>
    intro t t1 hb h
    unfold runOps at h
    cases ha : applyOp hash fuel t op with
    | error e => rw [ha] at h; cases h
    | ok t0 =>
      rw [ha] at h
      rw [ih t0 t1 (applyOp_balanced hash fuel t t0 op hb ha) h]
      cases op with
      | insert key value => exact ((insert_balanced hash t key value hb).2 fuel t0 ha).2.1
      | remove key =>
        simp only [applyOp] at ha
        cases hr : remove hash t key with
        | error e => rw [hr] at ha; cases ha
        | ok r =>
          rw [hr] at ha
          cases ha
          exact (remove_fields hash t r.2 key r.1 hr).2.1

theorem reachable_chainInv (t : HashTable K V) (hr : Reachable hash t)
    (hm : t.collisionMethod = CHAINING) : ChainInv hash t := by
  obtain ⟨size, m, fuel, ops, hops⟩ := hr
  have h1 := runOps_method hash fuel ops _ t (new_balanced size m) hops
  rw [hm, (new_fields size m).2.2.1] at h1
  subst h1
  exact runOps_chainInv hash fuel ops _ t (new_chainInv hash size) hops

/-- C18. Under chaining, for every reachable table state (repeated keys
allowed), every two distinct keys `k ≠ k'` and every value `v`: what
`retrieve(k')` returns (found or not, and the value) is the same after
`insert(k, v)` as before it, also when that insert rehashes, and the same
after `remove(k)` as before it. -/
theorem chaining_frame (t : HashTable K V) (hr : Reachable hash t)
    (hm : t.collisionMethod = CHAINING) (key key1 : K) (hne : key ≠ key1) (value : V) :
    (∀ fuel t1, insert hash fuel t key value = .ok t1 →
      retrieve hash t1 key1 = retrieve hash t key1) ∧
    (∀ b t1, remove hash t key = .ok (b, t1) →
      retrieve hash t1 key1 = retrieve hash t key1) := by
  have hi := reachable_chainInv hash t hr hm
  refine ⟨fun fuel t1 h => ?_, fun b t1 h => ?_⟩
  · obtain ⟨hi1, hc1⟩ := insert_chainInv hash fuel t key value t1 hi h
    rw [retrieve_chaining hash t1 key1 hi1, retrieve_chaining hash t key1 hi, hc1 key1,
      List.filter_cons_of_neg (by simpa using hne)]
    simp
  · obtain ⟨hi1, hc1⟩ := remove_chainInv hash t t1 key b hi h
    rw [retrieve_chaining hash t1 key1 hi1, retrieve_chaining hash t key1 hi, hc1 key1 hne]

/-- A chaining table with keys 4 and 9 in one bucket: `insert(4, 7)` rehashes
(capacity 5 to 11) and `retrieve(9)` returns 3 before and after it. -/
theorem chaining_frame_witness :
    Reachable (fun k : Nat => k) chainedTableOfThree ∧
    chainedTableOfThree.collisionMethod = CHAINING ∧ (4 : Nat) ≠ 9 ∧
    chainedTableOfThree.tableSize = 5 ∧
    (resultOr chainedTableOfThree
      (insert (fun k : Nat => k) 1 chainedTableOfThree 4 7)).tableSize = 11 ∧
    retrieve (fun k : Nat => k) chainedTableOfThree 9 = .ok (some 3) ∧
    retrieve (fun k : Nat => k)
      (resultOr chainedTableOfThree (insert (fun k : Nat => k) 1 chainedTableOfThree 4 7)) 9 =
      retrieve (fun k : Nat => k) chainedTableOfThree 9 :=
  have hr : Reachable (fun k : Nat => k) chainedTableOfThree :=
    ⟨2, CHAINING, 1, [Op.insert 0 1, Op.insert 4 2, Op.insert 9 3], by decide!⟩
  ⟨hr, by decide!, by decide, by decide!, by decide!, by decide!,
    (chaining_frame (fun k : Nat => k) chainedTableOfThree hr (by decide!) 4 9 (by decide) 7).1 1
      _ (by decide!)⟩



/-! ## The variant of `HashTable.cpp` -/

theorem variant_probe_lt (t : CppVariant.HashTable K V) (index i : Nat)
    (hpos : 0 < t.tableSize) (hidx : index < t.tableSize) :
    CppVariant.probe t index i < t.tableSize := by
  unfold CppVariant.probe
  split
  · exact Nat.mod_lt _ hpos
  · split
    · exact Nat.mod_lt _ hpos
    · exact hidx

/-- Writing a value into slot `p` beside the key stored there changes no key. -/
theorem variant_key_set (l : List (K × V)) (p s : Nat) (value : V) :
    ((l.set p ((l.getD p default).1, value)).getD s default).1 = (l.getD s default).1 := by
  by_cases hsp : s = p
  · subst hsp
    by_cases hlt : s < l.length
    · rw [getD_set_self l s _ default hlt]
    · rw [List.set_eq_of_length_le (by omega)]
  · rw [getD_set_ne l p s _ default hsp]

/-- Where `retrieve` finds the key, the loop of `insert` stops on the same
occupied slot. -/
theorem variant_insertLoop_of_retrieve (t : CppVariant.HashTable K V) (index : Nat) (key : K)
    (v0 : V) :
    ∀ steps i, CppVariant.retrieveLoop t index key steps i = .ok (some v0) →
      ∃ j, CppVariant.insertLoop t index key steps i =
          .ok (.found (CppVariant.probe t index j)) ∧
        t.isOccupied.getD (CppVariant.probe t index j) false = true ∧
        (t.table.getD (CppVariant.probe t index j) default).1 = key ∧
        (t.table.getD (CppVariant.probe t index j) default).2 = v0 := by
  intro steps
  induction steps with
  | zero =>
    intro i h
    simp [CppVariant.retrieveLoop] at h
  | succ n ih =>
    intro i h
    unfold CppVariant.retrieveLoop at h
    unfold CppVariant.insertLoop
    by_cases ho : t.isOccupied.getD (CppVariant.probe t index i) false = true
    · rw [if_pos ho] at h ⊢
      by_cases hk : (t.table.getD (CppVariant.probe t index i) default).1 = key
      · rw [if_pos hk] at h ⊢
        refine ⟨i, rfl, ho, hk, ?_⟩
        injection h with h
        injection h
      · rw [if_neg hk] at h ⊢
        exact ih (i + 1) h
    · rw [if_neg ho] at h
      injection h with h
      cases h

/-- After the value in the slot found by `insert` is replaced, the loop of
`retrieve` stops on that slot and yields the new value. -/
theorem variant_retrieveLoop_updated (t : CppVariant.HashTable K V) (index : Nat) (key : K)
    (value : V) (p : Nat) (hp : p < t.table.length) :
    ∀ steps i, CppVariant.insertLoop t index key steps i = .ok (.found p) →
      CppVariant.retrieveLoop
        { t with table := t.table.set p ((t.table.getD p default).1, value) }
        index key steps i = .ok (some value) := by
  intro steps
  induction steps with
  | zero =>
    intro i h
    simp [CppVariant.insertLoop] at h
  | succ n ih =>
    intro i h
    unfold CppVariant.insertLoop at h
    unfold CppVariant.retrieveLoop
    have hprobe : CppVariant.probe
        { t with table := t.table.set p ((t.table.getD p default).1, value) } index i =
        CppVariant.probe t index i := rfl
    rw [hprobe]
    show (if t.isOccupied.getD (CppVariant.probe t index i) false = true then
        if ((t.table.set p ((t.table.getD p default).1, value)).getD
            (CppVariant.probe t index i) default).1 = key then
          Except.ok (some ((t.table.set p ((t.table.getD p default).1, value)).getD
            (CppVariant.probe t index i) default).2)
        else CppVariant.retrieveLoop
          { t with table := t.table.set p ((t.table.getD p default).1, value) }
          index key n (i + 1)
      else Except.ok none) = Except.ok (some value)
    rw [variant_key_set]
    by_cases ho : t.isOccupied.getD (CppVariant.probe t index i) false = true
    · rw [if_pos ho] at h ⊢
      by_cases hk : (t.table.getD (CppVariant.probe t index i) default).1 = key
      · rw [if_pos hk] at h ⊢
        injection h with h
        injection h with h
        rw [h, getD_set_self t.table p _ default hp]
      · rw [if_neg hk] at h ⊢
        exact ih (i + 1) h
    · rw [if_neg ho] at h
      injection h with h
      cases h

/-- Setting an unoccupied flag adds one to the number of occupied slots. -/
theorem variant_count_set_true :
    ∀ (l : List Bool) (p : Nat), p < l.length → l.getD p false = false →
      (l.set p true).count true = l.count true + 1 := by
  intro l
  induction l with
  | nil => intro p hp; simp at hp
  | cons a l ih =>
    intro p hp hf
    cases p with
    | zero =>
      simp at hf
      subst hf
      simp
    | succ p =>
      simp at hp hf
      have := ih p hp (by simpa using hf)
      simp [List.count_cons, this]
      omega

/-- Clearing an occupied flag takes one from the number of occupied slots. -/
theorem variant_count_set_false :
    ∀ (l : List Bool) (p : Nat), l.getD p false = true →
      (l.set p false).count true + 1 = l.count true := by
  intro l
  induction l with
  | nil => intro p hf; simp at hf
  | cons a l ih =>
    intro p hf
    cases p with
    | zero =>
      simp at hf
      subst hf
      simp
    | succ p =>
      simp at hf
      have := ih p (by simpa using hf)
      simp [List.count_cons, ← this]
      omega

/-- The loop of `insert` ends on a probed slot: an occupied one that holds the
key, or an unoccupied one. -/
theorem variant_insertLoop_slot (t : CppVariant.HashTable K V) (index : Nat) (key : K) :
    ∀ steps i s, CppVariant.insertLoop t index key steps i = .ok s →
      (∃ j, s = .found (CppVariant.probe t index j) ∧
        t.isOccupied.getD (CppVariant.probe t index j) false = true) ∨
      (∃ j, s = .free (CppVariant.probe t index j) ∧
        t.isOccupied.getD (CppVariant.probe t index j) false = false) := by
  intro steps
  induction steps with
  | zero =>
    intro i s h
    simp [CppVariant.insertLoop] at h
  | succ n ih =>
    intro i s h
    unfold CppVariant.insertLoop at h
    by_cases ho : t.isOccupied.getD (CppVariant.probe t index i) false = true
    · rw [if_pos ho] at h
      by_cases hk : (t.table.getD (CppVariant.probe t index i) default).1 = key
      · rw [if_pos hk] at h
        injection h with h
        exact Or.inl ⟨i, h.symm, ho⟩
      · rw [if_neg hk] at h
        exact ih (i + 1) s h
    · rw [if_neg ho] at h
      injection h with h
      exact Or.inr ⟨i, h.symm, by simpa using ho⟩

/-- The loop of `remove` ends on an occupied probed slot when it finds the key. -/
theorem variant_removeLoop_slot (t : CppVariant.HashTable K V) (index : Nat) (key : K) :
    ∀ steps i p, CppVariant.removeLoop t index key steps i = .ok (some p) →
      t.isOccupied.getD p false = true := by
  intro steps
  induction steps with
  | zero =>
    intro i p h
    simp [CppVariant.removeLoop] at h
  | succ n ih =>
    intro i p h
    unfold CppVariant.removeLoop at h
    by_cases ho : t.isOccupied.getD (CppVariant.probe t index i) false = true
    · rw [if_pos ho] at h
      by_cases hk : (t.table.getD (CppVariant.probe t index i) default).1 = key
      · rw [if_pos hk] at h
        injection h with h
        injection h with h
        rw [← h]
        exact ho
      · rw [if_neg hk] at h
        exact ih (i + 1) p h
    · rw [if_neg ho] at h
      injection h with h
      cases h

theorem variant_new_counted (size : Nat) (method : CollisionMethod) :
    CppVariant.Counted (CppVariant.HashTable.new size method : CppVariant.HashTable K V) := by
  refine ⟨⟨?_, ?_⟩, ?_⟩
  · simp [CppVariant.HashTable.new]
  · simp [CppVariant.HashTable.new]
  · simp [CppVariant.HashTable.new, List.count_replicate]

theorem variant_insertEntry_counted (steps : Nat) (t : CppVariant.HashTable K V) (key : K)
    (value : V) (hc : CppVariant.Counted t) (r : Bool × CppVariant.HashTable K V)
    (h : CppVariant.insertEntry hash steps t key value = .ok r) :
    CppVariant.Counted r.2 := by
  unfold CppVariant.insertEntry at h
  unfold CppVariant.hashFunction at h
  by_cases hz : t.tableSize = 0
  · rw [if_pos hz] at h
    cases h
  · rw [if_neg hz] at h
    simp only at h
    cases hl : CppVariant.insertLoop t (hash key % t.tableSize) key steps 0 with
    | error e =>
      rw [hl] at h
      cases h
    | ok s =>
      rw [hl] at h
      obtain ⟨⟨ht, ho⟩, hcs⟩ := hc
      have hidx : hash key % t.tableSize < t.tableSize := Nat.mod_lt _ (by omega)
      rcases variant_insertLoop_slot t _ key steps 0 s hl with ⟨j, hs, _⟩ | ⟨j, hs, hfree⟩
      · subst hs
        simp only at h
        injection h with h
        subst h
        exact ⟨⟨by simp [ht], ho⟩, hcs⟩
      · subst hs
        simp only at h
        injection h with h
        subst h
        have hlt := variant_probe_lt t (hash key % t.tableSize) j (by omega) hidx
        refine ⟨⟨by simp [ht], by simp [ho]⟩, ?_⟩
        show (t.currentSize + 1) % 2 ^ 64 =
          (t.isOccupied.set (CppVariant.probe t (hash key % t.tableSize) j) true).count true %
            2 ^ 64
        rw [variant_count_set_true t.isOccupied _ (by omega) hfree]
        omega

theorem variant_reinsert_counted
    (ins : CppVariant.HashTable K V → K → V → Except Error (CppVariant.HashTable K V))
    (hins : ∀ t key value t1, CppVariant.Counted t → ins t key value = .ok t1 →
      CppVariant.Counted t1)
    (oldTable : List (K × V)) (oldOccupied : List Bool) :
    ∀ (l : List Nat) (t t1 : CppVariant.HashTable K V), CppVariant.Counted t →
      CppVariant.reinsertSlots ins oldTable oldOccupied t l = .ok t1 →
      CppVariant.Counted t1 := by
  intro l
  induction l with
  | nil =>
    intro t t1 hc h
    simp only [CppVariant.reinsertSlots] at h
    injection h with h
    rw [← h]
    exact hc
  | cons i rest ih =>
    intro t t1 hc h
    simp only [CppVariant.reinsertSlots] at h
    by_cases ho : oldOccupied.getD i false = true
    · rw [if_pos ho] at h
      cases hi : ins t (oldTable.getD i default).1 (oldTable.getD i default).2 with
      | error e =>
        rw [hi] at h
        cases h
      | ok t2 =>
        rw [hi] at h
        exact ih t2 t1 (hins t _ _ t2 hc hi) h
    · rw [if_neg ho] at h
      exact ih t t1 hc h

theorem variant_rehash_counted
    (ins : CppVariant.HashTable K V → K → V → Except Error (CppVariant.HashTable K V))
    (hins : ∀ t key value t1, CppVariant.Counted t → ins t key value = .ok t1 →
      CppVariant.Counted t1)
    (t t1 : CppVariant.HashTable K V) (h : CppVariant.rehash ins t = .ok t1) :
    CppVariant.Counted t1 := by
  unfold CppVariant.rehash at h
  refine variant_reinsert_counted ins hins _ _ _ _ t1 ?_ h
  refine ⟨⟨?_, ?_⟩, ?_⟩
  · simp
  · simp
  · simp [List.count_replicate]

theorem variant_insert_counted (steps : Nat) :
    ∀ (depth : Nat) (t : CppVariant.HashTable K V) (key : K) (value : V)
      (t1 : CppVariant.HashTable K V), CppVariant.Counted t →
      CppVariant.insert hash steps depth t key value = .ok t1 → CppVariant.Counted t1 := by
  intro depth
  induction depth with
  | zero =>
    intro t key value t1 hc h
    unfold CppVariant.insert at h
    cases he : CppVariant.insertEntry hash steps t key value with
    | error e =>
      rw [he] at h
      cases h
    | ok r =>
      have hr := variant_insertEntry_counted hash steps t key value hc r he
      rw [he] at h
      obtain ⟨b, t2⟩ := r
      cases b
      · simp only at h
        injection h with h
        rw [← h]
        exact hr
      · simp only at h
        split at h
        · cases h
        · injection h with h
          rw [← h]
          exact hr
  | succ d ih =>
    intro t key value t1 hc h
    unfold CppVariant.insert at h
    cases he : CppVariant.insertEntry hash steps t key value with
    | error e =>
      rw [he] at h
      cases h
    | ok r =>
      have hr := variant_insertEntry_counted hash steps t key value hc r he
      rw [he] at h
      obtain ⟨b, t2⟩ := r
      cases b
      · simp only at h
        injection h with h
        rw [← h]
        exact hr
      · simp only at h
        split at h
        · exact variant_rehash_counted _ (fun t key value t1 => ih t key value t1) t2 t1 h
        · injection h with h
          rw [← h]
          exact hr

/-- What a `remove` that returned did: nothing when the key was not found;
otherwise it cleared one occupied flag and decremented `currentSize`. -/
theorem variant_remove_cases (steps : Nat) (t : CppVariant.HashTable K V) (key : K)
    (r : Bool × CppVariant.HashTable K V) (h : CppVariant.remove hash steps t key = .ok r) :
    r = (false, t) ∨
    ∃ p, t.isOccupied.getD p false = true ∧
      r = (true, { t with
        isOccupied := t.isOccupied.set p false
        currentSize := (t.currentSize + (2 ^ 64 - 1)) % 2 ^ 64 }) := by
  unfold CppVariant.remove at h
  cases hh : CppVariant.hashFunction hash t key with
  | error e =>
    rw [hh] at h
    cases h
  | ok index =>
    rw [hh] at h
    simp only at h
    cases hl : CppVariant.removeLoop t index key steps 0 with
    | error e =>
      rw [hl] at h
      cases h
    | ok o =>
      rw [hl] at h
      cases o with
      | none =>
        simp only at h
        injection h with h
        exact Or.inl h.symm
      | some p =>
        simp only at h
        injection h with h
        exact Or.inr ⟨p, variant_removeLoop_slot t index key steps 0 p hl, h.symm⟩

theorem variant_remove_counted (steps : Nat) (t : CppVariant.HashTable K V) (key : K)
    (hc : CppVariant.Counted t) (r : Bool × CppVariant.HashTable K V)
    (h : CppVariant.remove hash steps t key = .ok r) : CppVariant.Counted r.2 := by
  rcases variant_remove_cases hash steps t key r h with hr | ⟨p, hocc, hr⟩
  · rw [hr]
    exact hc
  · rw [hr]
    obtain ⟨⟨ht, ho⟩, hcs⟩ := hc
    refine ⟨⟨ht, by simp [ho]⟩, ?_⟩
    show (t.currentSize + (2 ^ 64 - 1)) % 2 ^ 64 =
      (t.isOccupied.set p false).count true % 2 ^ 64
    have := variant_count_set_false t.isOccupied p hocc
    omega

theorem variant_runOps_counted (steps depth : Nat) :
    ∀ (ops : List (Op K V)) (t t1 : CppVariant.HashTable K V), CppVariant.Counted t →
      CppVariant.runOps hash steps depth t ops = .ok t1 → CppVariant.Counted t1 := by
  intro ops
  induction ops with
  | nil =>
    intro t t1 hc h
    simp only [CppVariant.runOps] at h
    injection h with h
    rw [← h]
    exact hc
  | cons op rest ih =>
    intro t t1 hc h
    simp only [CppVariant.runOps] at h
    cases ha : CppVariant.applyOp hash steps depth t op with
    | error e =>
      rw [ha] at h
      cases h
    | ok t2 =>
      rw [ha] at h
      refine ih t2 t1 ?_ h
      cases op with
      | insert key value => exact variant_insert_counted hash steps depth t key value t2 hc ha
      | remove key =>
        simp only [CppVariant.applyOp] at ha
        cases hr : CppVariant.remove hash steps t key with
        | error e =>
          rw [hr] at ha
          cases ha
        | ok r =>
          rw [hr] at ha
          injection ha with ha
          rw [← ha]
          exact variant_remove_counted hash steps t key hc r hr

theorem variant_reachable_counted (t : CppVariant.HashTable K V)
    (hr : CppVariant.Reachable hash t) : CppVariant.Counted t := by
  obtain ⟨size, method, steps, depth, ops, h⟩ := hr
  exact variant_runOps_counted hash steps depth ops _ t (variant_new_counted size method) h

/-- C19. In the table of `HashTable.cpp` (linear or quadratic probing): for
every state whose vectors have `tableSize` elements, every key and every value,
if `retrieve(key)` returns `true` (with value `v0`), then there is an occupied
slot `p` below `tableSize` holding `(key, v0)` such that `insert(key, value)`
returns, and its result is the state with the entry of slot `p` replaced by
`(key, value)` and nothing else changed (`currentSize`, `tableSize`, every
occupancy flag and every other entry are the same), and a following
`retrieve(key)` yields `value`.  And in every state reachable from the
constructor by calls that returned, with `tableSize` a 64-bit number, a
`remove(key)` that returns `true` leaves `currentSize` one less than before
(and `tableSize` as it was). -/
theorem variant_update_in_place (steps : Nat) (t : CppVariant.HashTable K V) (key : K) :
    (CppVariant.SizesOk t → ∀ v0 value,
      CppVariant.retrieve hash steps t key = .ok (some v0) →
      ∃ p, p < t.tableSize ∧ t.isOccupied.getD p false = true ∧
        t.table.getD p default = (key, v0) ∧
        (∀ depth, CppVariant.insert hash steps depth t key value =
          .ok { t with table := t.table.set p (key, value) }) ∧
        CppVariant.retrieve hash steps { t with table := t.table.set p (key, value) } key =
          .ok (some value)) ∧
    (CppVariant.Reachable hash t → t.tableSize < 2 ^ 64 →
      ∀ t1, CppVariant.remove hash steps t key = .ok (true, t1) →
        t1.currentSize + 1 = t.currentSize ∧ t1.tableSize = t.tableSize) := by
  constructor
  · intro hs v0 value h
    unfold CppVariant.retrieve at h
    have hhash : ∀ t0 : CppVariant.HashTable K V, t0.tableSize = t.tableSize →
        CppVariant.hashFunction hash t0 key = CppVariant.hashFunction hash t key := by
      intro t0 h0
      unfold CppVariant.hashFunction
      rw [h0]
    by_cases hz : t.tableSize = 0
    · have : CppVariant.hashFunction hash t key = .error .divisionByZero := by
        unfold CppVariant.hashFunction
        rw [if_pos hz]
      rw [this] at h
      cases h
    · have hh : CppVariant.hashFunction hash t key = .ok (hash key % t.tableSize) := by
        unfold CppVariant.hashFunction
        rw [if_neg hz]
      rw [hh] at h
      simp only at h
      obtain ⟨j, hl, hocc, hk, hv⟩ :=
        variant_insertLoop_of_retrieve t (hash key % t.tableSize) key v0 steps 0 h
      have hlt := variant_probe_lt t (hash key % t.tableSize) j (by omega)
        (Nat.mod_lt _ (by omega))
      generalize CppVariant.probe t (hash key % t.tableSize) j = p at hl hocc hk hv hlt
      have he : CppVariant.insertEntry hash steps t key value =
          .ok (false, { t with table := t.table.set p ((t.table.getD p default).1, value) }) := by
        unfold CppVariant.insertEntry
        rw [hh]
        simp only
        rw [hl]
      have hentry : ∀ depth, CppVariant.insert hash steps depth t key value =
          .ok { t with table := t.table.set p ((t.table.getD p default).1, value) } := by
        intro depth
        cases depth with
        | zero =>
          unfold CppVariant.insert
          rw [he]
        | succ d =>
          unfold CppVariant.insert
          rw [he]
      have hret := variant_retrieveLoop_updated t (hash key % t.tableSize) key value p
        (by rw [hs.1]; exact hlt) steps 0 hl
      rw [hk] at hentry hret
      refine ⟨_, hlt, hocc, Prod.ext hk hv, hentry, ?_⟩
      unfold CppVariant.retrieve
      rw [hhash { t with table := t.table.set p (key, value) } rfl, hh]
      exact hret
  · intro hr hlt t1 h
    obtain ⟨⟨_, ho⟩, hcs⟩ := variant_reachable_counted hash t hr
    rcases variant_remove_cases hash steps t key _ h with hc | ⟨p, hocc, hc⟩
    · cases hc
    · injection hc with _ hc
      rw [hc]
      refine ⟨?_, rfl⟩
      show (t.currentSize + (2 ^ 64 - 1)) % 2 ^ 64 + 1 = t.currentSize
      have h1 := variant_count_set_false t.isOccupied p hocc
      have h2 : t.isOccupied.count true ≤ t.isOccupied.length := List.count_le_length _ _
      omega

/-- The table with keys 1, 9 and 3 (capacity 8, linear probing): key 9 is in
slot 2; `insert(9, 99)` replaces its value and nothing else, and `remove(9)`
takes the entry count from 3 to 2. -/
theorem variant_update_in_place_witness :
    CppVariant.SizesOk variantTableOfThree ∧
    CppVariant.Reachable (fun k : Nat => k) variantTableOfThree ∧
    variantTableOfThree.tableSize < 2 ^ 64 ∧
    CppVariant.retrieve (fun k : Nat => k) 8 variantTableOfThree 9 = .ok (some 20) ∧
    (∃ p, p < variantTableOfThree.tableSize ∧
      variantTableOfThree.isOccupied.getD p false = true ∧
      variantTableOfThree.table.getD p default = (9, 20) ∧
      (∀ depth, CppVariant.insert (fun k : Nat => k) 8 depth variantTableOfThree 9 99 =
        .ok { variantTableOfThree with table := variantTableOfThree.table.set p (9, 99) }) ∧
      CppVariant.retrieve (fun k : Nat => k) 8
        { variantTableOfThree with table := variantTableOfThree.table.set p (9, 99) } 9 =
        .ok (some 99)) ∧
    (∃ t1, CppVariant.remove (fun k : Nat => k) 8 variantTableOfThree 9 = .ok (true, t1) ∧
      t1.currentSize + 1 = variantTableOfThree.currentSize ∧
      variantTableOfThree.currentSize = 3) :=
  have hs : CppVariant.SizesOk variantTableOfThree := ⟨by decide!, by decide!⟩
  have hr : CppVariant.Reachable (fun k : Nat => k) variantTableOfThree :=
    ⟨8, LINEAR_PROBING, 8, 1, [Op.insert 1 10, Op.insert 9 20, Op.insert 3 30], by decide!⟩
  have hb : variantTableOfThree.tableSize < 2 ^ 64 := by decide!
  have hget : CppVariant.retrieve (fun k : Nat => k) 8 variantTableOfThree 9 = .ok (some 20) := by
    decide!
  have hrem : CppVariant.remove (fun k : Nat => k) 8 variantTableOfThree 9 =
      .ok (true, (resultOr (false, variantTableOfThree)
        (CppVariant.remove (fun k : Nat => k) 8 variantTableOfThree 9)).2) := by decide!
  have h := variant_update_in_place (fun k : Nat => k) 8 variantTableOfThree 9
  ⟨hs, hr, hb, hget, h.1 hs 20 99 hget,
    ⟨_, hrem, (h.2 hr hb _ hrem).1, by decide!⟩⟩



end Theorems

end HT
